import Mathlib

/-!
# search_server: a verification development

A shallow embedding of the in-memory TF-IDF search server (`search_server.h`,
`search_server.cpp`, `string_processing.cpp`, `document.h`, `remove_duplicates.cpp`,
`request_queue.h`, `request_queue.cpp`) together with theorems about it.

Modelling conventions

* A `std::string_view` / `std::string` is a list of characters (`Word`), compared by
  value.  This is what the program does as long as the text a view points into is
  alive.  The keys of both indexes are views into `DocumentData::text`, and
  `RemoveDocument` destroys that text before it reads the views into it:
  `RemoveDocumentRead` has what these views then show as a parameter, `Intact` are the
  states in which no such read has happened, and `RemoveDocument` is the call in which
  the destroyed text still shows its characters.  The control-character test
  `c >= '\0' && c < ' '` holds exactly for the character codes `0 .. 31`, whatever
  the signedness of `char`.
* `std::map<K, V>` is an association list kept in ascending key order, `std::set<K>` an
  ascending list; the operations used by the server are in the namespace `StdMap`.
* `double` is modelled by exact arithmetic in an arbitrary linearly ordered field `R`
  (for instance `ℚ` or `ℝ`); the natural logarithm `log` is a parameter `ln : R → R`.
* A C++ exception is a value of `Exn`.  A mutating member function returns the outcome
  together with the state the object is left in, so that the state after a `throw` can
  be examined as well.
* `int` document ids and ratings are integers; the 32-bit arithmetic of
  `ComputeAverageRating` and of the counters of `RequestQueue` is written out with
  `wrap32`.
* A parallel `for_each` applies the operations of its tasks to the shared accumulator
  one after the other in an order chosen by a schedule; an exception that leaves one of
  its tasks ends the program (`ParExn.terminate`).  The accumulator `ConcurrentMap`,
  whose header is not among the sources, follows section 4.4 of the specification.
* `std::sort` is an insertion sort (`stdSort`).  The library leaves the order of
  elements that the comparator does not order open; `FindTopDocumentsSort` and
  `FindTopDocumentsPar` take the arrangement made by the library as a parameter, and
  `IsSortedBy` is what the library promises about it.  `MatchDocumentPar` is the
  `parallel_policy` overload of `MatchDocument`, whose algorithms (`any_of`, `copy_if`,
  `sort`, `unique`) have the same results under every execution policy.

The file has two parts: the definitions (the embedding, the notions of the
specification, the representation invariant), then the theorems, the claims `C1`, `C2`,
... at the end.
-/

namespace SearchServer

/-! ## Strings and tokenisation (`string_processing.cpp`) -/

/-- A `std::string_view`, by value. -/
abbrev Word := List Char

/-- The `while` loop of `SplitIntoWords`.  Every iteration removes at least one
character of `str`, so `str.length` iterations always suffice; `fuel` bounds them. -/
def SplitIntoWords.loop : Nat → List Char → List Word → List Word
  | 0, _, result => result
  | _ + 1, [], result => result
  | fuel + 1, c :: cs, result =>
    if c = ' ' then
      -- `space == 0`: `str.remove_prefix(space + 1)`
      SplitIntoWords.loop fuel cs result
    else
      -- `result.push_back(str.substr(0, space))`, then drop that slice
      SplitIntoWords.loop fuel ((c :: cs).dropWhile (fun x => decide (x ≠ ' ')))
        (result ++ [(c :: cs).takeWhile (fun x => decide (x ≠ ' '))])

/-- `SplitIntoWords(str)`: skip the leading spaces (`find_first_not_of(' ')`), then run
the loop. -/
def SplitIntoWords (str : List Char) : List Word :=
  SplitIntoWords.loop str.length (str.dropWhile (fun x => decide (x = ' '))) []

/-! ## `std::map`, `std::set`, `std::sort`, `std::unique` -/

namespace StdMap

variable {K V : Type}

/-- `m.find(k)` / `m.at(k)`: the value under `k`; `none` is the `std::out_of_range` of
`at`. -/
def find [DecidableEq K] : List (K × V) → K → Option V
  | [], _ => none
  | (k', v) :: rest, k => if k' = k then some v else find rest k

/-- `m.count(k)`. -/
def count [DecidableEq K] (m : List (K × V)) (k : K) : Nat :=
  if (find m k).isSome then 1 else 0

/-- `m.erase(k)`. -/
def erase [DecidableEq K] (m : List (K × V)) (k : K) : List (K × V) :=
  m.filter (fun p => decide (p.1 ≠ k))

/-- `m[k] = f(m[k])`: `operator[]` default-constructs the value `dflt` at the ordered
position of `k` when the key is absent, then the value is replaced by its image under
`f`. -/
def update [LinearOrder K] (k : K) (dflt : V) (f : V → V) : List (K × V) → List (K × V)
  | [] => [(k, f dflt)]
  | (k', v) :: rest =>
    if k < k' then (k, f dflt) :: (k', v) :: rest
    else if k' < k then (k', v) :: update k dflt f rest
    else (k', f v) :: rest

/-- `m.emplace(k, v)`: inserts only when the key is absent. -/
def emplace [LinearOrder K] (k : K) (v : V) (m : List (K × V)) : List (K × V) :=
  update k v id m

/-- `m.size()`. -/
def size (m : List (K × V)) : Nat := m.length

/-- The keys of a map, in iteration order. -/
def keys (m : List (K × V)) : List K := m.map Prod.fst

/-- Well-formedness of a map: the keys are strictly ascending (so no key occurs twice). -/
def WF [LinearOrder K] (m : List (K × V)) : Prop := (keys m).Sorted (fun a b => a < b)

/-- `s.insert(k)` on a `std::set`. -/
def setInsert [LinearOrder K] (k : K) : List K → List K
  | [] => [k]
  | k' :: rest =>
    if k < k' then k :: k' :: rest
    else if k' < k then k' :: setInsert k rest
    else k' :: rest

/-- `s.erase(k)` on a `std::set`. -/
def setErase [DecidableEq K] (s : List K) (k : K) : List K :=
  s.filter (fun x => decide (x ≠ k))

/-- `s.count(k)` on a `std::set`. -/
def setCount [DecidableEq K] (s : List K) (k : K) : Nat :=
  if k ∈ s then 1 else 0

end StdMap

/-- `std::sort(first, last, comp)`, as the insertion sort that places every element
behind the elements it is not smaller than.  Where `comp` orders the elements strictly
this is the only arrangement the library may return (`IsSortedBy.arrangement_unique`); elements that
`comp` leaves unordered may come out of the library in another order. -/
def stdSort {α : Type} (comp : α → α → Bool) (l : List α) : List α :=
  l.insertionSort (fun a b => ¬ comp b a = true)

/-- `std::unique` followed by `erase`: of every run of equal adjacent elements only one
is kept. -/
def stdUnique {α : Type} [DecidableEq α] : List α → List α
  | [] => []
  | [a] => [a]
  | a :: b :: rest => if a = b then stdUnique (b :: rest) else a :: stdUnique (b :: rest)

/-! ## Documents (`document.h`) -/

/-- `MAX_RESULT_DOCUMENT_COUNT`. -/
def MAX_RESULT_DOCUMENT_COUNT : Nat := 5

/-- `enum class DocumentStatus`. -/
inductive DocumentStatus
  | ACTUAL
  | IRRELEVANT
  | BANNED
  | REMOVED
  deriving DecidableEq, Repr

/-- `struct Document`. -/
structure Document (R : Type) where
  id : Int
  relevance : R
  rating : Int
  deriving DecidableEq, Repr

/-- The exceptions thrown by the server. -/
inductive Exn
  | invalid_argument
  | out_of_range
  deriving DecidableEq, Repr

deriving instance DecidableEq for Except

/-! ## The server state (`search_server.h`) -/

/-- `SearchServer::DocumentData`. -/
structure DocumentData where
  rating : Int
  status : DocumentStatus
  text : List Char
  deriving DecidableEq, Repr

/-- The data members of `class SearchServer`. -/
structure Server (R : Type) where
  stop_words_ : List Word
  word_frequencies_ : List (Int × List (Word × R))
  word_to_document_freqs_ : List (Word × List (Int × R))
  documents_ : List (Int × DocumentData)
  document_ids_ : List Int

/-- `SearchServer::QueryWord`. -/
structure QueryWord where
  data : Word
  is_minus : Bool
  is_stop : Bool
  deriving DecidableEq, Repr

/-- `SearchServer::Query`. -/
structure Query where
  plus_words : List Word
  minus_words : List Word
  deriving DecidableEq, Repr

/-- A document predicate: a function of (document id, status, rating). -/
abbrev DocumentPredicate := Int → DocumentStatus → Int → Bool

/-- `MAX_DIFFERENCE = 1e-6`. -/
def MAX_DIFFERENCE {R : Type} [LinearOrderedField R] : R := 1 / 1000000

variable {R : Type} [LinearOrderedField R]

/-- A freshly constructed server: the stop words are set, every index is empty. -/
def Server.empty (stop_words : List Word) : Server R :=
  { stop_words_ := stop_words, word_frequencies_ := [], word_to_document_freqs_ := [],
    documents_ := [], document_ids_ := [] }

/-- `SearchServer::IsStopWord`. -/
def IsStopWord (s : Server R) (word : Word) : Bool :=
  decide (word ∈ s.stop_words_)

/-- `SearchServer::IsValidWord`: no character with a code in `0 .. 31`. -/
def IsValidWord (word : Word) : Bool :=
  !(word.any (fun c => decide (c.toNat < 32)))

/-- The `for` loop of `SplitIntoWordsNoStop`. -/
def SplitIntoWordsNoStop.loop (s : Server R) : List Word → List Word → Except Exn (List Word)
  | [], words => .ok words
  | word :: rest, words =>
    if !IsValidWord word then .error Exn.invalid_argument
    else if !IsStopWord s word then SplitIntoWordsNoStop.loop s rest (words ++ [word])
    else SplitIntoWordsNoStop.loop s rest words

/-- `SearchServer::SplitIntoWordsNoStop`. -/
def SplitIntoWordsNoStop (s : Server R) (text : List Char) : Except Exn (List Word) :=
  SplitIntoWordsNoStop.loop s (SplitIntoWords text) []

/-- Reduction of an integer to the range of a 32-bit `int`. -/
def wrap32 (x : Int) : Int := (x + 2147483648) % 4294967296 - 2147483648

/-- `SearchServer::ComputeAverageRating`. -/
def ComputeAverageRating (ratings : List Int) : Int :=
  if ratings = [] then 0
  else
    wrap32 (Int.tdiv (ratings.foldl (fun acc r => wrap32 (acc + r)) 0)
      (wrap32 (ratings.length : Int)))

/-- The body of the `for (string_view word : words)` loop of `AddDocument`. -/
def AddDocument.index_word (document_id : Int) (inv_word_count : R) (s : Server R)
    (word : Word) : Server R :=
  { s with
    word_frequencies_ :=
      StdMap.update document_id [] (StdMap.update word 0 (fun x => x + inv_word_count))
        s.word_frequencies_
    word_to_document_freqs_ :=
      StdMap.update word [] (StdMap.update document_id 0 (fun x => x + inv_word_count))
        s.word_to_document_freqs_ }

/-- Line 10 of `AddDocument`: `documents_.emplace(document_id, DocumentData{...})`. -/
def AddDocument.store_record (s : Server R) (document_id : Int) (document : List Char)
    (status : DocumentStatus) (ratings : List Int) : Server R :=
  { s with
    documents_ :=
      StdMap.emplace document_id
        { rating := ComputeAverageRating ratings, status := status, text := document }
        s.documents_ }

/-- Lines 13 to 23 of `AddDocument`: the frequencies of `words` are entered in both
indexes (or an empty forward entry is created), then the id is registered. -/
def AddDocument.index_words (s : Server R) (document_id : Int) (words : List Word) :
    Server R :=
  let inv_word_count : R := 1 / (words.length : R)
  let indexed : Server R :=
    if words ≠ [] then words.foldl (AddDocument.index_word document_id inv_word_count) s
    else
      { s with
        word_frequencies_ := StdMap.update document_id [] (fun _ => []) s.word_frequencies_ }
  { indexed with document_ids_ := StdMap.setInsert document_id indexed.document_ids_ }

/-- `SearchServer::AddDocument`: the outcome and the state the server is left in. -/
def AddDocument (s : Server R) (document_id : Int) (document : List Char)
    (status : DocumentStatus) (ratings : List Int) : Except Exn Unit × Server R :=
  if document_id < 0 ∨ StdMap.count s.documents_ document_id > 0 then
    (.error Exn.invalid_argument, s)
  else
    let stored := AddDocument.store_record s document_id document status ratings
    match StdMap.find stored.documents_ document_id with
    | none => (.error Exn.out_of_range, stored)
    | some data =>
      match SplitIntoWordsNoStop stored data.text with
      | .error e => (.error e, stored)
      | .ok words => (.ok (), AddDocument.index_words stored document_id words)

/-- The body of the loop of `RemoveDocument` over the words of the removed document. -/
def RemoveDocument.unindex_word (document_id : Int)
    (inverted : List (Word × List (Int × R))) (entry : Word × R) :
    List (Word × List (Int × R)) :=
  if StdMap.count inverted entry.1 ≠ 0 then
    StdMap.update entry.1 [] (fun bucket => StdMap.erase bucket document_id) inverted
  else inverted

/-- `SearchServer::RemoveDocument(int)`: the outcome and the state the server is left
in, when the views into the text of the removed document, which `documents_.erase` has
destroyed before the loop, still show their characters (`RemoveDocumentRead` is the
general case). -/
def RemoveDocument (s : Server R) (document_id : Int) : Except Exn Unit × Server R :=
  if StdMap.setCount s.document_ids_ document_id = 0 then (.ok (), s)
  else
    let s1 : Server R :=
      { s with
        documents_ := StdMap.erase s.documents_ document_id
        document_ids_ := StdMap.setErase s.document_ids_ document_id }
    match StdMap.find s1.word_frequencies_ document_id with
    | none => (.error Exn.out_of_range, s1)
    | some words =>
      (.ok (),
        { s1 with
          word_to_document_freqs_ :=
            words.foldl (RemoveDocument.unindex_word document_id) s1.word_to_document_freqs_
          word_frequencies_ := StdMap.erase s1.word_frequencies_ document_id })

/-- `SearchServer::GetDocumentCount`. -/
def GetDocumentCount (s : Server R) : Nat := StdMap.size s.documents_

/-- `SearchServer::GetWordFrequencies`. -/
def GetWordFrequencies (s : Server R) (document_id : Int) : List (Word × R) :=
  if StdMap.count s.word_frequencies_ document_id ≠ 0 then
    (StdMap.find s.word_frequencies_ document_id).getD []
  else []

/-- The live ids, `begin() .. end()`. -/
def live_ids (s : Server R) : List Int := s.document_ids_

/-- `SearchServer::ParseQueryWord`. -/
def ParseQueryWord (s : Server R) (text : Word) : Except Exn QueryWord :=
  if text = [] then .error Exn.invalid_argument
  else
    let is_minus : Bool := decide (text.head? = some '-')
    let word : Word := if is_minus then text.drop 1 else text
    if word = [] ∨ word.head? = some '-' ∨ IsValidWord word = false then
      .error Exn.invalid_argument
    else .ok { data := word, is_minus := is_minus, is_stop := IsStopWord s word }

/-- The `for` loop of `ParseQuery`. -/
def ParseQuery.loop (s : Server R) : List Word → Query → Except Exn Query
  | [], result => .ok result
  | word :: rest, result =>
    match ParseQueryWord s word with
    | .error e => .error e
    | .ok query_word =>
      if !query_word.is_stop then
        if query_word.is_minus then
          ParseQuery.loop s rest
            { result with minus_words := result.minus_words ++ [query_word.data] }
        else
          ParseQuery.loop s rest
            { result with plus_words := result.plus_words ++ [query_word.data] }
      else ParseQuery.loop s rest result

/-- `SearchServer::ParseQuery`. -/
def ParseQuery (s : Server R) (text : List Char) : Except Exn Query :=
  match ParseQuery.loop s (SplitIntoWords text) { plus_words := [], minus_words := [] } with
  | .error e => .error e
  | .ok result =>
    .ok { plus_words := stdSort (fun a b => decide (a < b)) result.plus_words
          minus_words := stdSort (fun a b => decide (a < b)) result.minus_words }

/-- `SearchServer::ComputeWordInverseDocumentFreq`. -/
def ComputeWordInverseDocumentFreq (ln : R → R) (s : Server R) (word : Word) :
    Except Exn R :=
  match StdMap.find s.word_to_document_freqs_ word with
  | none => .error Exn.out_of_range
  | some bucket => .ok (ln ((GetDocumentCount s : R) * 1 / (StdMap.size bucket : R)))

/-- The inner loop of `FindAllDocuments` over the bucket of one plus word. -/
def FindAllDocuments.add_word (s : Server R) (document_predicate : DocumentPredicate)
    (inverse_document_freq : R) :
    List (Int × R) → List (Int × R) → Except Exn (List (Int × R))
  | [], document_to_relevance => .ok document_to_relevance
  | (document_id, freq) :: rest, document_to_relevance =>
    match StdMap.find s.documents_ document_id with
    | none => .error Exn.out_of_range
    | some document_data =>
      if document_predicate document_id document_data.status document_data.rating then
        FindAllDocuments.add_word s document_predicate inverse_document_freq rest
          (StdMap.update document_id 0 (fun x => x + freq * inverse_document_freq)
            document_to_relevance)
      else
        FindAllDocuments.add_word s document_predicate inverse_document_freq rest
          document_to_relevance

/-- The loop of `FindAllDocuments` over `query.plus_words`. -/
def FindAllDocuments.plus_loop (ln : R → R) (s : Server R)
    (document_predicate : DocumentPredicate) :
    List Word → List (Int × R) → Except Exn (List (Int × R))
  | [], document_to_relevance => .ok document_to_relevance
  | word :: rest, document_to_relevance =>
    if StdMap.count s.word_to_document_freqs_ word = 0 then
      FindAllDocuments.plus_loop ln s document_predicate rest document_to_relevance
    else
      match ComputeWordInverseDocumentFreq ln s word with
      | .error e => .error e
      | .ok inverse_document_freq =>
        match StdMap.find s.word_to_document_freqs_ word with
        | none => .error Exn.out_of_range
        | some bucket =>
          match FindAllDocuments.add_word s document_predicate inverse_document_freq bucket
              document_to_relevance with
          | .error e => .error e
          | .ok updated => FindAllDocuments.plus_loop ln s document_predicate rest updated

/-- The loop of `FindAllDocuments` over `query.minus_words`, for one document. -/
def FindAllDocuments.minus_words_loop (s : Server R) (document_id : Int) :
    List Word → List (Int × R) → Except Exn (List (Int × R))
  | [], document_to_relevance => .ok document_to_relevance
  | word :: rest, document_to_relevance =>
    match StdMap.find s.word_frequencies_ document_id with
    | none => .error Exn.out_of_range
    | some words =>
      if StdMap.count words word = 0 then
        FindAllDocuments.minus_words_loop s document_id rest document_to_relevance
      else
        FindAllDocuments.minus_words_loop s document_id rest
          (StdMap.erase document_to_relevance document_id)

/-- The loop of `FindAllDocuments` over `document_ids_`. -/
def FindAllDocuments.minus_loop (s : Server R) (minus_words : List Word) :
    List Int → List (Int × R) → Except Exn (List (Int × R))
  | [], document_to_relevance => .ok document_to_relevance
  | document_id :: rest, document_to_relevance =>
    match FindAllDocuments.minus_words_loop s document_id minus_words
        document_to_relevance with
    | .error e => .error e
    | .ok updated => FindAllDocuments.minus_loop s minus_words rest updated

/-- The last loop of `FindAllDocuments`: one `Document` per accumulated entry. -/
def FindAllDocuments.collect (s : Server R) :
    List (Int × R) → Except Exn (List (Document R))
  | [] => .ok []
  | (document_id, relevance) :: rest =>
    match StdMap.find s.documents_ document_id with
    | none => .error Exn.out_of_range
    | some document_data =>
      match FindAllDocuments.collect s rest with
      | .error e => .error e
      | .ok matched_documents =>
        .ok ({ id := document_id, relevance := relevance, rating := document_data.rating }
          :: matched_documents)

/-- `SearchServer::FindAllDocuments(const Query&, DocumentPredicate)`. -/
def FindAllDocuments (ln : R → R) (s : Server R) (query : Query)
    (document_predicate : DocumentPredicate) : Except Exn (List (Document R)) :=
  match FindAllDocuments.plus_loop ln s document_predicate query.plus_words [] with
  | .error e => .error e
  | .ok scored =>
    match FindAllDocuments.minus_loop s query.minus_words s.document_ids_ scored with
    | .error e => .error e
    | .ok document_to_relevance => FindAllDocuments.collect s document_to_relevance

/-- The comparator of the `std::sort` call in `FindTopDocuments`. -/
def FindTopDocuments.comp (lhs rhs : Document R) : Bool :=
  if |lhs.relevance - rhs.relevance| < MAX_DIFFERENCE then decide (lhs.rating > rhs.rating)
  else decide (lhs.relevance > rhs.relevance)

/-- The query handed to `FindAllDocuments` by `FindTopDocuments`: `ParseQuery` followed
by `std::unique` on both word lists. -/
def FindTopDocuments.query (s : Server R) (raw_query : List Char) : Except Exn Query :=
  match ParseQuery s raw_query with
  | .error e => .error e
  | .ok query =>
    .ok { plus_words := stdUnique query.plus_words
          minus_words := stdUnique query.minus_words }

/-- `SearchServer::FindTopDocuments(raw_query, document_predicate)`. -/
def FindTopDocuments (ln : R → R) (s : Server R) (raw_query : List Char)
    (document_predicate : DocumentPredicate) : Except Exn (List (Document R)) :=
  match FindTopDocuments.query s raw_query with
  | .error e => .error e
  | .ok query =>
    match FindAllDocuments ln s query document_predicate with
    | .error e => .error e
    | .ok matched_documents =>
      let sorted := stdSort FindTopDocuments.comp matched_documents
      if sorted.length > MAX_RESULT_DOCUMENT_COUNT then
        .ok (sorted.take MAX_RESULT_DOCUMENT_COUNT)
      else .ok sorted

/-- `SearchServer::FindTopDocuments(raw_query, status)`. -/
def FindTopDocumentsStatus (ln : R → R) (s : Server R) (raw_query : List Char)
    (status : DocumentStatus) : Except Exn (List (Document R)) :=
  FindTopDocuments ln s raw_query (fun _ document_status _ => decide (document_status = status))

/-- `SearchServer::FindTopDocuments(raw_query)`. -/
def FindTopDocumentsActual (ln : R → R) (s : Server R) (raw_query : List Char) :
    Except Exn (List (Document R)) :=
  FindTopDocumentsStatus ln s raw_query DocumentStatus.ACTUAL

/-- The first loop of `MatchDocument`, over `query.plus_words`. -/
def MatchDocument.plus_loop (s : Server R) (document_id : Int) :
    List Word → List Word → Except Exn (List Word)
  | [], matched_words => .ok matched_words
  | word :: rest, matched_words =>
    match StdMap.find s.word_frequencies_ document_id with
    | none => .error Exn.out_of_range
    | some words =>
      if StdMap.count words word = 0 then MatchDocument.plus_loop s document_id rest matched_words
      else MatchDocument.plus_loop s document_id rest (matched_words ++ [word])

/-- The second loop of `MatchDocument`, over `query.minus_words`. -/
def MatchDocument.minus_loop (s : Server R) (document_id : Int) :
    List Word → List Word → Except Exn (List Word)
  | [], matched_words => .ok matched_words
  | word :: rest, matched_words =>
    match StdMap.find s.word_frequencies_ document_id with
    | none => .error Exn.out_of_range
    | some words =>
      if StdMap.count words word = 0 then MatchDocument.minus_loop s document_id rest matched_words
      else MatchDocument.minus_loop s document_id rest []

/-- `SearchServer::MatchDocument(raw_query, document_id)`. -/
def MatchDocument (s : Server R) (raw_query : List Char) (document_id : Int) :
    Except Exn (List Word × DocumentStatus) :=
  match ParseQuery s raw_query with
  | .error e => .error e
  | .ok query =>
    match MatchDocument.plus_loop s document_id query.plus_words [] with
    | .error e => .error e
    | .ok plus_matched =>
      match MatchDocument.minus_loop s document_id query.minus_words plus_matched with
      | .error e => .error e
      | .ok matched_words =>
        match StdMap.find s.documents_ document_id with
        | none => .error Exn.out_of_range
        | some document_data => .ok (matched_words, document_data.status)

/-- `SearchServer::MatchDocument(std::execution::parallel_policy, raw_query, document_id)`. -/
def MatchDocumentPar (s : Server R) (raw_query : List Char) (document_id : Int) :
    Except Exn (List Word × DocumentStatus) :=
  match ParseQuery s raw_query with
  | .error e => .error e
  | .ok query =>
    match StdMap.find s.word_frequencies_ document_id with
    | none => .error Exn.out_of_range
    | some tmp =>
      if query.minus_words.any (fun view => decide (StdMap.count tmp view ≠ 0)) then
        match StdMap.find s.documents_ document_id with
        | none => .error Exn.out_of_range
        | some document_data => .ok ([], document_data.status)
      else if query.plus_words = [] then
        match StdMap.find s.documents_ document_id with
        | none => .error Exn.out_of_range
        | some document_data => .ok ([], document_data.status)
      else
        let matched_words :=
          stdUnique (stdSort (fun a b => decide (a < b))
            (query.plus_words.filter (fun view => decide (StdMap.count tmp view ≠ 0))))
        match StdMap.find s.documents_ document_id with
        | none => .error Exn.out_of_range
        | some document_data => .ok (matched_words, document_data.status)

/-! ## Notions of the specification -/

/-- A query token that the specification of `parse` declares malformed: it is exactly
`-`, or it begins with `--`, or what remains after stripping one leading `-` contains a
character with a code below `0x20`. -/
def MalformedQueryToken (token : Word) : Prop :=
  token = ['-'] ∨ (∃ rest, token = '-' :: '-' :: rest) ∨
    ∃ c ∈ (if token.head? = some '-' then token.drop 1 else token), c.toNat < 32

/-- The entry of the inverted index for (`word`, `document_id`), if there is one. -/
def inverted_entry (s : Server R) (word : Word) (document_id : Int) : Option R :=
  (StdMap.find s.word_to_document_freqs_ word).bind (fun bucket => StdMap.find bucket document_id)

/-- The entry of the forward index for (`document_id`, `word`), if there is one. -/
def forward_entry (s : Server R) (document_id : Int) (word : Word) : Option R :=
  (StdMap.find s.word_frequencies_ document_id).bind (fun words => StdMap.find words word)

/-- The verdict of `document_predicate` on the stored status and rating of
`document_id` (`false` when there is no record). -/
def accepts (s : Server R) (document_predicate : DocumentPredicate) (document_id : Int) :
    Bool :=
  match StdMap.find s.documents_ document_id with
  | some data => document_predicate document_id data.status data.rating
  | none => false

/-- The document `document_id` contains the term `word`: the term is a key of
`GetWordFrequencies(document_id)`. -/
def contains_word (s : Server R) (document_id : Int) (word : Word) : Bool :=
  decide (word ∈ StdMap.keys (GetWordFrequencies s document_id))

/-- The document `document_id` qualifies for `query` under `document_predicate`: it is
live, the predicate accepts it (with its stored status and rating), it contains at least
one inclusion term and it contains no exclusion term. -/
def qualifies (s : Server R) (query : Query) (document_predicate : DocumentPredicate)
    (document_id : Int) : Bool :=
  decide (document_id ∈ live_ids s) && accepts s document_predicate document_id &&
    query.plus_words.any (fun w => contains_word s document_id w) &&
    query.minus_words.all (fun w => !contains_word s document_id w)

/-- The rating stored for `document_id` (`0` when there is no record). -/
def rating_of (s : Server R) (document_id : Int) : Int :=
  match StdMap.find s.documents_ document_id with
  | some data => data.rating
  | none => 0

/-- The value `ComputeWordInverseDocumentFreq` returns for `word` (`0` when it throws). -/
def idf (ln : R → R) (s : Server R) (word : Word) : R :=
  match ComputeWordInverseDocumentFreq ln s word with
  | .ok x => x
  | .error _ => 0

/-- What the plus word `word` adds to the relevance of `document_id` in
`FindAllDocuments`, if anything. -/
def contribution (ln : R → R) (s : Server R) (document_predicate : DocumentPredicate)
    (word : Word) (document_id : Int) : Option R :=
  if accepts s document_predicate document_id then
    (inverted_entry s word document_id).map (fun freq => freq * idf ln s word)
  else none

/-- The accumulator entry of `document_id` after the plus words `words` have been
processed, starting from the entry `start`. -/
def accumulated (ln : R → R) (s : Server R) (document_predicate : DocumentPredicate)
    (document_id : Int) (words : List Word) (start : Option R) : Option R :=
  words.foldl
    (fun entry word =>
      match contribution ln s document_predicate word document_id with
      | some x => some (entry.getD 0 + x)
      | none => entry)
    start

/-- The number of live documents that contain `word`. -/
def document_frequency (s : Server R) (word : Word) : Nat :=
  ((live_ids s).filter (fun d => contains_word s d word)).length

/-- The normalized frequency of `word` in `document_id`: the value of
`GetWordFrequencies(document_id)` at `word` (`0` when the word is no key). -/
def term_frequency (s : Server R) (document_id : Int) (word : Word) : R :=
  (StdMap.find (GetWordFrequencies s document_id) word).getD 0

/-- The part of the representation invariant that does not mention `document_ids_`: all
maps are well formed and the inverted index is the transpose of the forward index. -/
structure IndexInv (s : Server R) : Prop where
  documents_wf : StdMap.WF s.documents_
  forward_wf : StdMap.WF s.word_frequencies_
  forward_inner_wf : ∀ d m, StdMap.find s.word_frequencies_ d = some m → StdMap.WF m
  inverted_wf : StdMap.WF s.word_to_document_freqs_
  bucket_wf : ∀ w b, StdMap.find s.word_to_document_freqs_ w = some b → StdMap.WF b
  transpose : ∀ w d, inverted_entry s w d = forward_entry s d w

/-- The representation invariant of the server, kept by `AddDocument` and
`RemoveDocument` whether they return or throw. -/
structure Inv (s : Server R) : Prop where
  index : IndexInv s
  ids_sorted : s.document_ids_.Sorted (fun a b => a < b)
  forward_keys : ∀ d, d ∈ StdMap.keys s.word_frequencies_ ↔ d ∈ s.document_ids_
  ids_documents : ∀ d, d ∈ s.document_ids_ → d ∈ StdMap.keys s.documents_

/-- An example server over `ℚ`: no stop words, document 0 is `a` (rating 1), document 1
is `a b` (rating 2). -/
def example_server : Server ℚ :=
  (AddDocument (AddDocument (Server.empty []) 0 ['a'] DocumentStatus.ACTUAL [1]).2
    1 ['a', ' ', 'b'] DocumentStatus.ACTUAL [2]).2

/-- The state in which a fresh server (no stop words) is left by the call
`AddDocument(1, "a\tb", ACTUAL, {})`, which throws because of the tab character. -/
def server_after_failed_add (R : Type) [LinearOrderedField R] : Server R :=
  (AddDocument (Server.empty []) 1 ['a', Char.ofNat 9, 'b'] DocumentStatus.ACTUAL []).2

/-- The state reached from a fresh server (no stop words) by the failing call
`AddDocument(1, "a\tb", ACTUAL, {})` followed by the successful call
`AddDocument(0, "cat", ACTUAL, {})`: one live document, two records. -/
def server_with_failed_add (R : Type) [LinearOrderedField R] : Server R :=
  (AddDocument (server_after_failed_add R) 0 ['c', 'a', 't'] DocumentStatus.ACTUAL []).2

/-- The example of section 8 of the specification, transliterated: stop words `i` and
`v`, document 0 `white cat i fancy collar` with ratings 8, -3 and document 1
`fluffy cat fluffy tail` with ratings 7, 2, 7. -/
def spec_example_server (R : Type) [LinearOrderedField R] : Server R :=
  (AddDocument
    (AddDocument (Server.empty [['i'], ['v']]) 0
      ['w', 'h', 'i', 't', 'e', ' ', 'c', 'a', 't', ' ', 'i', ' ', 'f', 'a', 'n', 'c', 'y', ' ', 'c', 'o', 'l', 'l', 'a', 'r']
      DocumentStatus.ACTUAL [8, -3]).2
    1 ['f', 'l', 'u', 'f', 'f', 'y', ' ', 'c', 'a', 't', ' ', 'f', 'l', 'u', 'f', 'f', 'y', ' ', 't', 'a', 'i', 'l']
    DocumentStatus.ACTUAL [7, 2, 7]).2

/-! ## Reachable states -/

/-- The states of a server object: a fresh server, and whatever `AddDocument` and
`RemoveDocument` leave behind, whether the call returns or throws (with `RemoveDocument`
as defined above: the destroyed text still shows its characters). -/
inductive Reachable : Server R → Prop
  | init (stop_words : List Word) : Reachable (Server.empty stop_words)
  | add {s : Server R} (document_id : Int) (document : List Char) (status : DocumentStatus)
      (ratings : List Int) :
      Reachable s → Reachable (AddDocument s document_id document status ratings).2
  | remove {s : Server R} (document_id : Int) :
      Reachable s → Reachable (RemoveDocument s document_id).2

/-- The store `s` is reachable, document `document_id` is live in it, and `ratings` is the
ratings list of the `AddDocument` call that added it. -/
inductive AddedWith : Server R → Int → List Int → Prop
  | added {s : Server R} (document_id : Int) (document : List Char) (status : DocumentStatus)
      (ratings : List Int) :
      Reachable s → (AddDocument s document_id document status ratings).1 = .ok () →
      AddedWith (AddDocument s document_id document status ratings).2 document_id ratings
  | add_call {s : Server R} {document_id : Int} {ratings : List Int} (other_id : Int)
      (document : List Char) (status : DocumentStatus) (other_ratings : List Int) :
      AddedWith s document_id ratings →
      AddedWith (AddDocument s other_id document status other_ratings).2 document_id ratings
  | remove_call {s : Server R} {document_id : Int} {ratings : List Int} (other_id : Int) :
      AddedWith s document_id ratings → other_id ≠ document_id →
      AddedWith (RemoveDocument s other_id).2 document_id ratings

/-! ## Maximal runs of non-space characters -/

/-- `Runs text slices`: the list `slices` consists, in order of occurrence, of the maximal
runs of non-space characters of `text`.  A run is not empty, has no space, and is followed
by a space or by the end of the text; between two runs there are only spaces. -/
inductive Runs : List Char → List Word → Prop
  | nil : Runs [] []
  | space {text : List Char} {slices : List Word} :
      Runs text slices → Runs (' ' :: text) slices
  | run {rest : List Char} {slices : List Word} (w : Word) :
      w ≠ [] → (∀ c ∈ w, c ≠ ' ') → (rest = [] ∨ rest.head? = some ' ') →
      Runs rest slices → Runs (w ++ rest) (w :: slices)

/-- The number of positions of a text at which a maximal run of non-space characters
starts: a non-space character at the beginning of the text or right after a space
(`after_space` tells whether the text is preceded by a space or by nothing). -/
def run_starts (after_space : Bool) : List Char → Nat
  | [] => 0
  | c :: cs =>
    (if c ≠ ' ' ∧ after_space = true then 1 else 0) + run_starts (decide (c = ' ')) cs

/-! ## `RequestQueue` -/

/-- `RequestQueue::QueryResult`. -/
structure QueryResult (R : Type) where
  is_empty : Int
  docs : List (Document R)

/-- `RequestQueue`: the deque `requests_` (front first), the server it refers to, and the
two `int` counters.  The server is held by `const` reference; it is a field here, which
fixes the store for the lifetime of the queue. -/
structure RequestQueue (R : Type) where
  requests_ : List (QueryResult R)
  search_server_ : Server R
  empty_requests_ : Int
  seconds_ : Int

/-- `RequestQueue::min_in_day_`. -/
def RequestQueue.min_in_day_ : Int := 1440

/-- The constructor `RequestQueue(search_server)`. -/
def RequestQueue.init (search_server : Server R) : RequestQueue R :=
  { requests_ := [], search_server_ := search_server, empty_requests_ := 0, seconds_ := 0 }

/-- The first statements of `AddFindRequest(raw_query)`: `seconds_++` and the eviction of
the front of the deque.  The `int` counters wrap at 32 bits (signed overflow is undefined
in C++; this is what the usual compilers produce).  On an empty deque `front()` and
`pop_front()` are undefined; the model reads no entry and pops nothing there. -/
def RequestQueue.tick (q : RequestQueue R) : RequestQueue R :=
  let q := { q with seconds_ := wrap32 (q.seconds_ + 1) }
  if q.seconds_ > RequestQueue.min_in_day_ then
    { q with
      empty_requests_ :=
        if (q.requests_.head?.map (fun r => r.is_empty)) = some 1 then
          wrap32 (q.empty_requests_ - 1)
        else q.empty_requests_
      requests_ := q.requests_.tail }
  else q

/-- `RequestQueue::AddFindRequest(raw_query)`: the outcome of the call and the queue after
it (also when `FindTopDocuments` throws, after the counter was incremented and the front
evicted). -/
def RequestQueue.AddFindRequest (ln : R → R) (q : RequestQueue R) (raw_query : List Char) :
    Except Exn (List (Document R)) × RequestQueue R :=
  let q := q.tick
  match FindTopDocumentsActual ln q.search_server_ raw_query with
  | .error e => (.error e, q)
  | .ok vec =>
    if vec.isEmpty then
      (.ok vec,
        { q with
          empty_requests_ := wrap32 (q.empty_requests_ + 1)
          requests_ := q.requests_ ++ [{ is_empty := 1, docs := vec }] })
    else
      (.ok vec, { q with requests_ := q.requests_ ++ [{ is_empty := 0, docs := vec }] })

/-- `RequestQueue::AddFindRequest(raw_query, status)`: the call is forwarded to the server,
no member of the queue is written. -/
def RequestQueue.AddFindRequestStatus (ln : R → R) (q : RequestQueue R)
    (raw_query : List Char) (status : DocumentStatus) :
    Except Exn (List (Document R)) × RequestQueue R :=
  (FindTopDocumentsStatus ln q.search_server_ raw_query status, q)

/-- `RequestQueue::AddFindRequest(raw_query, document_predicate)`: the call is forwarded to
the server, no member of the queue is written. -/
def RequestQueue.AddFindRequestPredicate (ln : R → R) (q : RequestQueue R)
    (raw_query : List Char) (document_predicate : DocumentPredicate) :
    Except Exn (List (Document R)) × RequestQueue R :=
  (FindTopDocuments ln q.search_server_ raw_query document_predicate, q)

/-- `RequestQueue::GetNoResultRequests`. -/
def RequestQueue.GetNoResultRequests (q : RequestQueue R) : Int :=
  q.empty_requests_

/-- The queue after the calls `AddFindRequest(raw_query)` for the queries of a list, in
order. -/
def RequestQueue.run (ln : R → R) (q : RequestQueue R) : List (List Char) → RequestQueue R
  | [] => q
  | raw_query :: rest => RequestQueue.run ln (RequestQueue.AddFindRequest ln q raw_query).2 rest

/-- The entry that a returning call `AddFindRequest(raw_query)` appends to the deque. -/
def RequestQueue.entry (ln : R → R) (search_server : Server R) (raw_query : List Char) :
    QueryResult R :=
  match FindTopDocumentsActual ln search_server raw_query with
  | .error _ => { is_empty := 0, docs := [] }
  | .ok vec => { is_empty := if vec.isEmpty then 1 else 0, docs := vec }

/-- Whether `FindTopDocuments(raw_query)` on the server returns zero results. -/
def RequestQueue.no_result (ln : R → R) (search_server : Server R) (raw_query : List Char) :
    Bool :=
  match FindTopDocumentsActual ln search_server raw_query with
  | .error _ => false
  | .ok vec => vec.isEmpty

/-- The number of entries of a window that are marked as empty results. -/
def RequestQueue.marked_empty (requests : List (QueryResult R)) : Nat :=
  (requests.filter (fun r => decide (r.is_empty = 1))).length

/-! ## `RemoveDuplicates` -/

/-- The set `test` that `RemoveDuplicates` builds for a document: the keys of
`GetWordFrequencies(document_id)`, inserted one by one into a `set<string>`. -/
def RemoveDuplicates.test (s : Server R) (document_id : Int) : List Word :=
  (GetWordFrequencies s document_id).foldl (fun test entry => StdMap.setInsert entry.1 test) []

/-- The loop of `RemoveDuplicates` over the copied ids, with the set `m` of the term sets
seen so far. -/
def RemoveDuplicates.loop :
    List Int → List (List Word) → Server R → Except Exn Unit × Server R
  | [], _, s => (.ok (), s)
  | document_id :: rest, m, s =>
    if StdMap.setCount m (RemoveDuplicates.test s document_id) = 0 then
      RemoveDuplicates.loop rest (StdMap.setInsert (RemoveDuplicates.test s document_id) m) s
    else
      match RemoveDocument s document_id with
      | (.error e, s') => (.error e, s')
      | (.ok (), s') => RemoveDuplicates.loop rest m s'

/-- `RemoveDuplicates(search_server)`: the outcome and the state the server is left in.
The ids are copied from `begin() .. end()` before the loop. -/
def RemoveDuplicates (s : Server R) : Except Exn Unit × Server R :=
  RemoveDuplicates.loop (live_ids s) [] s

/-- Two documents of a store have the same set of distinct terms. -/
def same_terms (s : Server R) (a b : Int) : Prop :=
  ∀ w : Word, contains_word s a w = contains_word s b w

/-- The example of `remove_duplicates` in the specification, with two more documents:
no stop words, documents 5 and 6 are `a b c`, document 7 is `c b a a` (the same
distinct terms), document 8 is `a b`. -/
def duplicates_server : Server ℚ :=
  (AddDocument (AddDocument (AddDocument (AddDocument (Server.empty [])
    5 ['a', ' ', 'b', ' ', 'c'] DocumentStatus.ACTUAL [1]).2
    6 ['a', ' ', 'b', ' ', 'c'] DocumentStatus.ACTUAL [2]).2
    7 ['c', ' ', 'b', ' ', 'a', ' ', 'a'] DocumentStatus.ACTUAL [3]).2
    8 ['a', ' ', 'b'] DocumentStatus.ACTUAL [4]).2

/-! ## Parallel `FindTopDocuments` -/

/-- Modelled from the spec: the sharded accumulator `ConcurrentMap<int, double>` of §4.4, a
fixed number of shards, each an ordinary map from document id to value. -/
structure ConcurrentMap (R : Type) where
  buckets : List (List (Int × R))

/-- Modelled from the spec: the constructor `ConcurrentMap(bucket_count)`, all shards
empty. -/
def ConcurrentMap.init (bucket_count : Nat) : ConcurrentMap R :=
  { buckets := List.replicate bucket_count [] }

/-- Modelled from the spec: the index of the shard that owns `key`, `key mod S` (the spec
defines it for non-negative ids; the remainder taken here is non-negative for every
id). -/
def ConcurrentMap.index (m : ConcurrentMap R) (key : Int) : Nat :=
  (key % (m.buckets.length : Int)).toNat

/-- Modelled from the spec: `add(id, delta)`, in the source
`document_to_relevance[document_id].ref_to_value += delta`: under the lock of the owning
shard the entry is created with value 0 if it is absent, then `delta` is added. -/
def ConcurrentMap.add (m : ConcurrentMap R) (key : Int) (delta : R) : ConcurrentMap R :=
  { buckets := m.buckets.set (m.index key)
      (StdMap.update key 0 (fun value => value + delta) (m.buckets.getD (m.index key) [])) }

/-- Modelled from the spec: `remove(id)`, in the source
`document_to_relevance.erase(document_id)`: under the lock of the owning shard the entry
is deleted if it is present. -/
def ConcurrentMap.erase (m : ConcurrentMap R) (key : Int) : ConcurrentMap R :=
  { buckets := m.buckets.set (m.index key)
      (StdMap.erase (m.buckets.getD (m.index key) []) key) }

/-- Modelled from the spec: `snapshot()`, in the source `BuildOrdinaryMap()`: the entries of
all shards, shard after shard, are inserted into one ordinary map. -/
def ConcurrentMap.BuildOrdinaryMap (m : ConcurrentMap R) : List (Int × R) :=
  m.buckets.foldl
    (fun result bucket => bucket.foldl (fun result entry => StdMap.emplace entry.1 entry.2 result)
      result)
    []

/-- The inner loop of the lambda of the first `for_each` of the parallel
`FindAllDocuments`, over the bucket of one plus word: the sequence of the operations
`document_to_relevance[document_id].ref_to_value += freq * inverse_document_freq` that it
performs on the shared accumulator, each as the pair of the id and the added value. -/
def FindAllDocumentsPar.increments (s : Server R) (document_predicate : DocumentPredicate)
    (inverse_document_freq : R) : List (Int × R) → Except Exn (List (Int × R))
  | [] => .ok []
  | (document_id, freq) :: rest =>
    match StdMap.find s.documents_ document_id with
    | none => .error Exn.out_of_range
    | some document_data =>
      match FindAllDocumentsPar.increments s document_predicate inverse_document_freq rest with
      | .error e => .error e
      | .ok operations =>
        if document_predicate document_id document_data.status document_data.rating then
          .ok ((document_id, freq * inverse_document_freq) :: operations)
        else .ok operations

/-- The lambda of the first `for_each` of the parallel `FindAllDocuments` for one plus
word: the sequence of the operations it performs on the shared accumulator. -/
def FindAllDocumentsPar.plus_task (ln : R → R) (s : Server R)
    (document_predicate : DocumentPredicate) (word : Word) : Except Exn (List (Int × R)) :=
  if StdMap.count s.word_to_document_freqs_ word = 0 then .ok []
  else
    match ComputeWordInverseDocumentFreq ln s word with
    | .error e => .error e
    | .ok inverse_document_freq =>
      match StdMap.find s.word_to_document_freqs_ word with
      | none => .error Exn.out_of_range
      | some bucket =>
        FindAllDocumentsPar.increments s document_predicate inverse_document_freq bucket

/-- The operations of the first `for_each` of the parallel `FindAllDocuments`, task after
task in the order of `query.plus_words`. -/
def FindAllDocumentsPar.plus_tasks (ln : R → R) (s : Server R)
    (document_predicate : DocumentPredicate) : List Word → Except Exn (List (Int × R))
  | [] => .ok []
  | word :: rest =>
    match FindAllDocumentsPar.plus_task ln s document_predicate word with
    | .error e => .error e
    | .ok operations =>
      match FindAllDocumentsPar.plus_tasks ln s document_predicate rest with
      | .error e => .error e
      | .ok more => .ok (operations ++ more)

/-- The lambda of the second `for_each` of the parallel `FindAllDocuments` for one minus
word, as the sequence of the ids it erases from the shared accumulator while it loops
over `document_ids_`. -/
def FindAllDocumentsPar.minus_task (s : Server R) (word : Word) :
    List Int → Except Exn (List Int)
  | [] => .ok []
  | document_id :: rest =>
    match StdMap.find s.word_frequencies_ document_id with
    | none => .error Exn.out_of_range
    | some words =>
      match FindAllDocumentsPar.minus_task s word rest with
      | .error e => .error e
      | .ok operations =>
        if StdMap.count words word = 0 then .ok operations
        else .ok (document_id :: operations)

/-- The erasures of the second `for_each` of the parallel `FindAllDocuments`, task after
task in the order of `query.minus_words`. -/
def FindAllDocumentsPar.minus_tasks (s : Server R) : List Word → Except Exn (List Int)
  | [] => .ok []
  | word :: rest =>
    match FindAllDocumentsPar.minus_task s word s.document_ids_ with
    | .error e => .error e
    | .ok operations =>
      match FindAllDocumentsPar.minus_tasks s rest with
      | .error e => .error e
      | .ok more => .ok (operations ++ more)

/-- How a call under a parallel execution policy ends when it does not return: an
exception was thrown outside the parallel algorithms and reaches the caller, or an
exception left a task of a parallel algorithm, for which the library calls
`std::terminate`. -/
inductive ParExn
  | thrown (e : Exn)
  | terminate
  deriving DecidableEq, Repr

/-- `SearchServer::FindAllDocuments(policy, query, document_predicate)` for a parallel
policy.  The tasks of a `for_each` run concurrently and each operation on the accumulator
is atomic (it holds the lock of its shard), so a run of a phase applies the operations of
its tasks one after the other in some order; `plus_schedule` and `minus_schedule` choose
that order for the two phases.  The second phase starts when the first one has finished.
An exception in a task of a `for_each` ends the program; the last loop runs outside the
parallel algorithms. -/
def FindAllDocumentsPar (ln : R → R) (s : Server R) (query : Query)
    (document_predicate : DocumentPredicate)
    (plus_schedule : List (Int × R) → List (Int × R))
    (minus_schedule : List Int → List Int) : Except ParExn (List (Document R)) :=
  match FindAllDocumentsPar.plus_tasks ln s document_predicate query.plus_words with
  | .error _ => .error ParExn.terminate
  | .ok increments =>
    let scored : ConcurrentMap R :=
      (plus_schedule increments).foldl
        (fun document_to_relevance operation =>
          document_to_relevance.add operation.1 operation.2)
        (ConcurrentMap.init 15)
    match FindAllDocumentsPar.minus_tasks s query.minus_words with
    | .error _ => .error ParExn.terminate
    | .ok erasures =>
      let document_to_relevance : ConcurrentMap R :=
        (minus_schedule erasures).foldl
          (fun document_to_relevance document_id => document_to_relevance.erase document_id)
          scored
      match FindAllDocuments.collect s document_to_relevance.BuildOrdinaryMap with
      | .error e => .error (ParExn.thrown e)
      | .ok matched_documents => .ok matched_documents

/-- The entry of `key` in a sharded accumulator: its entry in the shard that owns it. -/
def ConcurrentMap.lookup (m : ConcurrentMap R) (key : Int) : Option R :=
  StdMap.find (m.buckets.getD (m.index key) []) key

/-- The representation invariant of the sharded accumulator: there is at least one
shard, every shard is a well-formed map, and every key lies in the shard that owns it. -/
structure ConcurrentMap.Good (m : ConcurrentMap R) : Prop where
  pos : 0 < m.buckets.length
  wf : ∀ i, StdMap.WF (m.buckets.getD i [])
  owner : ∀ i k, k ∈ StdMap.keys (m.buckets.getD i []) → m.index k = i

/-! ## Notions for the index and the query terms -/

/-- The state reached from a fresh server (no stop words) by `AddDocument(0, "a", ACTUAL,
{})` followed by `RemoveDocument(0)`, when the destroyed text still shows its character: no
document is left. -/
def server_after_remove (R : Type) [LinearOrderedField R] : Server R :=
  (RemoveDocument (AddDocument (Server.empty []) 0 ['a'] DocumentStatus.ACTUAL []).2 0).2

/-- The inclusion terms of a raw query, with repetitions and in the order of the query:
the tokens without a leading `-` that are no stop words. -/
def inclusion_terms (s : Server R) (raw_query : List Char) : List Word :=
  (SplitIntoWords raw_query).filter
    (fun t => !decide (t.head? = some '-') && !IsStopWord s t)

/-- The exclusion terms of a raw query, with repetitions and in the order of the query:
the tokens with a leading `-`, without that marker, that are no stop words. -/
def exclusion_terms (s : Server R) (raw_query : List Char) : List Word :=
  (((SplitIntoWords raw_query).filter (fun t => decide (t.head? = some '-'))).map
    (fun t => t.drop 1)).filter (fun t => !IsStopWord s t)

/-! ## Views into destroyed text -/

/-- The body of the loop of `RemoveDocument` over the words of the removed document.  The
key `entry.1` is a `std::string_view` into the text of that document, and
`documents_.erase(document_id)` has destroyed the text before the loop: `read` gives the
characters that such a view shows when `count` and `operator[]` read it. -/
def RemoveDocument.unindex_word_read (read : Word → Word) (document_id : Int)
    (inverted : List (Word × List (Int × R))) (entry : Word × R) :
    List (Word × List (Int × R)) :=
  if StdMap.count inverted (read entry.1) ≠ 0 then
    StdMap.update (read entry.1) [] (fun bucket => StdMap.erase bucket document_id) inverted
  else inverted

/-- `SearchServer::RemoveDocument(int)` with the reads of the destroyed text made
explicit: the outcome and the state the server is left in when the views into the text
of the removed document show `read word` in place of `word`.  The keys of the inverted
index are compared by value, which is what the program does for every key that points
into the text of a document that is still stored (a word that such a document had
introduced before). -/
def RemoveDocumentRead (read : Word → Word) (s : Server R) (document_id : Int) :
    Except Exn Unit × Server R :=
  if StdMap.setCount s.document_ids_ document_id = 0 then (.ok (), s)
  else
    let s1 : Server R :=
      { s with
        documents_ := StdMap.erase s.documents_ document_id
        document_ids_ := StdMap.setErase s.document_ids_ document_id }
    match StdMap.find s1.word_frequencies_ document_id with
    | none => (.error Exn.out_of_range, s1)
    | some words =>
      (.ok (),
        { s1 with
          word_to_document_freqs_ :=
            words.foldl (RemoveDocument.unindex_word_read read document_id)
              s1.word_to_document_freqs_
          word_frequencies_ := StdMap.erase s1.word_frequencies_ document_id })

/-- The states in which every `std::string_view` kept by the server points into a text
that is alive: a fresh server, and what is reached from it by `AddDocument` calls and by
`RemoveDocument` calls that read no destroyed text, because the id is not live (the call
returns at once) or the document has no indexed word (the loop has no iteration). -/
inductive Intact : Server R → Prop
  | init (stop_words : List Word) : Intact (Server.empty stop_words)
  | add {s : Server R} (document_id : Int) (document : List Char) (status : DocumentStatus)
      (ratings : List Int) :
      Intact s → Intact (AddDocument s document_id document status ratings).2
  | remove {s : Server R} (document_id : Int) :
      Intact s → (document_id ∉ live_ids s ∨ GetWordFrequencies s document_id = []) →
      Intact (RemoveDocument s document_id).2

/-- A word of 16 characters: a `std::string` with this text keeps its characters on the
heap. -/
def long_word : Word := List.replicate 16 'a'

/-- A server without stop words that holds two documents, 0 (ratings 1) and 1 (ratings
2), both with the text `aaaaaaaaaaaaaaaa`. -/
def two_documents_server (R : Type) [LinearOrderedField R] : Server R :=
  (AddDocument (AddDocument (Server.empty []) 0 long_word DocumentStatus.ACTUAL [1]).2
    1 long_word DocumentStatus.ACTUAL [2]).2

/-- The state in which `RemoveDocument(1)` leaves `two_documents_server` when the
destroyed text of document 1 no longer shows the word: record, id and forward entry of
document 1 are erased, the inverted index is as before. -/
def server_after_lost_purge (R : Type) [LinearOrderedField R] : Server R :=
  { two_documents_server R with
    documents_ := StdMap.erase (two_documents_server R).documents_ 1
    document_ids_ := StdMap.setErase (two_documents_server R).document_ids_ 1
    word_frequencies_ := StdMap.erase (two_documents_server R).word_frequencies_ 1 }

/-! ## The arrangement made by `std::sort` -/

/-- `SearchServer::FindTopDocuments(raw_query, document_predicate)` with the library call
as a parameter: `sort` is the arrangement that `std::sort(first, last, comp)` makes of
the matched documents. -/
def FindTopDocumentsSort (sort : List (Document R) → List (Document R)) (ln : R → R)
    (s : Server R) (raw_query : List Char) (document_predicate : DocumentPredicate) :
    Except Exn (List (Document R)) :=
  match FindTopDocuments.query s raw_query with
  | .error e => .error e
  | .ok query =>
    match FindAllDocuments ln s query document_predicate with
    | .error e => .error e
    | .ok matched_documents =>
      let sorted := sort matched_documents
      if sorted.length > MAX_RESULT_DOCUMENT_COUNT then
        .ok (sorted.take MAX_RESULT_DOCUMENT_COUNT)
      else .ok sorted

/-- What the library promises about the result `sorted` of `std::sort(first, last, comp)`
on the elements `l` when `comp` is a strict weak ordering of them: it is a rearrangement
of `l` in which no element is smaller, by `comp`, than an element before it. -/
def IsSortedBy {α : Type} (comp : α → α → Bool) (l sorted : List α) : Prop :=
  sorted.Perm l ∧ sorted.Pairwise (fun a b => comp b a = false)

/-- A server without stop words that holds the six documents 0 .. 5, each with the text
`a`; document `i` has the rating `i + 1`. -/
def six_documents_server (R : Type) [LinearOrderedField R] : Server R :=
  (AddDocument (AddDocument (AddDocument (AddDocument (AddDocument (AddDocument
    (Server.empty [])
    0 ['a'] DocumentStatus.ACTUAL [1]).2
    1 ['a'] DocumentStatus.ACTUAL [2]).2
    2 ['a'] DocumentStatus.ACTUAL [3]).2
    3 ['a'] DocumentStatus.ACTUAL [4]).2
    4 ['a'] DocumentStatus.ACTUAL [5]).2
    5 ['a'] DocumentStatus.ACTUAL [6]).2

/-- The six documents of `six_documents_server` as `FindAllDocuments` produces them for
the query `a` under a predicate that accepts every document: the relevance of each is
`1 * ln (6 / 6)`. -/
def six_documents (ln : R → R) : List (Document R) :=
  [{ id := 0, relevance := ln 1, rating := 1 }, { id := 1, relevance := ln 1, rating := 2 },
    { id := 2, relevance := ln 1, rating := 3 }, { id := 3, relevance := ln 1, rating := 4 },
    { id := 4, relevance := ln 1, rating := 5 }, { id := 5, relevance := ln 1, rating := 6 }]

/-! # Theorems -/

set_option linter.unusedSectionVars false

/-! ## Facts about `std::map` and `std::set` -/

namespace StdMap

variable {K V : Type}

theorem find_eq_none_iff [DecidableEq K] (m : List (K × V)) (k : K) :
    find m k = none ↔ k ∉ keys m := by
  induction m with
  | nil => simp [find, keys]
  | cons p rest ih =>
    obtain ⟨k', v⟩ := p
    by_cases h : k' = k
    · simp [find, keys, h]
    · have h' : ¬ k = k' := fun e => h e.symm
      simp only [find, h, if_false, ih, keys, List.map_cons, List.mem_cons, h', false_or]

theorem find_isSome_iff [DecidableEq K] (m : List (K × V)) (k : K) :
    (find m k).isSome = true ↔ k ∈ keys m := by
  rw [← not_iff_not, ← find_eq_none_iff]
  cases find m k <;> simp

theorem count_eq_zero_iff [DecidableEq K] (m : List (K × V)) (k : K) :
    count m k = 0 ↔ k ∉ keys m := by
  unfold count
  rw [← find_eq_none_iff]
  cases find m k <;> simp

theorem count_pos_iff [DecidableEq K] (m : List (K × V)) (k : K) :
    count m k > 0 ↔ k ∈ keys m := by
  rw [← not_iff_not, ← count_eq_zero_iff]
  omega

theorem mem_of_find [DecidableEq K] {m : List (K × V)} {k : K} {v : V}
    (h : find m k = some v) : (k, v) ∈ m := by
  induction m with
  | nil => simp [find] at h
  | cons p rest ih =>
    obtain ⟨k', v'⟩ := p
    by_cases e : k' = k
    · simp [find, e] at h
      simp [e, h]
    · simp only [find, e, if_false] at h
      exact List.mem_cons_of_mem _ (ih h)

theorem mem_keys_of_mem {m : List (K × V)} {k : K} {v : V} (h : (k, v) ∈ m) :
    k ∈ keys m :=
  List.mem_map.2 ⟨(k, v), h, rfl⟩

theorem WF_nil [LinearOrder K] : WF ([] : List (K × V)) := by
  simp [WF, keys]

theorem WF.tail [LinearOrder K] {p : K × V} {m : List (K × V)} (h : WF (p :: m)) : WF m := by
  unfold WF keys at *
  exact (List.sorted_cons.1 h).2

theorem WF.head_lt [LinearOrder K] {p : K × V} {m : List (K × V)} (h : WF (p :: m))
    {k : K} (hk : k ∈ keys m) : p.1 < k := by
  unfold WF keys at h
  exact (List.sorted_cons.1 h).1 k hk

theorem WF.nodup [LinearOrder K] {m : List (K × V)} (h : WF m) : (keys m).Nodup :=
  List.Sorted.nodup h

theorem find_of_mem [LinearOrder K] [DecidableEq K] {m : List (K × V)} (hm : WF m) {k : K} {v : V}
    (h : (k, v) ∈ m) : find m k = some v := by
  induction m with
  | nil => simp at h
  | cons p rest ih =>
    obtain ⟨k', v'⟩ := p
    rcases List.mem_cons.1 h with e | e
    · cases e
      simp [find]
    · have hlt : k' < k := hm.head_lt (mem_keys_of_mem e)
      simp only [find, ne_of_lt hlt, if_false]
      exact ih hm.tail e

theorem find_iff_mem [LinearOrder K] [DecidableEq K] {m : List (K × V)} (hm : WF m) (k : K) (v : V) :
    find m k = some v ↔ (k, v) ∈ m :=
  ⟨mem_of_find, find_of_mem hm⟩

theorem find_erase [DecidableEq K] (m : List (K × V)) (k k' : K) :
    find (erase m k) k' = if k' = k then none else find m k' := by
  induction m with
  | nil => simp [erase, find]
  | cons p rest ih =>
    obtain ⟨a, v⟩ := p
    unfold erase at ih ⊢
    by_cases ha : a = k
    · subst ha
      simp only [List.filter, ne_eq, not_true_eq_false, decide_False, ih]
      by_cases hk : k' = a
      · simp [hk]
      · have : ¬ a = k' := fun e => hk e.symm
        simp [find, hk, this]
    · simp only [List.filter, ne_eq, ha, not_false_eq_true, decide_True, find, ih]
      by_cases hk : a = k'
      · subst hk
        simp [ha]
      · simp [hk]

theorem keys_erase [DecidableEq K] (m : List (K × V)) (k : K) :
    keys (erase m k) = (keys m).filter (fun x => decide (x ≠ k)) := by
  unfold keys erase
  rw [List.filter_map]
  rfl

theorem mem_keys_erase [DecidableEq K] (m : List (K × V)) (k k' : K) :
    k' ∈ keys (erase m k) ↔ k' ∈ keys m ∧ k' ≠ k := by
  rw [keys_erase]
  simp

theorem WF.erase [LinearOrder K] [DecidableEq K] {m : List (K × V)} (h : WF m) (k : K) : WF (erase m k) := by
  unfold WF at *
  rw [keys_erase]
  exact List.Sorted.filter _ h

theorem mem_erase [DecidableEq K] (m : List (K × V)) (k : K) (p : K × V) :
    p ∈ erase m k ↔ p ∈ m ∧ p.1 ≠ k := by
  simp [erase]

theorem length_erase [LinearOrder K] [DecidableEq K] {m : List (K × V)} (h : WF m) {k : K}
    (hk : k ∈ keys m) : (erase m k).length + 1 = m.length := by
  induction m with
  | nil => simp [keys] at hk
  | cons p rest ih =>
    obtain ⟨a, v⟩ := p
    by_cases ha : a = k
    · subst ha
      have hnot : a ∉ keys rest := fun hmem => lt_irrefl _ (h.head_lt hmem)
      have e : erase rest a = rest := by
        unfold erase
        rw [List.filter_eq_self]
        intro q hq
        have : q.1 ≠ a := fun e => hnot (e ▸ List.mem_map.2 ⟨q, hq, rfl⟩)
        simpa using this
      have e2 : erase ((a, v) :: rest) a = erase rest a := by
        simp [erase, List.filter]
      rw [e2, e]
      rfl
    · have hk' : k ∈ keys rest := by
        simp only [keys, List.map_cons, List.mem_cons] at hk
        rcases hk with e | e
        · exact absurd e.symm ha
        · exact e
      have := ih h.tail hk'
      simp only [erase, List.filter, ne_eq, ha, not_false_eq_true, decide_True,
        List.length_cons] at this ⊢
      omega

end StdMap

namespace StdMap

variable {K V : Type}

theorem find_update_ne [LinearOrder K] [DecidableEq K] (m : List (K × V)) (k : K) (d : V) (f : V → V)
    {k' : K} (h : k' ≠ k) : find (update k d f m) k' = find m k' := by
  have h' : ¬ k = k' := fun e => h e.symm
  induction m with
  | nil => simp [update, find, h']
  | cons p rest ih =>
    obtain ⟨a, v⟩ := p
    unfold update
    by_cases h1 : k < a
    · simp [h1, find, h']
    · by_cases h2 : a < k
      · simp only [h1, h2, if_false, if_true, find, ih]
      · have e : a = k := le_antisymm (not_lt.1 h1) (not_lt.1 h2)
        simp [h1, h2, find, e, h']

theorem find_update_self [LinearOrder K] [DecidableEq K] {m : List (K × V)} (hm : WF m) (k : K) (d : V)
    (f : V → V) : find (update k d f m) k = some (f ((find m k).getD d)) := by
  induction m with
  | nil => simp [update, find]
  | cons p rest ih =>
    obtain ⟨a, v⟩ := p
    unfold update
    by_cases h1 : k < a
    · have hnone : find ((a, v) :: rest) k = none := by
        rw [find_eq_none_iff]
        intro hmem
        simp only [keys, List.map_cons, List.mem_cons] at hmem
        rcases hmem with e | e
        · exact absurd h1 (by rw [e]; exact lt_irrefl _)
        · exact absurd (lt_trans h1 (hm.head_lt e)) (lt_irrefl _)
      rw [hnone]
      simp [h1, find]
    · by_cases h2 : a < k
      · simp only [h1, h2, if_false, if_true, find, ne_of_lt h2, ih hm.tail]
      · have e : a = k := le_antisymm (not_lt.1 h1) (not_lt.1 h2)
        simp [h1, h2, find, e]

theorem find_update [LinearOrder K] [DecidableEq K] {m : List (K × V)} (hm : WF m) (k : K) (d : V)
    (f : V → V) (k' : K) :
    find (update k d f m) k' = if k' = k then some (f ((find m k).getD d)) else find m k' := by
  by_cases h : k' = k
  · subst h
    simp [find_update_self hm]
  · simp [h, find_update_ne]

theorem mem_keys_update [LinearOrder K] (m : List (K × V)) (k : K) (d : V) (f : V → V)
    (k' : K) : k' ∈ keys (update k d f m) ↔ k' = k ∨ k' ∈ keys m := by
  induction m with
  | nil => simp [update, keys]
  | cons p rest ih =>
    obtain ⟨a, v⟩ := p
    unfold update
    by_cases h1 : k < a
    · simp [h1, keys]
    · by_cases h2 : a < k
      · simp only [h1, h2, if_false, if_true, keys, List.map_cons, List.mem_cons] at ih ⊢
        rw [ih]
        tauto
      · have e : a = k := le_antisymm (not_lt.1 h1) (not_lt.1 h2)
        simp [h1, h2, keys, e]

theorem WF.update [LinearOrder K] {m : List (K × V)} (hm : WF m) (k : K) (d : V)
    (f : V → V) : WF (update k d f m) := by
  induction m with
  | nil => simp [StdMap.update, WF, keys]
  | cons p rest ih =>
    obtain ⟨a, v⟩ := p
    unfold StdMap.update
    by_cases h1 : k < a
    · simp only [h1, if_true]
      unfold WF keys at hm ⊢
      simp only [List.map_cons, List.sorted_cons] at hm ⊢
      refine ⟨?_, hm⟩
      intro b hb
      rcases List.mem_cons.1 hb with e | e
      · exact e ▸ h1
      · exact lt_trans h1 (hm.1 b e)
    · by_cases h2 : a < k
      · simp only [h1, h2, if_false, if_true]
        have ht := ih hm.tail
        have hall : ∀ b ∈ keys (StdMap.update k d f rest), a < b := by
          intro b hb
          rcases (mem_keys_update rest k d f b).1 hb with e | e
          · exact e ▸ h2
          · exact hm.head_lt e
        unfold WF keys at ht hall ⊢
        simp only [List.map_cons, List.sorted_cons]
        exact ⟨hall, ht⟩
      · simp only [h1, h2, if_false]
        unfold WF keys at hm ⊢
        simpa using hm

theorem sum_update [LinearOrder K] {A : Type} [AddCommMonoid A] (m : List (K × A)) (k : K)
    (x : A) :
    ((update k 0 (fun y => y + x) m).map Prod.snd).sum = (m.map Prod.snd).sum + x := by
  induction m with
  | nil => simp [update]
  | cons p rest ih =>
    obtain ⟨a, v⟩ := p
    unfold update
    by_cases h1 : k < a
    · simp [h1, add_comm, add_left_comm]
    · by_cases h2 : a < k
      · simp only [h1, h2, if_false, if_true, List.map_cons, List.sum_cons, ih, add_assoc]
      · simp only [h1, h2, if_false, List.map_cons, List.sum_cons]
        rw [add_right_comm]

theorem length_update_of_not_mem [LinearOrder K] (m : List (K × V)) (k : K) (d : V)
    (f : V → V) (h : k ∉ keys m) : (update k d f m).length = m.length + 1 := by
  induction m with
  | nil => simp [update]
  | cons p rest ih =>
    obtain ⟨a, v⟩ := p
    simp only [keys, List.map_cons, List.mem_cons, not_or] at h
    unfold update
    by_cases h1 : k < a
    · simp [h1]
    · by_cases h2 : a < k
      · simp only [h1, h2, if_false, if_true, List.length_cons]
        rw [ih h.2]
      · exact absurd (le_antisymm (not_lt.1 h2) (not_lt.1 h1)) h.1

theorem mem_setInsert [LinearOrder K] (s : List K) (k x : K) :
    x ∈ setInsert k s ↔ x = k ∨ x ∈ s := by
  induction s with
  | nil => simp [setInsert]
  | cons a rest ih =>
    unfold setInsert
    by_cases h1 : k < a
    · simp [h1]
    · by_cases h2 : a < k
      · simp only [h1, h2, if_false, if_true, List.mem_cons, ih]
        tauto
      · have e : a = k := le_antisymm (not_lt.1 h1) (not_lt.1 h2)
        simp [h1, h2, e]

theorem sorted_setInsert [LinearOrder K] {s : List K} (hs : s.Sorted (fun a b => a < b))
    (k : K) : (setInsert k s).Sorted (fun a b => a < b) := by
  induction s with
  | nil => simp [setInsert]
  | cons a rest ih =>
    unfold setInsert
    by_cases h1 : k < a
    · simp only [h1, if_true, List.sorted_cons]
      refine ⟨?_, List.sorted_cons.1 hs⟩
      intro b hb
      rcases List.mem_cons.1 hb with e | e
      · exact e ▸ h1
      · exact lt_trans h1 ((List.sorted_cons.1 hs).1 b e)
    · by_cases h2 : a < k
      · simp only [h1, h2, if_false, if_true, List.sorted_cons]
        refine ⟨?_, ih (List.sorted_cons.1 hs).2⟩
        intro b hb
        rcases (mem_setInsert rest k b).1 hb with e | e
        · exact e ▸ h2
        · exact (List.sorted_cons.1 hs).1 b e
      · simpa [h1, h2] using hs

theorem mem_setErase [DecidableEq K] (s : List K) (k x : K) :
    x ∈ setErase s k ↔ x ∈ s ∧ x ≠ k := by
  simp [setErase]

theorem sorted_setErase [LinearOrder K] [DecidableEq K] {s : List K} (hs : s.Sorted (fun a b => a < b))
    (k : K) : (setErase s k).Sorted (fun a b => a < b) :=
  List.Sorted.filter _ hs

theorem setCount_eq_zero_iff [DecidableEq K] (s : List K) (k : K) :
    setCount s k = 0 ↔ k ∉ s := by
  unfold setCount
  by_cases h : k ∈ s <;> simp [h]

end StdMap

/-! ## Tokenisation -/

theorem length_dropWhile_le {α : Type} (p : α → Bool) (l : List α) :
    (l.dropWhile p).length ≤ l.length := by
  induction l with
  | nil => simp
  | cons a rest ih =>
    simp only [List.dropWhile]
    split
    · exact Nat.le_succ_of_le ih
    · exact Nat.le_refl _

/-- The loop of `SplitIntoWords` has finished before its fuel is used up: with
`str.length` iterations available, a further one changes nothing. -/
theorem SplitIntoWords.loop_fuel_succ (fuel : Nat) :
    ∀ (str : List Char) (result : List Word), str.length ≤ fuel →
      SplitIntoWords.loop (fuel + 1) str result = SplitIntoWords.loop fuel str result := by
  induction fuel with
  | zero =>
    intro str result h
    have : str = [] := List.length_eq_zero.1 (Nat.le_zero.1 h)
    subst this
    simp [SplitIntoWords.loop]
  | succ n ih =>
    intro str result h
    cases str with
    | nil => simp [SplitIntoWords.loop]
    | cons c cs =>
      have hcs : cs.length ≤ n := by simpa using h
      rw [SplitIntoWords.loop]
      conv_rhs => rw [SplitIntoWords.loop]
      by_cases hc : c = ' '
      · simp only [hc, if_true]
        exact ih cs result hcs
      · simp only [hc, if_false]
        apply ih
        have : (c :: cs).dropWhile (fun x => decide (x ≠ ' ')) =
            cs.dropWhile (fun x => decide (x ≠ ' ')) := by
          simp [List.dropWhile, hc]
        rw [this]
        exact le_trans (length_dropWhile_le _ cs) hcs

theorem SplitIntoWords.loop_ne_nil (fuel : Nat) :
    ∀ (str : List Char) (result : List Word), (∀ w ∈ result, w ≠ []) →
      ∀ w ∈ SplitIntoWords.loop fuel str result, w ≠ [] := by
  induction fuel with
  | zero =>
    intro str result h
    simpa [SplitIntoWords.loop] using h
  | succ n ih =>
    intro str result h
    cases str with
    | nil => simpa [SplitIntoWords.loop] using h
    | cons c cs =>
      rw [SplitIntoWords.loop]
      by_cases hc : c = ' '
      · simp only [hc, if_true]
        exact ih cs result h
      · simp only [hc, if_false]
        apply ih
        intro w hw
        rcases List.mem_append.1 hw with hw | hw
        · exact h w hw
        · have : w = (c :: cs).takeWhile (fun x => decide (x ≠ ' ')) := by simpa using hw
          rw [this]
          simp [List.takeWhile, hc]

/-- No slice returned by `SplitIntoWords` is empty. -/
theorem SplitIntoWords_ne_nil (str : List Char) : ∀ w ∈ SplitIntoWords str, w ≠ [] :=
  SplitIntoWords.loop_ne_nil _ _ _ (by simp)

/-! ## Query parsing -/

theorem IsValidWord_eq_false_iff (word : Word) :
    IsValidWord word = false ↔ ∃ c ∈ word, c.toNat < 32 := by
  simp [IsValidWord]

theorem malformed_iff (token : Word) (h : token ≠ []) :
    MalformedQueryToken token ↔
      ((if token.head? = some '-' then token.drop 1 else token) = [] ∨
        (if token.head? = some '-' then token.drop 1 else token).head? = some '-' ∨
        IsValidWord (if token.head? = some '-' then token.drop 1 else token) = false) := by
  unfold MalformedQueryToken
  rw [IsValidWord_eq_false_iff]
  cases token with
  | nil => exact absurd rfl h
  | cons c cs =>
    by_cases hc : c = '-'
    · subst hc
      have e1 : ('-' :: cs = ['-']) ↔ cs = [] := by simp
      have e2 : (∃ rest, '-' :: cs = '-' :: '-' :: rest) ↔ cs.head? = some '-' := by
        cases cs with
        | nil => simp
        | cons d ds => simp
      simp only [List.head?_cons, if_true, List.drop_succ_cons, List.drop_zero, e1, e2]
    · have e0 : ¬ (some c = some '-') := fun e => hc (Option.some.inj e)
      have e1 : ¬ (c :: cs = ['-']) := fun e => hc (List.cons.inj e).1
      have e2 : ¬ (∃ rest, c :: cs = '-' :: '-' :: rest) := by
        rintro ⟨rest, e⟩
        exact hc (List.cons.inj e).1
      simp only [List.head?_cons, e0, if_false, e1, e2, false_or]
      simp

theorem ParseQueryWord_error_iff (s : Server R) (token : Word) (e : Exn) :
    ParseQueryWord s token = .error e ↔
      e = Exn.invalid_argument ∧ (token = [] ∨ MalformedQueryToken token) := by
  by_cases h : token = []
  · subst h
    simp [ParseQueryWord, eq_comm]
  · rw [malformed_iff token h]
    unfold ParseQueryWord
    by_cases hm : token.head? = some '-'
    · simp only [h, hm, if_false, if_true, false_or, decide_True]
      by_cases hbad : List.drop 1 token = [] ∨ (List.drop 1 token).head? = some '-' ∨
          IsValidWord (List.drop 1 token) = false
      · rw [if_pos hbad]
        constructor
        · intro he
          cases he
          exact ⟨rfl, hbad⟩
        · intro he
          rw [he.1]
      · rw [if_neg hbad]
        constructor
        · intro he
          cases he
        · intro he
          exact absurd he.2 hbad
    · simp only [h, hm, if_false, false_or, decide_False, Bool.false_eq_true]
      by_cases hbad : IsValidWord token = false
      · simp only [hbad, or_true, if_true]
        constructor
        · intro he
          cases he
          exact ⟨rfl, trivial⟩
        · intro he
          rw [he.1]
      · simp only [hbad, or_false, if_false]
        constructor
        · intro he
          cases he
        · intro he
          exact absurd he.2 (by simp)

theorem ParseQuery.loop_error_iff (s : Server R) (e : Exn) :
    ∀ (words : List Word) (result : Query),
      ParseQuery.loop s words result = .error e ↔
        e = Exn.invalid_argument ∧ ∃ token ∈ words, token = [] ∨ MalformedQueryToken token := by
  intro words
  induction words with
  | nil => intro result; simp [ParseQuery.loop]
  | cons w rest ih =>
    intro result
    rw [ParseQuery.loop]
    cases hq : ParseQueryWord s w with
    | error e' =>
      have h := (ParseQueryWord_error_iff s w e').1 hq
      simp only [List.mem_cons, exists_eq_or_imp]
      constructor
      · intro he
        cases he
        exact ⟨h.1, Or.inl h.2⟩
      · intro he
        rw [h.1, he.1]
    | ok qw =>
      have hno : ¬ (w = [] ∨ MalformedQueryToken w) := by
        intro hbad
        have := (ParseQueryWord_error_iff s w Exn.invalid_argument).2 ⟨rfl, hbad⟩
        rw [hq] at this
        cases this
      simp only [List.mem_cons, exists_eq_or_imp, hno, false_or]
      split
      · split <;> exact ih _
      · exact ih _

theorem ParseQuery_error_iff (s : Server R) (raw_query : List Char) (e : Exn) :
    ParseQuery s raw_query = .error e ↔
      e = Exn.invalid_argument ∧
        ∃ token ∈ SplitIntoWords raw_query, MalformedQueryToken token := by
  have key := ParseQuery.loop_error_iff s e (SplitIntoWords raw_query)
    { plus_words := [], minus_words := [] }
  have hne := SplitIntoWords_ne_nil raw_query
  have hiff : (∃ token ∈ SplitIntoWords raw_query, token = [] ∨ MalformedQueryToken token) ↔
      ∃ token ∈ SplitIntoWords raw_query, MalformedQueryToken token := by
    constructor
    · rintro ⟨t, ht, h | h⟩
      · exact absurd h (hne t ht)
      · exact ⟨t, ht, h⟩
    · rintro ⟨t, ht, h⟩
      exact ⟨t, ht, Or.inr h⟩
  rw [← hiff, ← key]
  unfold ParseQuery
  cases ParseQuery.loop s (SplitIntoWords raw_query) { plus_words := [], minus_words := [] } with
  | error e' => simp
  | ok q => simp

/-! ## The only exception of the scoring and matching loops is `out_of_range` -/

theorem FindAllDocuments.add_word_error (s : Server R) (p : DocumentPredicate) (idf : R)
    (e : Exn) : ∀ (bucket acc : List (Int × R)),
      FindAllDocuments.add_word s p idf bucket acc = .error e → e = Exn.out_of_range := by
  intro bucket
  induction bucket with
  | nil => intro acc h; simp [FindAllDocuments.add_word] at h
  | cons x rest ih =>
    intro acc h
    obtain ⟨d, f⟩ := x
    rw [FindAllDocuments.add_word] at h
    cases hd : StdMap.find s.documents_ d with
    | none => rw [hd] at h; cases h; rfl
    | some data =>
      rw [hd] at h
      simp only at h
      split at h <;> exact ih _ h

theorem FindAllDocuments.plus_loop_error (ln : R → R) (s : Server R) (p : DocumentPredicate)
    (e : Exn) : ∀ (words : List Word) (acc : List (Int × R)),
      FindAllDocuments.plus_loop ln s p words acc = .error e → e = Exn.out_of_range := by
  intro words
  induction words with
  | nil => intro acc h; simp [FindAllDocuments.plus_loop] at h
  | cons w rest ih =>
    intro acc h
    rw [FindAllDocuments.plus_loop] at h
    split at h
    · exact ih _ h
    · unfold ComputeWordInverseDocumentFreq at h
      cases hb : StdMap.find s.word_to_document_freqs_ w with
      | none => rw [hb] at h; cases h; rfl
      | some bucket =>
        rw [hb] at h
        simp only at h
        cases ha : FindAllDocuments.add_word s p
            (ln ((GetDocumentCount s : R) * 1 / (StdMap.size bucket : R))) bucket acc with
        | error e' =>
          rw [ha] at h
          cases h
          exact FindAllDocuments.add_word_error s p _ e _ _ ha
        | ok acc' =>
          rw [ha] at h
          exact ih _ h

theorem FindAllDocuments.minus_words_loop_error (s : Server R) (d : Int) (e : Exn) :
    ∀ (words : List Word) (acc : List (Int × R)),
      FindAllDocuments.minus_words_loop s d words acc = .error e → e = Exn.out_of_range := by
  intro words
  induction words with
  | nil => intro acc h; simp [FindAllDocuments.minus_words_loop] at h
  | cons w rest ih =>
    intro acc h
    rw [FindAllDocuments.minus_words_loop] at h
    cases hb : StdMap.find s.word_frequencies_ d with
    | none => rw [hb] at h; cases h; rfl
    | some m =>
      rw [hb] at h
      simp only at h
      split at h <;> exact ih _ h

theorem FindAllDocuments.minus_loop_error (s : Server R) (minus : List Word) (e : Exn) :
    ∀ (ids : List Int) (acc : List (Int × R)),
      FindAllDocuments.minus_loop s minus ids acc = .error e → e = Exn.out_of_range := by
  intro ids
  induction ids with
  | nil => intro acc h; simp [FindAllDocuments.minus_loop] at h
  | cons d rest ih =>
    intro acc h
    rw [FindAllDocuments.minus_loop] at h
    cases hb : FindAllDocuments.minus_words_loop s d minus acc with
    | error e' =>
      rw [hb] at h
      cases h
      exact FindAllDocuments.minus_words_loop_error s d e _ _ hb
    | ok acc' =>
      rw [hb] at h
      exact ih _ h

theorem FindAllDocuments.collect_error (s : Server R) (e : Exn) :
    ∀ (acc : List (Int × R)),
      FindAllDocuments.collect s acc = .error e → e = Exn.out_of_range := by
  intro acc
  induction acc with
  | nil => intro h; simp [FindAllDocuments.collect] at h
  | cons x rest ih =>
    intro h
    obtain ⟨d, r⟩ := x
    rw [FindAllDocuments.collect] at h
    cases hd : StdMap.find s.documents_ d with
    | none => rw [hd] at h; cases h; rfl
    | some data =>
      rw [hd] at h
      simp only at h
      cases hc : FindAllDocuments.collect s rest with
      | error e' =>
        rw [hc] at h
        cases h
        exact ih hc
      | ok docs => rw [hc] at h; cases h

theorem FindAllDocuments_error (ln : R → R) (s : Server R) (query : Query)
    (p : DocumentPredicate) (e : Exn)
    (h : FindAllDocuments ln s query p = .error e) : e = Exn.out_of_range := by
  unfold FindAllDocuments at h
  cases h1 : FindAllDocuments.plus_loop ln s p query.plus_words [] with
  | error e' =>
    rw [h1] at h
    cases h
    exact FindAllDocuments.plus_loop_error ln s p e _ _ h1
  | ok scored =>
    rw [h1] at h
    simp only at h
    cases h2 : FindAllDocuments.minus_loop s query.minus_words s.document_ids_ scored with
    | error e' =>
      rw [h2] at h
      cases h
      exact FindAllDocuments.minus_loop_error s _ e _ _ h2
    | ok acc =>
      rw [h2] at h
      exact FindAllDocuments.collect_error s e _ h

theorem MatchDocument.match_plus_loop_error (s : Server R) (d : Int) (e : Exn) :
    ∀ (words matched : List Word),
      MatchDocument.plus_loop s d words matched = .error e → e = Exn.out_of_range := by
  intro words
  induction words with
  | nil => intro acc h; simp [MatchDocument.plus_loop] at h
  | cons w rest ih =>
    intro acc h
    rw [MatchDocument.plus_loop] at h
    cases hb : StdMap.find s.word_frequencies_ d with
    | none => rw [hb] at h; cases h; rfl
    | some m =>
      rw [hb] at h
      simp only at h
      split at h <;> exact ih _ h

theorem MatchDocument.match_minus_loop_error (s : Server R) (d : Int) (e : Exn) :
    ∀ (words matched : List Word),
      MatchDocument.minus_loop s d words matched = .error e → e = Exn.out_of_range := by
  intro words
  induction words with
  | nil => intro acc h; simp [MatchDocument.minus_loop] at h
  | cons w rest ih =>
    intro acc h
    rw [MatchDocument.minus_loop] at h
    cases hb : StdMap.find s.word_frequencies_ d with
    | none => rw [hb] at h; cases h; rfl
    | some m =>
      rw [hb] at h
      simp only at h
      split at h <;> exact ih _ h

theorem FindTopDocuments_invalid_argument_iff (ln : R → R) (s : Server R)
    (raw_query : List Char) (p : DocumentPredicate) :
    FindTopDocuments ln s raw_query p = .error Exn.invalid_argument ↔
      ParseQuery s raw_query = .error Exn.invalid_argument := by
  unfold FindTopDocuments FindTopDocuments.query
  cases hq : ParseQuery s raw_query with
  | error e => simp
  | ok q =>
    simp only
    cases hf : FindAllDocuments ln s
        { plus_words := stdUnique q.plus_words, minus_words := stdUnique q.minus_words } p with
    | error e =>
      have := FindAllDocuments_error ln s _ p e hf
      subst this
      simp
    | ok docs =>
      simp only
      split <;> simp

theorem MatchDocument_invalid_argument_iff (s : Server R) (raw_query : List Char)
    (document_id : Int) :
    MatchDocument s raw_query document_id = .error Exn.invalid_argument ↔
      ParseQuery s raw_query = .error Exn.invalid_argument := by
  unfold MatchDocument
  cases hq : ParseQuery s raw_query with
  | error e => simp
  | ok q =>
    simp only
    cases h1 : MatchDocument.plus_loop s document_id q.plus_words [] with
    | error e =>
      have := MatchDocument.match_plus_loop_error s document_id e _ _ h1
      subst this
      simp
    | ok m1 =>
      simp only
      cases h2 : MatchDocument.minus_loop s document_id q.minus_words m1 with
      | error e =>
        have := MatchDocument.match_minus_loop_error s document_id e _ _ h2
        subst this
        simp
      | ok m2 =>
        simp only
        cases StdMap.find s.documents_ document_id <;> simp

theorem MatchDocumentPar_invalid_argument_iff (s : Server R) (raw_query : List Char)
    (document_id : Int) :
    MatchDocumentPar s raw_query document_id = .error Exn.invalid_argument ↔
      ParseQuery s raw_query = .error Exn.invalid_argument := by
  unfold MatchDocumentPar
  cases hq : ParseQuery s raw_query with
  | error e => simp
  | ok q =>
    simp only
    cases StdMap.find s.word_frequencies_ document_id with
    | none => simp
    | some tmp =>
      simp only
      cases StdMap.find s.documents_ document_id with
      | none => split <;> [simp; (split <;> simp)]
      | some data => split <;> [simp; (split <;> simp)]

/-! ## `std::sort` and `std::unique` -/

theorem chain_orderedInsert {α : Type} (r : α → α → Prop) [DecidableRel r]
    (total : ∀ a b, r a b ∨ r b a) (a : α) :
    ∀ l : List α, l.Chain' r → (l.orderedInsert r a).Chain' r := by
  intro l
  induction l with
  | nil => intro _; simp
  | cons b rest ih =>
    intro h
    rw [List.orderedInsert]
    by_cases hab : r a b
    · rw [if_pos hab]
      exact List.Chain'.cons hab h
    · rw [if_neg hab]
      have hba : r b a := (total a b).resolve_left hab
      rw [List.chain'_cons'] at h ⊢
      refine ⟨?_, ih h.2⟩
      intro y hy
      cases rest with
      | nil =>
        simp only [List.orderedInsert, List.head?_cons, Option.mem_def,
          Option.some.injEq] at hy
        exact hy ▸ hba
      | cons c rest' =>
        rw [List.orderedInsert] at hy
        by_cases hac : r a c
        · rw [if_pos hac] at hy
          simp only [List.head?_cons, Option.mem_def, Option.some.injEq] at hy
          exact hy ▸ hba
        · rw [if_neg hac] at hy
          simp only [List.head?_cons, Option.mem_def, Option.some.injEq] at hy
          exact h.1 y (by simp [hy])

/-- Of two neighbours in the output of `stdSort`, the second is never smaller than the
first, provided only that `comp` is asymmetric. -/
theorem chain_stdSort {α : Type} (comp : α → α → Bool)
    (asymm : ∀ a b, comp a b = true → comp b a = false) (l : List α) :
    (stdSort comp l).Chain' (fun a b => ¬ comp b a = true) := by
  have total : ∀ a b, (¬ comp b a = true) ∨ (¬ comp a b = true) := by
    intro a b
    by_cases h : comp b a = true
    · right
      rw [asymm b a h]
      simp
    · exact Or.inl h
  unfold stdSort
  induction l with
  | nil => simp
  | cons a rest ih =>
    rw [List.insertionSort]
    exact chain_orderedInsert _ total a _ ih

theorem perm_stdSort {α : Type} (comp : α → α → Bool) (l : List α) :
    (stdSort comp l).Perm l :=
  List.perm_insertionSort _ l

theorem mem_stdSort {α : Type} (comp : α → α → Bool) (l : List α) (x : α) :
    x ∈ stdSort comp l ↔ x ∈ l :=
  (perm_stdSort comp l).mem_iff

theorem length_stdSort {α : Type} (comp : α → α → Bool) (l : List α) :
    (stdSort comp l).length = l.length :=
  (perm_stdSort comp l).length_eq

theorem mem_stdUnique {α : Type} [DecidableEq α] (x : α) :
    ∀ l : List α, x ∈ stdUnique l ↔ x ∈ l := by
  intro l
  induction l using stdUnique.induct with
  | case1 => simp [stdUnique]
  | case2 a => simp [stdUnique]
  | case3 a rest ih =>
    rw [stdUnique, if_pos rfl, ih]
    simp
  | case4 a b rest hab ih =>
    rw [stdUnique, if_neg hab, List.mem_cons, ih]
    simp

theorem FindTopDocuments.comp_asymm (a b : Document R)
    (h : FindTopDocuments.comp a b = true) : FindTopDocuments.comp b a = false := by
  unfold FindTopDocuments.comp at *
  rw [abs_sub_comm b.relevance a.relevance]
  by_cases hd : |a.relevance - b.relevance| < MAX_DIFFERENCE
  · rw [if_pos hd] at h ⊢
    simp only [gt_iff_lt, decide_eq_true_eq, decide_eq_false_iff_not, not_lt] at h ⊢
    exact le_of_lt h
  · rw [if_neg hd] at h ⊢
    simp only [gt_iff_lt, decide_eq_true_eq, decide_eq_false_iff_not, not_lt] at h ⊢
    exact le_of_lt h

/-! ## The representation invariant -/

theorem StdMap.find_getD_nil {K V : Type} [DecidableEq K]
    (o : Option (List (K × V))) (k : K) :
    StdMap.find (o.getD []) k = o.bind (fun m => StdMap.find m k) := by
  cases o <;> simp [StdMap.find]

theorem StdMap.WF_getD {K V : Type} [LinearOrder K] (o : Option (List (K × V)))
    (h : ∀ m, o = some m → StdMap.WF m) : StdMap.WF (o.getD []) := by
  cases o with
  | none => exact StdMap.WF_nil
  | some m => exact h m rfl

theorem Inv.empty (stop_words : List Word) : Inv (Server.empty stop_words : Server R) := by
  refine ⟨⟨?_, ?_, ?_, ?_, ?_, ?_⟩, ?_, ?_, ?_⟩ <;>
    simp [Server.empty, StdMap.WF, StdMap.keys, StdMap.find, inverted_entry, forward_entry]

theorem forward_entry_index_word (s : Server R) (h : IndexInv s) (id : Int) (x : R)
    (word : Word) (d : Int) (w : Word) :
    forward_entry (AddDocument.index_word id x s word) d w =
      if d = id ∧ w = word then some ((forward_entry s id word).getD 0 + x)
      else forward_entry s d w := by
  unfold forward_entry AddDocument.index_word
  simp only
  rw [StdMap.find_update h.forward_wf]
  by_cases hd : d = id
  · subst hd
    simp only [if_true, Option.some_bind, true_and]
    have hwf : StdMap.WF ((StdMap.find s.word_frequencies_ d).getD []) :=
      StdMap.WF_getD _ (h.forward_inner_wf d)
    rw [StdMap.find_update hwf]
    by_cases hw : w = word
    · subst hw
      rw [if_pos rfl, if_pos rfl]
      cases StdMap.find s.word_frequencies_ d <;> simp [StdMap.find]
    · rw [if_neg hw, if_neg hw]
      cases StdMap.find s.word_frequencies_ d <;> simp [StdMap.find]
  · simp [hd]

theorem inverted_entry_index_word (s : Server R) (h : IndexInv s) (id : Int) (x : R)
    (word : Word) (w : Word) (d : Int) :
    inverted_entry (AddDocument.index_word id x s word) w d =
      if d = id ∧ w = word then some ((inverted_entry s word id).getD 0 + x)
      else inverted_entry s w d := by
  unfold inverted_entry AddDocument.index_word
  simp only
  rw [StdMap.find_update h.inverted_wf]
  by_cases hw : w = word
  · subst hw
    simp only [if_true, Option.some_bind, and_true]
    have hwf : StdMap.WF ((StdMap.find s.word_to_document_freqs_ w).getD []) :=
      StdMap.WF_getD _ (h.bucket_wf w)
    rw [StdMap.find_update hwf]
    by_cases hd : d = id
    · subst hd
      rw [if_pos rfl, if_pos rfl]
      cases StdMap.find s.word_to_document_freqs_ w <;> simp [StdMap.find]
    · rw [if_neg hd, if_neg hd]
      cases StdMap.find s.word_to_document_freqs_ w <;> simp [StdMap.find]
  · simp [hw]

theorem IndexInv.index_word {s : Server R} (h : IndexInv s) (id : Int) (x : R)
    (word : Word) : IndexInv (AddDocument.index_word id x s word) := by
  refine ⟨?_, ?_, ?_, ?_, ?_, ?_⟩
  · exact h.documents_wf
  · exact h.forward_wf.update _ _ _
  · intro d m hm
    simp only [AddDocument.index_word] at hm
    rw [StdMap.find_update h.forward_wf] at hm
    by_cases hd : d = id
    · rw [if_pos hd] at hm
      cases hm
      exact (StdMap.WF_getD _ (h.forward_inner_wf id)).update _ _ _
    · rw [if_neg hd] at hm
      exact h.forward_inner_wf d m hm
  · exact h.inverted_wf.update _ _ _
  · intro w b hb
    simp only [AddDocument.index_word] at hb
    rw [StdMap.find_update h.inverted_wf] at hb
    by_cases hw : w = word
    · rw [if_pos hw] at hb
      cases hb
      exact (StdMap.WF_getD _ (h.bucket_wf word)).update _ _ _
    · rw [if_neg hw] at hb
      exact h.bucket_wf w b hb
  · intro w d
    rw [forward_entry_index_word s h, inverted_entry_index_word s h, h.transpose word id,
      h.transpose w d]

theorem index_word_fields (s : Server R) (id : Int) (x : R) (word : Word) :
    (AddDocument.index_word id x s word).stop_words_ = s.stop_words_ ∧
      (AddDocument.index_word id x s word).documents_ = s.documents_ ∧
      (AddDocument.index_word id x s word).document_ids_ = s.document_ids_ :=
  ⟨rfl, rfl, rfl⟩

theorem foldl_index_word (id : Int) (x : R) :
    ∀ (words : List Word) (s : Server R), IndexInv s →
      IndexInv (words.foldl (AddDocument.index_word id x) s) ∧
      (words.foldl (AddDocument.index_word id x) s).stop_words_ = s.stop_words_ ∧
      (words.foldl (AddDocument.index_word id x) s).documents_ = s.documents_ ∧
      (words.foldl (AddDocument.index_word id x) s).document_ids_ = s.document_ids_ ∧
      (∀ d, d ∈ StdMap.keys (words.foldl (AddDocument.index_word id x) s).word_frequencies_ ↔
        (d = id ∧ words ≠ []) ∨ d ∈ StdMap.keys s.word_frequencies_) := by
  intro words
  induction words with
  | nil => intro s h; simp [h]
  | cons w rest ih =>
    intro s h
    obtain ⟨h1, h2, h3, h4, h5⟩ := ih (AddDocument.index_word id x s w) (h.index_word id x w)
    refine ⟨h1, h2, h3, h4, ?_⟩
    intro d
    rw [List.foldl_cons, h5 d]
    simp only [AddDocument.index_word, StdMap.mem_keys_update]
    by_cases hd : d = id <;> simp [hd]

/-! ## `AddDocument` -/

theorem StdMap.find_update_of_not_mem {K V : Type} [LinearOrder K] [DecidableEq K]
    (m : List (K × V)) (k : K) (d : V) (f : V → V) (h : k ∉ StdMap.keys m) :
    StdMap.find (StdMap.update k d f m) k = some (f d) := by
  induction m with
  | nil => simp [StdMap.update, StdMap.find]
  | cons p rest ih =>
    obtain ⟨a, v⟩ := p
    simp only [StdMap.keys, List.map_cons, List.mem_cons, not_or] at h
    unfold StdMap.update
    by_cases h1 : k < a
    · simp [h1, StdMap.find]
    · by_cases h2 : a < k
      · simp only [h1, h2, if_false, if_true, StdMap.find, ne_of_lt h2]
        exact ih h.2
      · exact absurd (le_antisymm (not_lt.1 h2) (not_lt.1 h1)) h.1

theorem SplitIntoWordsNoStop.loop_eq (s : Server R) :
    ∀ (tokens words : List Word),
      SplitIntoWordsNoStop.loop s tokens words =
        if tokens.all IsValidWord then
          .ok (words ++ tokens.filter (fun w => !IsStopWord s w))
        else .error Exn.invalid_argument := by
  intro tokens
  induction tokens with
  | nil => intro words; simp [SplitIntoWordsNoStop.loop]
  | cons t rest ih =>
    intro words
    rw [SplitIntoWordsNoStop.loop]
    by_cases hv : IsValidWord t = true
    · by_cases hs : IsStopWord s t = true
      · simp [hv, hs, ih]
      · simp only [Bool.not_eq_true] at hs
        simp [hv, hs, ih]
    · simp only [Bool.not_eq_true] at hv
      simp [hv]

theorem SplitIntoWordsNoStop_eq (s : Server R) (text : List Char) :
    SplitIntoWordsNoStop s text =
      if (SplitIntoWords text).all IsValidWord then
        .ok ((SplitIntoWords text).filter (fun w => !IsStopWord s w))
      else .error Exn.invalid_argument := by
  unfold SplitIntoWordsNoStop
  rw [SplitIntoWordsNoStop.loop_eq]
  simp

/-- The three ways in which `AddDocument` ends: the id is refused and nothing changes;
the record is stored and a word is refused; the record is stored and the words are
indexed. -/
theorem AddDocument_eq (s : Server R) (document_id : Int) (document : List Char)
    (status : DocumentStatus) (ratings : List Int) :
    AddDocument s document_id document status ratings =
      if document_id < 0 ∨ document_id ∈ StdMap.keys s.documents_ then
        (.error Exn.invalid_argument, s)
      else if (SplitIntoWords document).all IsValidWord then
        (.ok (), AddDocument.index_words
          (AddDocument.store_record s document_id document status ratings) document_id
          ((SplitIntoWords document).filter (fun w => !IsStopWord s w)))
      else
        (.error Exn.invalid_argument,
          AddDocument.store_record s document_id document status ratings) := by
  unfold AddDocument
  by_cases h : document_id < 0 ∨ document_id ∈ StdMap.keys s.documents_
  · have h' : document_id < 0 ∨ StdMap.count s.documents_ document_id > 0 := by
      rw [StdMap.count_pos_iff]
      exact h
    rw [if_pos h, if_pos h']
  · have h' : ¬ (document_id < 0 ∨ StdMap.count s.documents_ document_id > 0) := by
      rw [StdMap.count_pos_iff]
      exact h
    rw [if_neg h, if_neg h']
    have hnot : document_id ∉ StdMap.keys s.documents_ := fun hm => h (Or.inr hm)
    have hfind : StdMap.find
        (AddDocument.store_record s document_id document status ratings).documents_
        document_id =
        some { rating := ComputeAverageRating ratings, status := status, text := document } := by
      simp only [AddDocument.store_record, StdMap.emplace]
      rw [StdMap.find_update_of_not_mem _ _ _ _ hnot]
      rfl
    simp only [hfind]
    rw [SplitIntoWordsNoStop_eq]
    have hstop : ∀ w, IsStopWord
        (AddDocument.store_record s document_id document status ratings) w = IsStopWord s w :=
      fun _ => rfl
    simp only [hstop]
    by_cases hv : (SplitIntoWords document).all IsValidWord = true
    · simp [hv]
    · simp [hv]

theorem IndexInv.store_record_index {s : Server R} (h : IndexInv s) (document_id : Int)
    (document : List Char) (status : DocumentStatus) (ratings : List Int) :
    IndexInv (AddDocument.store_record s document_id document status ratings) :=
  ⟨h.documents_wf.update _ _ _, h.forward_wf, h.forward_inner_wf, h.inverted_wf, h.bucket_wf,
    h.transpose⟩

theorem Inv.store_record {s : Server R} (h : Inv s) (document_id : Int)
    (document : List Char) (status : DocumentStatus) (ratings : List Int) :
    Inv (AddDocument.store_record s document_id document status ratings) := by
  refine ⟨h.index.store_record_index _ _ _ _, h.ids_sorted, h.forward_keys, ?_⟩
  intro d hd
  simp only [AddDocument.store_record, StdMap.emplace, StdMap.mem_keys_update]
  exact Or.inr (h.ids_documents d hd)

theorem IndexInv.set_empty_entry {s : Server R} (h : IndexInv s) (id : Int)
    (hid : id ∉ StdMap.keys s.word_frequencies_) :
    IndexInv { s with
      word_frequencies_ := StdMap.update id [] (fun _ => []) s.word_frequencies_ } := by
  have hnone : StdMap.find s.word_frequencies_ id = none :=
    (StdMap.find_eq_none_iff _ _).2 hid
  refine ⟨h.documents_wf, h.forward_wf.update _ _ _, ?_, h.inverted_wf, h.bucket_wf, ?_⟩
  · intro d m hm
    simp only at hm
    rw [StdMap.find_update h.forward_wf] at hm
    by_cases hd : d = id
    · rw [if_pos hd] at hm
      cases hm
      exact StdMap.WF_nil
    · rw [if_neg hd] at hm
      exact h.forward_inner_wf d m hm
  · intro w d
    have e1 : inverted_entry { s with
        word_frequencies_ := StdMap.update id [] (fun _ => []) s.word_frequencies_ } w d =
        inverted_entry s w d := rfl
    rw [e1, h.transpose w d]
    unfold forward_entry
    simp only
    rw [StdMap.find_update h.forward_wf]
    by_cases hd : d = id
    · subst hd
      simp [hnone, StdMap.find]
    · simp [hd]

theorem IndexInv.with_ids {s : Server R} (h : IndexInv s) (ids : List Int) :
    IndexInv { s with document_ids_ := ids } :=
  ⟨h.documents_wf, h.forward_wf, h.forward_inner_wf, h.inverted_wf, h.bucket_wf, h.transpose⟩

theorem Inv.index_words {s : Server R} (h : Inv s) (id : Int) (words : List Word)
    (hdoc : id ∈ StdMap.keys s.documents_) (hid : id ∉ s.document_ids_) :
    Inv (AddDocument.index_words s id words) := by
  have hfw : id ∉ StdMap.keys s.word_frequencies_ := fun hm => hid ((h.forward_keys id).1 hm)
  unfold AddDocument.index_words
  by_cases hw : words = []
  · subst hw
    simp only [ne_eq, not_true_eq_false, if_false]
    refine ⟨(h.index.set_empty_entry id hfw).with_ids _,
      StdMap.sorted_setInsert h.ids_sorted id, ?_, ?_⟩
    · intro d
      simp only [StdMap.mem_keys_update, StdMap.mem_setInsert, h.forward_keys d]
    · intro d hd
      simp only [StdMap.mem_setInsert] at hd
      rcases hd with e | e
      · exact e ▸ hdoc
      · exact h.ids_documents d e
  · simp only [ne_eq, hw, not_false_eq_true, if_true]
    obtain ⟨h1, _, h3, h4, h5⟩ :=
      foldl_index_word id (1 / (words.length : R)) words s h.index
    refine ⟨h1.with_ids _, ?_, ?_, ?_⟩
    · simp only [h4]
      exact StdMap.sorted_setInsert h.ids_sorted id
    · intro d
      simp only [h4, StdMap.mem_setInsert]
      rw [h5 d, h.forward_keys d]
      simp [hw]
    · intro d hd
      simp only [h4, StdMap.mem_setInsert] at hd
      simp only [h3]
      rcases hd with e | e
      · exact e ▸ hdoc
      · exact h.ids_documents d e

theorem Inv.add {s : Server R} (h : Inv s) (document_id : Int) (document : List Char)
    (status : DocumentStatus) (ratings : List Int) :
    Inv (AddDocument s document_id document status ratings).2 := by
  rw [AddDocument_eq]
  by_cases h1 : document_id < 0 ∨ document_id ∈ StdMap.keys s.documents_
  · rw [if_pos h1]
    exact h
  · rw [if_neg h1]
    by_cases h2 : (SplitIntoWords document).all IsValidWord = true
    · rw [if_pos h2]
      apply Inv.index_words (h.store_record _ _ _ _)
      · simp [AddDocument.store_record, StdMap.emplace, StdMap.mem_keys_update]
      · intro hm
        exact h1 (Or.inr (h.ids_documents _ hm))
    · rw [if_neg h2]
      exact h.store_record _ _ _ _

/-! ## `RemoveDocument` -/

theorem StdMap.erase_erase {K V : Type} [DecidableEq K] (m : List (K × V)) (k : K) :
    StdMap.erase (StdMap.erase m k) k = StdMap.erase m k := by
  unfold StdMap.erase
  rw [List.filter_filter]
  simp

theorem find_unindex_word (id : Int) (inverted : List (Word × List (Int × R)))
    (hwf : StdMap.WF inverted) (entry : Word × R) (w : Word) :
    StdMap.find (RemoveDocument.unindex_word id inverted entry) w =
      if w = entry.1 then (StdMap.find inverted w).map (fun b => StdMap.erase b id)
      else StdMap.find inverted w := by
  unfold RemoveDocument.unindex_word
  by_cases hc : StdMap.count inverted entry.1 = 0
  · simp only [hc, ne_eq, not_true_eq_false, if_false]
    have hnone : StdMap.find inverted entry.1 = none := by
      rw [StdMap.find_eq_none_iff, ← StdMap.count_eq_zero_iff]
      exact hc
    by_cases hw : w = entry.1
    · rw [if_pos hw, hw, hnone]
      rfl
    · rw [if_neg hw]
  · simp only [ne_eq, hc, not_false_eq_true, if_true]
    rw [StdMap.find_update hwf]
    by_cases hw : w = entry.1
    · rw [if_pos hw, if_pos hw, hw]
      have : entry.1 ∈ StdMap.keys inverted := by
        by_contra hno
        exact hc ((StdMap.count_eq_zero_iff _ _).2 hno)
      cases hf : StdMap.find inverted entry.1 with
      | none => exact absurd ((StdMap.find_eq_none_iff _ _).1 hf) (not_not.2 this)
      | some b => rfl
    · rw [if_neg hw, if_neg hw]

theorem WF_unindex_word (id : Int) (inverted : List (Word × List (Int × R)))
    (hwf : StdMap.WF inverted) (entry : Word × R) :
    StdMap.WF (RemoveDocument.unindex_word id inverted entry) := by
  unfold RemoveDocument.unindex_word
  split
  · exact hwf.update _ _ _
  · exact hwf

theorem foldl_unindex_word (id : Int) :
    ∀ (words : List (Word × R)) (inverted : List (Word × List (Int × R))),
      StdMap.WF inverted →
      StdMap.WF (words.foldl (RemoveDocument.unindex_word id) inverted) ∧
      ∀ w, StdMap.find (words.foldl (RemoveDocument.unindex_word id) inverted) w =
        if w ∈ StdMap.keys words then
          (StdMap.find inverted w).map (fun b => StdMap.erase b id)
        else StdMap.find inverted w := by
  intro words
  induction words with
  | nil => intro inverted h; simp [h, StdMap.keys]
  | cons entry rest ih =>
    intro inverted h
    obtain ⟨h1, h2⟩ := ih _ (WF_unindex_word id inverted h entry)
    refine ⟨h1, ?_⟩
    intro w
    rw [List.foldl_cons, h2 w, find_unindex_word id inverted h entry w]
    simp only [StdMap.keys, List.map_cons, List.mem_cons]
    by_cases hw : w = entry.1
    · simp only [hw, true_or, if_true]
      split
      · cases StdMap.find inverted entry.1 <;> simp [StdMap.erase_erase]
      · rfl
    · simp only [hw, false_or, if_false]

/-- `RemoveDocument` never throws on a state that satisfies the invariant, and what it
does to a live document. -/
theorem RemoveDocument_eq {s : Server R} (h : Inv s) (document_id : Int) :
    RemoveDocument s document_id =
      if document_id ∈ s.document_ids_ then
        (.ok (),
          { s with
            documents_ := StdMap.erase s.documents_ document_id
            document_ids_ := StdMap.setErase s.document_ids_ document_id
            word_to_document_freqs_ :=
              ((StdMap.find s.word_frequencies_ document_id).getD []).foldl
                (RemoveDocument.unindex_word document_id) s.word_to_document_freqs_
            word_frequencies_ := StdMap.erase s.word_frequencies_ document_id })
      else (.ok (), s) := by
  unfold RemoveDocument
  by_cases hl : document_id ∈ s.document_ids_
  · have hc : ¬ StdMap.setCount s.document_ids_ document_id = 0 := by
      rw [StdMap.setCount_eq_zero_iff]
      exact not_not.2 hl
    rw [if_neg hc, if_pos hl]
    have hk := (h.forward_keys document_id).2 hl
    cases hf : StdMap.find s.word_frequencies_ document_id with
    | none => exact absurd ((StdMap.find_eq_none_iff _ _).1 hf) (not_not.2 hk)
    | some words => simp [hf]
  · have hc : StdMap.setCount s.document_ids_ document_id = 0 :=
      (StdMap.setCount_eq_zero_iff _ _).2 hl
    rw [if_pos hc, if_neg hl]

theorem Inv.remove {s : Server R} (h : Inv s) (document_id : Int) :
    Inv (RemoveDocument s document_id).2 := by
  rw [RemoveDocument_eq h]
  by_cases hl : document_id ∈ s.document_ids_
  · rw [if_pos hl]
    simp only
    obtain ⟨hw, hfind⟩ := foldl_unindex_word document_id
      ((StdMap.find s.word_frequencies_ document_id).getD []) s.word_to_document_freqs_
      h.index.inverted_wf
    refine ⟨⟨?_, ?_, ?_, hw, ?_, ?_⟩, ?_, ?_, ?_⟩
    · exact h.index.documents_wf.erase _
    · exact h.index.forward_wf.erase _
    · intro d m hm
      simp only [StdMap.find_erase] at hm
      split at hm
      · cases hm
      · exact h.index.forward_inner_wf d m hm
    · intro w b hb
      simp only at hb
      rw [hfind w] at hb
      split at hb
      · cases hold : StdMap.find s.word_to_document_freqs_ w with
        | none => rw [hold] at hb; cases hb
        | some b0 =>
          rw [hold] at hb
          cases hb
          exact (h.index.bucket_wf w b0 hold).erase _
      · exact h.index.bucket_wf w b hb
    · intro w d
      unfold inverted_entry forward_entry
      simp only
      rw [hfind w, StdMap.find_erase]
      have ht := h.index.transpose w d
      unfold inverted_entry forward_entry at ht
      by_cases hd : d = document_id
      · subst hd
        simp only [if_true, Option.none_bind]
        by_cases hmem : w ∈ StdMap.keys ((StdMap.find s.word_frequencies_ d).getD [])
        · rw [if_pos hmem]
          cases StdMap.find s.word_to_document_freqs_ w <;> simp [StdMap.find_erase]
        · rw [if_neg hmem, ht]
          have := (StdMap.find_eq_none_iff _ _).2 hmem
          rw [StdMap.find_getD_nil] at this
          exact this
      · simp only [hd, if_false]
        rw [← ht]
        split
        · cases StdMap.find s.word_to_document_freqs_ w <;> simp [StdMap.find_erase, hd]
        · rfl
    · exact StdMap.sorted_setErase h.ids_sorted _
    · intro d
      simp only [StdMap.mem_keys_erase, StdMap.mem_setErase, h.forward_keys d]
    · intro d hd
      simp only [StdMap.mem_setErase] at hd
      simp only [StdMap.mem_keys_erase]
      exact ⟨h.ids_documents d hd.1, hd.2⟩
  · rw [if_neg hl]
    exact h

/-- Every reachable state satisfies the representation invariant. -/
theorem Reachable.inv {s : Server R} (h : Reachable s) : Inv s := by
  induction h with
  | init stop_words => exact Inv.empty stop_words
  | add document_id document status ratings _ ih => exact ih.add _ _ _ _
  | remove document_id _ ih => exact ih.remove _

/-! ## `FindAllDocuments` -/

theorem FindAllDocuments.add_word_ok (s : Server R) (p : DocumentPredicate) (idf : R) :
    ∀ (bucket acc : List (Int × R)), StdMap.WF bucket → StdMap.WF acc →
      (∀ d, d ∈ StdMap.keys bucket → d ∈ StdMap.keys s.documents_) →
      ∃ acc', FindAllDocuments.add_word s p idf bucket acc = .ok acc' ∧ StdMap.WF acc' ∧
        ∀ d, StdMap.find acc' d =
          if accepts s p d = true then
            match StdMap.find bucket d with
            | some freq => some ((StdMap.find acc d).getD 0 + freq * idf)
            | none => StdMap.find acc d
          else StdMap.find acc d := by
  intro bucket
  induction bucket with
  | nil =>
    intro acc _ hacc _
    exact ⟨acc, rfl, hacc, fun d => by simp [StdMap.find]⟩
  | cons x rest ih =>
    intro acc hb hacc hdocs
    obtain ⟨d0, f0⟩ := x
    have hd0 : d0 ∈ StdMap.keys s.documents_ := hdocs d0 (by simp [StdMap.keys])
    have hrest : ∀ d, d ∈ StdMap.keys rest → d ∈ StdMap.keys s.documents_ := by
      intro d hd
      exact hdocs d (by simp only [StdMap.keys, List.map_cons, List.mem_cons]; exact Or.inr hd)
    have hnot : d0 ∉ StdMap.keys rest := fun hm => lt_irrefl _ (hb.head_lt hm)
    have hnone : StdMap.find rest d0 = none := (StdMap.find_eq_none_iff _ _).2 hnot
    rw [FindAllDocuments.add_word]
    cases hf : StdMap.find s.documents_ d0 with
    | none => exact absurd ((StdMap.find_eq_none_iff _ _).1 hf) (not_not.2 hd0)
    | some data =>
      simp only
      by_cases hp : p d0 data.status data.rating = true
      · rw [if_pos hp]
        obtain ⟨acc', h1, h2, h3⟩ := ih
          (StdMap.update d0 0 (fun x => x + f0 * idf) acc) hb.tail (hacc.update _ _ _) hrest
        refine ⟨acc', h1, h2, ?_⟩
        intro d
        rw [h3 d, StdMap.find_update hacc]
        by_cases hd : d = d0
        · subst hd
          have hacc' : accepts s p d = true := by simp [accepts, hf, hp]
          simp [hacc', hnone, StdMap.find]
        · have hd' : ¬ d0 = d := fun e => hd e.symm
          simp [hd, hd', StdMap.find]
      · rw [if_neg hp]
        obtain ⟨acc', h1, h2, h3⟩ := ih acc hb.tail hacc hrest
        refine ⟨acc', h1, h2, ?_⟩
        intro d
        rw [h3 d]
        by_cases hd : d = d0
        · subst hd
          have hacc' : ¬ accepts s p d = true := by simp [accepts, hf, hp]
          simp [hacc']
        · have hd' : ¬ d0 = d := fun e => hd e.symm
          simp [hd', StdMap.find]

theorem bucket_keys_documents {s : Server R} (h : Inv s) {w : Word} {b : List (Int × R)}
    (hb : StdMap.find s.word_to_document_freqs_ w = some b) :
    ∀ d, d ∈ StdMap.keys b → d ∈ s.document_ids_ := by
  intro d hd
  cases hf : StdMap.find b d with
  | none => exact absurd ((StdMap.find_eq_none_iff _ _).1 hf) (not_not.2 hd)
  | some f =>
    have ht := h.index.transpose w d
    unfold inverted_entry forward_entry at ht
    rw [hb] at ht
    simp only [Option.some_bind, hf] at ht
    apply (h.forward_keys d).1
    cases hm : StdMap.find s.word_frequencies_ d with
    | none => rw [hm] at ht; cases ht
    | some m => exact StdMap.mem_keys_of_mem (StdMap.mem_of_find hm)

theorem FindAllDocuments.plus_loop_ok (ln : R → R) {s : Server R} (h : Inv s)
    (p : DocumentPredicate) :
    ∀ (words : List Word) (acc : List (Int × R)), StdMap.WF acc →
      ∃ acc', FindAllDocuments.plus_loop ln s p words acc = .ok acc' ∧ StdMap.WF acc' ∧
        ∀ d, StdMap.find acc' d = accumulated ln s p d words (StdMap.find acc d) := by
  intro words
  induction words with
  | nil =>
    intro acc hacc
    exact ⟨acc, rfl, hacc, fun d => rfl⟩
  | cons w rest ih =>
    intro acc hacc
    rw [FindAllDocuments.plus_loop]
    by_cases hc : StdMap.count s.word_to_document_freqs_ w = 0
    · rw [if_pos hc]
      obtain ⟨acc', h1, h2, h3⟩ := ih acc hacc
      refine ⟨acc', h1, h2, ?_⟩
      intro d
      rw [h3 d]
      have hnone : StdMap.find s.word_to_document_freqs_ w = none := by
        rw [StdMap.find_eq_none_iff, ← StdMap.count_eq_zero_iff]
        exact hc
      have : contribution ln s p w d = none := by
        simp [contribution, inverted_entry, hnone]
      simp [accumulated, this]
    · rw [if_neg hc]
      cases hb : StdMap.find s.word_to_document_freqs_ w with
      | none =>
        exact absurd ((StdMap.count_eq_zero_iff _ _).2 ((StdMap.find_eq_none_iff _ _).1 hb)) hc
      | some bucket =>
        have hidf : ComputeWordInverseDocumentFreq ln s w = .ok (idf ln s w) := by
          simp [idf, ComputeWordInverseDocumentFreq, hb]
        rw [hidf]
        simp only
        obtain ⟨acc1, g1, g2, g3⟩ := FindAllDocuments.add_word_ok s p (idf ln s w) bucket acc
          (h.index.bucket_wf w bucket hb) hacc
          (fun d hd => h.ids_documents d (bucket_keys_documents h hb d hd))
        rw [g1]
        simp only
        obtain ⟨acc', h1, h2, h3⟩ := ih acc1 g2
        refine ⟨acc', h1, h2, ?_⟩
        intro d
        rw [h3 d]
        have step : StdMap.find acc1 d =
            match contribution ln s p w d with
            | some x => some ((StdMap.find acc d).getD 0 + x)
            | none => StdMap.find acc d := by
          rw [g3 d]
          unfold contribution inverted_entry
          rw [hb]
          by_cases ha : accepts s p d = true
          · rw [if_pos ha, if_pos ha]
            simp only [Option.some_bind]
            cases StdMap.find bucket d <;> rfl
          · rw [if_neg ha, if_neg ha]
        rw [step]
        rfl

theorem FindAllDocuments.minus_words_loop_ok (s : Server R) (d0 : Int) (m : List (Word × R))
    (hm : StdMap.find s.word_frequencies_ d0 = some m) :
    ∀ (minus : List Word) (acc : List (Int × R)),
      FindAllDocuments.minus_words_loop s d0 minus acc =
        .ok (if minus.any (fun w => decide (w ∈ StdMap.keys m)) then StdMap.erase acc d0
          else acc) := by
  intro minus
  induction minus with
  | nil => intro acc; simp [FindAllDocuments.minus_words_loop]
  | cons w rest ih =>
    intro acc
    rw [FindAllDocuments.minus_words_loop, hm]
    simp only
    by_cases hc : StdMap.count m w = 0
    · rw [if_pos hc, ih acc]
      have : w ∉ StdMap.keys m := (StdMap.count_eq_zero_iff _ _).1 hc
      simp [this]
    · rw [if_neg hc, ih]
      have : w ∈ StdMap.keys m := by
        by_contra hno
        exact hc ((StdMap.count_eq_zero_iff _ _).2 hno)
      simp [this, StdMap.erase_erase]

theorem GetWordFrequencies_eq (s : Server R) (d : Int) :
    GetWordFrequencies s d = (StdMap.find s.word_frequencies_ d).getD [] := by
  unfold GetWordFrequencies
  split
  · rfl
  · rename_i hc
    have : StdMap.find s.word_frequencies_ d = none := by
      rw [StdMap.find_eq_none_iff, ← StdMap.count_eq_zero_iff]
      simpa using hc
    rw [this]
    rfl

theorem FindAllDocuments.minus_loop_ok (s : Server R) (minus : List Word) :
    ∀ (ids : List Int) (acc : List (Int × R)), StdMap.WF acc →
      (∀ d, d ∈ ids → d ∈ StdMap.keys s.word_frequencies_) →
      ∃ acc', FindAllDocuments.minus_loop s minus ids acc = .ok acc' ∧ StdMap.WF acc' ∧
        ∀ d, StdMap.find acc' d =
          if d ∈ ids ∧ minus.any (fun w => contains_word s d w) = true then none
          else StdMap.find acc d := by
  intro ids
  induction ids with
  | nil =>
    intro acc hacc _
    exact ⟨acc, rfl, hacc, fun d => by simp⟩
  | cons d0 rest ih =>
    intro acc hacc hids
    have hd0 : d0 ∈ StdMap.keys s.word_frequencies_ := hids d0 (List.mem_cons_self _ _)
    cases hm : StdMap.find s.word_frequencies_ d0 with
    | none => exact absurd ((StdMap.find_eq_none_iff _ _).1 hm) (not_not.2 hd0)
    | some m =>
      rw [FindAllDocuments.minus_loop, FindAllDocuments.minus_words_loop_ok s d0 m hm]
      simp only
      have hcw : ∀ w, contains_word s d0 w = decide (w ∈ StdMap.keys m) := by
        intro w
        simp [contains_word, GetWordFrequencies_eq, hm]
      by_cases hany : minus.any (fun w => decide (w ∈ StdMap.keys m)) = true
      · rw [if_pos hany]
        obtain ⟨acc', h1, h2, h3⟩ := ih (StdMap.erase acc d0) (hacc.erase _)
          (fun d hd => hids d (List.mem_cons_of_mem _ hd))
        refine ⟨acc', h1, h2, ?_⟩
        intro d
        rw [h3 d, StdMap.find_erase]
        by_cases hd : d = d0
        · subst hd
          simp only [hcw, hany, List.mem_cons, true_or, and_true, if_true]
          split <;> rfl
        · simp only [hd, List.mem_cons, false_or, if_false]
      · rw [if_neg hany]
        obtain ⟨acc', h1, h2, h3⟩ := ih acc hacc
          (fun d hd => hids d (List.mem_cons_of_mem _ hd))
        refine ⟨acc', h1, h2, ?_⟩
        intro d
        rw [h3 d]
        by_cases hd : d = d0
        · subst hd
          simp only [hcw, hany, and_false, if_false]
          simp
        · simp only [hd, List.mem_cons, false_or]

theorem FindAllDocuments.collect_ok (s : Server R) :
    ∀ (acc : List (Int × R)), (∀ d, d ∈ StdMap.keys acc → d ∈ StdMap.keys s.documents_) →
      FindAllDocuments.collect s acc =
        .ok (acc.map (fun e => { id := e.1, relevance := e.2, rating := rating_of s e.1 })) := by
  intro acc
  induction acc with
  | nil => intro _; rfl
  | cons x rest ih =>
    intro hdocs
    obtain ⟨d0, r0⟩ := x
    have hd0 : d0 ∈ StdMap.keys s.documents_ := hdocs d0 (by simp [StdMap.keys])
    rw [FindAllDocuments.collect]
    cases hf : StdMap.find s.documents_ d0 with
    | none => exact absurd ((StdMap.find_eq_none_iff _ _).1 hf) (not_not.2 hd0)
    | some data =>
      simp only
      rw [ih (fun d hd => hdocs d (by
        simp only [StdMap.keys, List.map_cons, List.mem_cons]; exact Or.inr hd))]
      simp [rating_of, hf]

theorem FindAllDocuments_ok (ln : R → R) {s : Server R} (h : Inv s) (query : Query)
    (p : DocumentPredicate) :
    ∃ final : List (Int × R),
      FindAllDocuments ln s query p =
        .ok (final.map (fun e => { id := e.1, relevance := e.2, rating := rating_of s e.1 })) ∧
      StdMap.WF final ∧
      ∀ d, StdMap.find final d =
        if d ∈ s.document_ids_ ∧ query.minus_words.any (fun w => contains_word s d w) = true
        then none
        else accumulated ln s p d query.plus_words none := by
  obtain ⟨scored, h1, h2, h3⟩ :=
    FindAllDocuments.plus_loop_ok ln h p query.plus_words [] StdMap.WF_nil
  obtain ⟨final, g1, g2, g3⟩ :=
    FindAllDocuments.minus_loop_ok s query.minus_words s.document_ids_ scored h2
      (fun d hd => (h.forward_keys d).2 hd)
  have hfinal : ∀ d, StdMap.find final d =
      if d ∈ s.document_ids_ ∧ query.minus_words.any (fun w => contains_word s d w) = true
      then none
      else accumulated ln s p d query.plus_words none := by
    intro d
    rw [g3 d, h3 d]
    rfl
  have hkeys : ∀ d, d ∈ StdMap.keys final → d ∈ StdMap.keys scored := by
    intro d hd
    rw [← StdMap.find_isSome_iff] at hd ⊢
    rw [g3 d] at hd
    split at hd
    · simp at hd
    · exact hd
  refine ⟨final, ?_, g2, hfinal⟩
  unfold FindAllDocuments
  rw [h1]
  simp only
  rw [g1]
  simp only
  apply FindAllDocuments.collect_ok
  intro d hd
  have hs := hkeys d hd
  rw [← StdMap.find_isSome_iff, h3 d] at hs
  -- an entry exists only if some plus word contributed, hence the document is accepted
  have key : ∀ (words : List Word) (start : Option R),
      (accumulated ln s p d words start).isSome = true →
        start.isSome = true ∨ accepts s p d = true := by
    intro words
    induction words with
    | nil => intro start hst; exact Or.inl hst
    | cons w rest ih =>
      intro start hst
      unfold accumulated at hst ih
      rw [List.foldl_cons] at hst
      cases hc : contribution ln s p w d with
      | none =>
        rw [hc] at hst
        exact ih start hst
      | some x =>
        right
        unfold contribution at hc
        by_contra hno
        rw [if_neg hno] at hc
        cases hc
  rcases key _ _ hs with hbad | hacc
  · simp [StdMap.find] at hbad
  · unfold accepts at hacc
    cases hf : StdMap.find s.documents_ d with
    | none => rw [hf] at hacc; cases hacc
    | some data => exact StdMap.mem_keys_of_mem (StdMap.mem_of_find hf)

theorem accumulated_isSome (ln : R → R) (s : Server R) (p : DocumentPredicate) (d : Int) :
    ∀ (words : List Word) (start : Option R),
      (accumulated ln s p d words start).isSome = true ↔
        start.isSome = true ∨ ∃ w ∈ words, (contribution ln s p w d).isSome = true := by
  intro words
  induction words with
  | nil => intro start; simp [accumulated]
  | cons w rest ih =>
    intro start
    have step : accumulated ln s p d (w :: rest) start =
        accumulated ln s p d rest
          (match contribution ln s p w d with
            | some x => some (start.getD 0 + x)
            | none => start) := rfl
    rw [step, ih]
    cases hc : contribution ln s p w d <;> simp [hc]

theorem forward_entry_isSome (s : Server R) (d : Int) (w : Word) :
    (forward_entry s d w).isSome = true ↔ contains_word s d w = true := by
  unfold forward_entry contains_word
  rw [GetWordFrequencies_eq, decide_eq_true_eq, ← StdMap.find_isSome_iff,
    StdMap.find_getD_nil]

theorem contains_word_live {s : Server R} (h : Inv s) {d : Int} {w : Word}
    (hc : contains_word s d w = true) : d ∈ s.document_ids_ := by
  apply (h.forward_keys d).1
  unfold contains_word at hc
  rw [GetWordFrequencies_eq, decide_eq_true_eq] at hc
  cases hf : StdMap.find s.word_frequencies_ d with
  | none => rw [hf] at hc; simp [StdMap.keys] at hc
  | some m => exact StdMap.mem_keys_of_mem (StdMap.mem_of_find hf)

theorem contribution_isSome {s : Server R} (h : Inv s) (ln : R → R) (p : DocumentPredicate)
    (w : Word) (d : Int) :
    (contribution ln s p w d).isSome = true ↔
      accepts s p d = true ∧ contains_word s d w = true := by
  unfold contribution
  by_cases ha : accepts s p d = true
  · rw [if_pos ha, Option.isSome_map', h.index.transpose w d, forward_entry_isSome]
    simp [ha]
  · rw [if_neg ha]
    simp [ha]

/-- The ids in the accumulator at the end of `FindAllDocuments` are exactly the
qualifying documents. -/
theorem mem_final_iff_qualifies (ln : R → R) {s : Server R} (h : Inv s) (query : Query)
    (p : DocumentPredicate) (final : List (Int × R))
    (hfinal : ∀ d, StdMap.find final d =
      if d ∈ s.document_ids_ ∧ query.minus_words.any (fun w => contains_word s d w) = true
      then none
      else accumulated ln s p d query.plus_words none) (d : Int) :
    d ∈ StdMap.keys final ↔ qualifies s query p d = true := by
  rw [← StdMap.find_isSome_iff, hfinal d]
  have hq : qualifies s query p d = true ↔
      ((d ∈ s.document_ids_ ∧ accepts s p d = true) ∧
        ∃ w ∈ query.plus_words, contains_word s d w = true) ∧
      ∀ w ∈ query.minus_words, contains_word s d w = false := by
    unfold qualifies live_ids
    simp only [Bool.and_eq_true, decide_eq_true_eq, List.any_eq_true, List.all_eq_true,
      Bool.not_eq_true']
  rw [hq]
  by_cases hex : d ∈ s.document_ids_ ∧
      query.minus_words.any (fun w => contains_word s d w) = true
  · rw [if_pos hex]
    obtain ⟨_, hany⟩ := hex
    obtain ⟨w, hw, hcw⟩ := List.any_eq_true.1 hany
    constructor
    · intro hbad
      simp at hbad
    · rintro ⟨_, hall⟩
      have := hall w hw
      rw [hcw] at this
      cases this
  · rw [if_neg hex, accumulated_isSome]
    simp only [Option.isSome_none, Bool.false_eq_true, false_or, contribution_isSome h]
    constructor
    · rintro ⟨w, hw, ha, hc⟩
      have hlive := contains_word_live h hc
      refine ⟨⟨⟨hlive, ha⟩, w, hw, hc⟩, ?_⟩
      intro w' hw'
      by_contra hno
      simp only [Bool.not_eq_false] at hno
      exact hex ⟨hlive, List.any_eq_true.2 ⟨w', hw', hno⟩⟩
    · rintro ⟨⟨⟨_, ha⟩, w, hw, hc⟩, _⟩
      exact ⟨w, hw, ha, hc⟩

theorem qualifies_stdUnique (s : Server R) (query : Query) (p : DocumentPredicate) (d : Int) :
    qualifies s
        { plus_words := stdUnique query.plus_words, minus_words := stdUnique query.minus_words }
        p d = qualifies s query p d := by
  unfold qualifies
  have e1 : (stdUnique query.plus_words).any (fun w => contains_word s d w) =
      query.plus_words.any (fun w => contains_word s d w) := by
    rw [Bool.eq_iff_iff]
    simp only [List.any_eq_true, mem_stdUnique]
  have e2 : (stdUnique query.minus_words).all (fun w => !contains_word s d w) =
      query.minus_words.all (fun w => !contains_word s d w) := by
    rw [Bool.eq_iff_iff]
    simp only [List.all_eq_true, mem_stdUnique]
  simp only [e1, e2]

/-- On a state that satisfies the invariant, `FindTopDocuments` returns for every query
that parses: the documents computed by `FindAllDocuments`, sorted and cut to five. -/
theorem FindTopDocuments_ok (ln : R → R) {s : Server R} (h : Inv s) (raw_query : List Char)
    (query : Query) (hq : ParseQuery s raw_query = .ok query) (p : DocumentPredicate) :
    ∃ all : List (Document R),
      FindAllDocuments ln s
        { plus_words := stdUnique query.plus_words, minus_words := stdUnique query.minus_words }
        p = .ok all ∧
      (all.map Document.id).Nodup ∧
      (∀ d, d ∈ all.map Document.id ↔ qualifies s query p d = true) ∧
      FindTopDocuments ln s raw_query p =
        .ok ((stdSort FindTopDocuments.comp all).take MAX_RESULT_DOCUMENT_COUNT) := by
  obtain ⟨final, h1, h2, h3⟩ := FindAllDocuments_ok ln h
    { plus_words := stdUnique query.plus_words, minus_words := stdUnique query.minus_words } p
  have hids : (final.map (fun e : Int × R =>
      ({ id := e.1, relevance := e.2, rating := rating_of s e.1 } : Document R))).map
      Document.id = StdMap.keys final := by
    rw [List.map_map]
    rfl
  refine ⟨_, h1, ?_, ?_, ?_⟩
  · rw [hids]
    exact h2.nodup
  · intro d
    rw [hids, mem_final_iff_qualifies ln h _ p final h3 d, qualifies_stdUnique]
  · unfold FindTopDocuments FindTopDocuments.query
    rw [hq]
    simp only
    rw [h1]
    simp only
    split
    · rfl
    · rename_i hlen
      rw [List.take_of_length_le (not_lt.1 hlen)]

theorem qualifies_iff (s : Server R) (query : Query) (p : DocumentPredicate) (d : Int) :
    qualifies s query p d = true ↔
      d ∈ live_ids s ∧ accepts s p d = true ∧
        (∃ w ∈ query.plus_words, contains_word s d w = true) ∧
        ∀ w ∈ query.minus_words, contains_word s d w = false := by
  unfold qualifies
  simp only [Bool.and_eq_true, decide_eq_true_eq, List.any_eq_true, List.all_eq_true,
    Bool.not_eq_true', and_assoc]

theorem example_server_reachable : Reachable example_server :=
  Reachable.add 1 _ _ _ (Reachable.add 0 _ _ _ (Reachable.init []))

theorem example_server_top :
    FindTopDocuments (fun x => x) example_server ['a'] (fun _ _ _ => true) =
      .ok [{ id := 0, relevance := 1, rating := 1 }, { id := 1, relevance := 1 / 2, rating := 2 }] := by
  have h : |(2 : ℚ)⁻¹ - 1| = 1 / 2 := by
    rw [abs_of_neg] <;> norm_num
  simp [FindTopDocuments, FindTopDocuments.query, ParseQuery, SplitIntoWords,
    SplitIntoWords.loop, ParseQuery.loop, ParseQueryWord, IsValidWord, IsStopWord,
    example_server, AddDocument, AddDocument.store_record, AddDocument.index_words,
    Server.empty, StdMap.count, StdMap.find, StdMap.emplace, StdMap.update,
    SplitIntoWordsNoStop, SplitIntoWordsNoStop.loop, AddDocument.index_word,
    StdMap.setInsert, stdSort, stdUnique, FindAllDocuments, FindAllDocuments.plus_loop,
    FindAllDocuments.add_word, FindAllDocuments.minus_loop, FindAllDocuments.minus_words_loop,
    FindAllDocuments.collect, ComputeWordInverseDocumentFreq, GetDocumentCount, StdMap.size,
    ComputeAverageRating, wrap32, FindTopDocuments.comp, MAX_DIFFERENCE,
    MAX_RESULT_DOCUMENT_COUNT, h]
  norm_num

/-! ## The forward entry written by `AddDocument` -/

theorem forward_entry_foldl_index_word (id : Int) (x : R) :
    ∀ (words : List Word) (s : Server R), IndexInv s → ∀ t : Word,
      forward_entry (words.foldl (AddDocument.index_word id x) s) id t =
        if t ∈ words then some ((forward_entry s id t).getD 0 + (words.count t : R) * x)
        else forward_entry s id t := by
  intro words
  induction words with
  | nil => intro s _ t; simp
  | cons w rest ih =>
    intro s h t
    rw [List.foldl_cons, ih _ (h.index_word id x w) t, forward_entry_index_word s h]
    by_cases htw : t = w
    · subst htw
      simp only [true_and, if_true, List.mem_cons, true_or, List.count_cons_self,
        Option.getD_some, Nat.cast_add, Nat.cast_one]
      by_cases hr : t ∈ rest
      · simp only [hr, if_true, Option.some.injEq]
        ring
      · simp only [hr, if_false, List.count_eq_zero_of_not_mem hr, Nat.cast_zero, zero_add,
          one_mul]
    · have hwt : ¬ w = t := fun e => htw e.symm
      simp only [htw, and_false, if_false, List.mem_cons, false_or]
      rw [List.count_cons_of_ne htw]

/-- The sum of the frequencies stored for document `id`. -/
theorem sum_index_word (s : Server R) (h : IndexInv s) (id : Int) (x : R) (word : Word) :
    ((GetWordFrequencies (AddDocument.index_word id x s word) id).map Prod.snd).sum =
      ((GetWordFrequencies s id).map Prod.snd).sum + x := by
  rw [GetWordFrequencies_eq, GetWordFrequencies_eq]
  simp only [AddDocument.index_word]
  rw [StdMap.find_update_self h.forward_wf, Option.getD_some, StdMap.sum_update]

theorem sum_foldl_index_word (id : Int) (x : R) :
    ∀ (words : List Word) (s : Server R), IndexInv s →
      ((GetWordFrequencies (words.foldl (AddDocument.index_word id x) s) id).map Prod.snd).sum =
        ((GetWordFrequencies s id).map Prod.snd).sum + (words.length : R) * x := by
  intro words
  induction words with
  | nil => intro s _; simp
  | cons w rest ih =>
    intro s h
    rw [List.foldl_cons, ih _ (h.index_word id x w), sum_index_word s h]
    simp only [List.length_cons, Nat.cast_add, Nat.cast_one]
    ring

theorem GetWordFrequencies_congr {s1 s2 : Server R}
    (h : s1.word_frequencies_ = s2.word_frequencies_) (d : Int) :
    GetWordFrequencies s1 d = GetWordFrequencies s2 d := by
  rw [GetWordFrequencies_eq, GetWordFrequencies_eq, h]

theorem find_GetWordFrequencies (s : Server R) (d : Int) (t : Word) :
    StdMap.find (GetWordFrequencies s d) t = forward_entry s d t := by
  rw [GetWordFrequencies_eq, StdMap.find_getD_nil]
  rfl

/-- What `AddDocument` has stored for a document that it accepted. -/
theorem GetWordFrequencies_index_words {s : Server R} (h : Inv s) (id : Int)
    (words : List Word) (hid : id ∉ s.document_ids_) :
    StdMap.WF (GetWordFrequencies (AddDocument.index_words s id words) id) ∧
    (∀ t : Word, StdMap.find (GetWordFrequencies (AddDocument.index_words s id words) id) t =
      if t ∈ words then some ((words.count t : R) / (words.length : R)) else none) ∧
    ((GetWordFrequencies (AddDocument.index_words s id words) id).map Prod.snd).sum =
      if words = [] then 0 else 1 := by
  have hfw : id ∉ StdMap.keys s.word_frequencies_ := fun hm => hid ((h.forward_keys id).1 hm)
  have hnone : StdMap.find s.word_frequencies_ id = none := (StdMap.find_eq_none_iff _ _).2 hfw
  have hentry : ∀ t, forward_entry s id t = none := by
    intro t
    simp [forward_entry, hnone]
  have hget : GetWordFrequencies s id = [] := by
    rw [GetWordFrequencies_eq, hnone]
    rfl
  by_cases hw : words = []
  · subst hw
    have : GetWordFrequencies (AddDocument.index_words s id []) id = [] := by
      rw [GetWordFrequencies_eq]
      simp only [AddDocument.index_words, ne_eq, not_true_eq_false, if_false]
      rw [StdMap.find_update_self h.index.forward_wf]
      rfl
    rw [this]
    simp [StdMap.WF_nil, StdMap.find]
  · have hcongr : GetWordFrequencies (AddDocument.index_words s id words) id =
        GetWordFrequencies
          (words.foldl (AddDocument.index_word id (1 / (words.length : R))) s) id := by
      apply GetWordFrequencies_congr
      simp only [AddDocument.index_words, ne_eq, hw, not_false_eq_true, if_true]
    rw [hcongr]
    simp only [hw, if_false]
    obtain ⟨h1, _⟩ := foldl_index_word id (1 / (words.length : R)) words s h.index
    have hlen : (words.length : R) ≠ 0 := by
      have : words.length ≠ 0 := fun e => hw (List.length_eq_zero.1 e)
      exact_mod_cast this
    refine ⟨?_, ?_, ?_⟩
    · rw [GetWordFrequencies_eq]
      exact StdMap.WF_getD _ (h1.forward_inner_wf id)
    · intro t
      rw [find_GetWordFrequencies, forward_entry_foldl_index_word id _ words s h.index t,
        hentry t]
      by_cases ht : t ∈ words
      · simp only [ht, if_true, Option.getD_none, zero_add, Option.some.injEq]
        field_simp
      · simp only [ht, if_false]
    · rw [sum_foldl_index_word id _ words s h.index, hget]
      simp only [List.map_nil, List.sum_nil, zero_add]
      field_simp

/-! ## Outcome of `AddDocument` -/

theorem AddDocument_ok_iff (s : Server R) (document_id : Int) (document : List Char)
    (status : DocumentStatus) (ratings : List Int) :
    (AddDocument s document_id document status ratings).1 = .ok () ↔
      ¬ document_id < 0 ∧ document_id ∉ StdMap.keys s.documents_ ∧
        (SplitIntoWords document).all IsValidWord = true := by
  rw [AddDocument_eq]
  by_cases h1 : document_id < 0 ∨ document_id ∈ StdMap.keys s.documents_
  · rw [if_pos h1]
    constructor
    · intro h; cases h
    · rintro ⟨ha, hb, _⟩
      rcases h1 with h1 | h1
      · exact absurd h1 ha
      · exact absurd h1 hb
  · rw [if_neg h1]
    push_neg at h1
    by_cases h2 : (SplitIntoWords document).all IsValidWord = true
    · rw [if_pos h2]
      simp [h1.1, h1.2, h2]
    · rw [if_neg h2]
      constructor
      · intro h; cases h
      · rintro ⟨_, _, hc⟩
        exact absurd hc h2

theorem AddDocument_ok_state (s : Server R) (document_id : Int) (document : List Char)
    (status : DocumentStatus) (ratings : List Int)
    (h : (AddDocument s document_id document status ratings).1 = .ok ()) :
    (AddDocument s document_id document status ratings).2 =
      AddDocument.index_words
        (AddDocument.store_record s document_id document status ratings) document_id
        ((SplitIntoWords document).filter (fun w => !IsStopWord s w)) := by
  obtain ⟨h1, h2, h3⟩ := (AddDocument_ok_iff s document_id document status ratings).1 h
  have h12 : ¬ (document_id < 0 ∨ document_id ∈ StdMap.keys s.documents_) := by
    rintro (h | h)
    · exact h1 h
    · exact h2 h
  rw [AddDocument_eq, if_neg h12, if_pos h3]

/-- `AddDocument` throws exactly when the id is negative, or a record with this id is
stored, or a token of the text has a control character; the exception is
`invalid_argument`. -/
theorem AddDocument_error_iff (s : Server R) (document_id : Int) (document : List Char)
    (status : DocumentStatus) (ratings : List Int) (e : Exn) :
    (AddDocument s document_id document status ratings).1 = .error e ↔
      e = Exn.invalid_argument ∧
        (document_id < 0 ∨ document_id ∈ StdMap.keys s.documents_ ∨
          ∃ t ∈ SplitIntoWords document, ∃ c ∈ t, c.toNat < 32) := by
  have hvalid : (SplitIntoWords document).all IsValidWord = true ↔
      ¬ ∃ t ∈ SplitIntoWords document, ∃ c ∈ t, c.toNat < 32 := by
    simp [IsValidWord]
  rw [AddDocument_eq]
  by_cases h1 : document_id < 0 ∨ document_id ∈ StdMap.keys s.documents_
  · rw [if_pos h1]
    constructor
    · intro h
      cases h
      exact ⟨rfl, by tauto⟩
    · rintro ⟨he, _⟩
      rw [he]
  · rw [if_neg h1]
    by_cases h2 : (SplitIntoWords document).all IsValidWord = true
    · rw [if_pos h2]
      constructor
      · intro h; cases h
      · rintro ⟨_, hc⟩
        exfalso
        rcases hc with hc | hc | hc
        · exact h1 (Or.inl hc)
        · exact h1 (Or.inr hc)
        · exact hvalid.1 h2 hc
    · rw [if_neg h2]
      have hbad : ∃ t ∈ SplitIntoWords document, ∃ c ∈ t, c.toNat < 32 := by
        by_contra hno
        exact h2 (hvalid.2 hno)
      constructor
      · intro h
        cases h
        exact ⟨rfl, Or.inr (Or.inr hbad)⟩
      · rintro ⟨he, _⟩
        rw [he]

/-- A call of `AddDocument` that throws because of the id leaves the server as it
was. -/
theorem AddDocument_refused_id (s : Server R) (document_id : Int) (document : List Char)
    (status : DocumentStatus) (ratings : List Int)
    (h : document_id < 0 ∨ document_id ∈ StdMap.keys s.documents_) :
    AddDocument s document_id document status ratings = (.error Exn.invalid_argument, s) := by
  rw [AddDocument_eq, if_pos h]

/-- On a state that satisfies the invariant, every document returned by
`FindTopDocuments` is live. -/
theorem FindTopDocuments_live (ln : R → R) {s : Server R} (h : Inv s) (raw_query : List Char)
    (p : DocumentPredicate) (docs : List (Document R))
    (hdocs : FindTopDocuments ln s raw_query p = .ok docs) :
    ∀ x ∈ docs, x.id ∈ live_ids s := by
  cases hq : ParseQuery s raw_query with
  | error e =>
    have : FindTopDocuments ln s raw_query p = .error e := by
      simp [FindTopDocuments, FindTopDocuments.query, hq]
    rw [this] at hdocs
    cases hdocs
  | ok query =>
    obtain ⟨all, _, _, h3, h4⟩ := FindTopDocuments_ok ln h raw_query query hq p
    rw [h4] at hdocs
    cases hdocs
    intro x hx
    have hall : x ∈ all := (mem_stdSort _ _ _).1 (List.mem_of_mem_take hx)
    have hid : x.id ∈ all.map Document.id := List.mem_map.2 ⟨x, hall, rfl⟩
    exact ((qualifies_iff s query p x.id).1 ((h3 x.id).1 hid)).1

/-- When the destroyed text still shows its characters: on every reachable store and for
every live id, `RemoveDocument(id)` returns, and afterwards `GetWordFrequencies(id)` is the
empty mapping, `GetDocumentCount()` is exactly one less than before, `id` is no longer a
live id, no bucket of the inverted index contains `id`, and `FindTopDocuments` does not
return `id`. -/
theorem remove_document_erases_everything {s : Server R} (hs : Reachable s)
    (document_id : Int) (hlive : document_id ∈ live_ids s) :
    (RemoveDocument s document_id).1 = .ok () ∧
    GetWordFrequencies (RemoveDocument s document_id).2 document_id = [] ∧
    GetDocumentCount (RemoveDocument s document_id).2 + 1 = GetDocumentCount s ∧
    document_id ∉ live_ids (RemoveDocument s document_id).2 ∧
    (∀ entry ∈ (RemoveDocument s document_id).2.word_to_document_freqs_,
      document_id ∉ StdMap.keys entry.2) ∧
    (∀ (ln : R → R) (raw_query : List Char) (p : DocumentPredicate)
      (docs : List (Document R)),
      FindTopDocuments ln (RemoveDocument s document_id).2 raw_query p = .ok docs →
        ∀ x ∈ docs, x.id ≠ document_id) := by
  have hinv := hs.inv
  have hinv' : Inv (RemoveDocument s document_id).2 := hinv.remove document_id
  have hlive' : document_id ∈ s.document_ids_ := hlive
  have hnotlive : document_id ∉ live_ids (RemoveDocument s document_id).2 := by
    rw [RemoveDocument_eq hinv, if_pos hlive']
    simp [live_ids, StdMap.mem_setErase]
  have hforward : StdMap.find (RemoveDocument s document_id).2.word_frequencies_ document_id =
      none := by
    rw [StdMap.find_eq_none_iff]
    intro hm
    exact hnotlive ((hinv'.forward_keys document_id).1 hm)
  refine ⟨?_, ?_, ?_, hnotlive, ?_, ?_⟩
  · rw [RemoveDocument_eq hinv, if_pos hlive']
  · rw [GetWordFrequencies_eq, hforward]
    rfl
  · rw [RemoveDocument_eq hinv, if_pos hlive']
    exact StdMap.length_erase hinv.index.documents_wf (hinv.ids_documents _ hlive')
  · intro entry hentry
    have hfind : StdMap.find (RemoveDocument s document_id).2.word_to_document_freqs_ entry.1 =
        some entry.2 := StdMap.find_of_mem hinv'.index.inverted_wf hentry
    have ht := hinv'.index.transpose entry.1 document_id
    unfold inverted_entry forward_entry at ht
    rw [hfind, hforward] at ht
    exact (StdMap.find_eq_none_iff _ _).1 ht
  · intro ln raw_query p docs hdocs x hx hid
    exact hnotlive (hid ▸ FindTopDocuments_live ln hinv' raw_query p docs hdocs x hx)

theorem server_with_failed_add_reachable : Reachable (server_with_failed_add R) :=
  Reachable.add 0 _ _ _ (Reachable.add 1 _ _ _ (Reachable.init []))

/-! ## The relevance computed by `FindAllDocuments` -/

theorem foldl_contributions {α : Type} (c : α → Option R) :
    ∀ (words : List α) (start : Option R),
      words.foldl
          (fun entry w =>
            match c w with
            | some x => some (entry.getD 0 + x)
            | none => entry)
          start =
        if words.any (fun w => (c w).isSome) = true then
          some (start.getD 0 + (words.map (fun w => (c w).getD 0)).sum)
        else start := by
  intro words
  induction words with
  | nil => intro start; simp
  | cons w rest ih =>
    intro start
    rw [List.foldl_cons, ih]
    cases hc : c w with
    | none => simp [hc]
    | some x =>
      by_cases hany : rest.any (fun w => (c w).isSome) = true
      · simp only [hany, if_true, List.any_cons, hc, Option.isSome_some, Bool.true_or,
          Option.getD_some, List.map_cons, List.sum_cons, Option.some.injEq]
        ring
      · have hzero : (rest.map (fun w => (c w).getD 0)).sum = 0 := by
          apply List.sum_eq_zero
          intro y hy
          obtain ⟨w', hw', rfl⟩ := List.mem_map.1 hy
          cases hc' : c w' with
          | none => rfl
          | some z =>
            exfalso
            apply hany
            exact List.any_eq_true.2 ⟨w', hw', by simp [hc']⟩
        simp only [hany, Bool.false_eq_true, if_false, List.any_cons, hc, Option.isSome_some,
          Bool.true_or, if_true, Option.getD_some, List.map_cons, List.sum_cons, hzero,
          add_zero]

theorem accumulated_eq (ln : R → R) (s : Server R) (p : DocumentPredicate) (d : Int)
    (words : List Word) (start : Option R) :
    accumulated ln s p d words start =
      if words.any (fun w => (contribution ln s p w d).isSome) = true then
        some (start.getD 0 + (words.map (fun w => (contribution ln s p w d).getD 0)).sum)
      else start :=
  foldl_contributions (fun w => contribution ln s p w d) words start

/-- The size of a bucket of the inverted index is the number of live documents that
contain the word. -/
theorem bucket_size_eq_document_frequency {s : Server R} (h : Inv s) {w : Word}
    {bucket : List (Int × R)} (hb : StdMap.find s.word_to_document_freqs_ w = some bucket) :
    StdMap.size bucket = document_frequency s w := by
  unfold StdMap.size document_frequency
  have hnd : ((live_ids s).filter (fun d => contains_word s d w)).Nodup :=
    List.Nodup.filter _ h.ids_sorted.nodup
  have hperm : (StdMap.keys bucket).Perm ((live_ids s).filter (fun d => contains_word s d w)) := by
    rw [List.perm_ext_iff_of_nodup (h.index.bucket_wf w bucket hb).nodup hnd]
    intro d
    rw [List.mem_filter, ← StdMap.find_isSome_iff]
    have ht := h.index.transpose w d
    unfold inverted_entry at ht
    rw [hb, Option.some_bind] at ht
    rw [ht, forward_entry_isSome]
    constructor
    · intro hc
      exact ⟨contains_word_live h hc, hc⟩
    · exact fun hc => hc.2
  rw [← hperm.length_eq]
  simp [StdMap.keys]

theorem contribution_getD {s : Server R} (h : Inv s) (ln : R → R) (p : DocumentPredicate)
    (w : Word) (d : Int) (ha : accepts s p d = true) :
    (contribution ln s p w d).getD 0 =
      if contains_word s d w = true then
        term_frequency s d w *
          ln ((GetDocumentCount s : R) * 1 / (document_frequency s w : R))
      else 0 := by
  unfold contribution
  rw [if_pos ha, h.index.transpose w d]
  by_cases hc : contains_word s d w = true
  · rw [if_pos hc]
    have hsome := (forward_entry_isSome s d w).2 hc
    obtain ⟨f, hf⟩ := Option.isSome_iff_exists.1 hsome
    have hinv : inverted_entry s w d = some f := by rw [h.index.transpose w d, hf]
    unfold inverted_entry at hinv
    cases hb : StdMap.find s.word_to_document_freqs_ w with
    | none => rw [hb] at hinv; cases hinv
    | some bucket =>
      have hidf : idf ln s w =
          ln ((GetDocumentCount s : R) * 1 / (document_frequency s w : R)) := by
        simp only [idf, ComputeWordInverseDocumentFreq, hb]
        rw [bucket_size_eq_document_frequency h hb]
      have htf : term_frequency s d w = f := by
        unfold term_frequency
        rw [find_GetWordFrequencies, hf]
        rfl
      rw [hf, hidf, htf]
      rfl
  · rw [if_neg hc]
    have hnone : forward_entry s d w = none := by
      cases hf : forward_entry s d w with
      | none => rfl
      | some f =>
        exfalso
        apply hc
        rw [← forward_entry_isSome, hf]
        rfl
    rw [hnone]
    rfl

theorem sum_map_ite_eq_sum_filter {α : Type} (c : α → Bool) (g : α → R) :
    ∀ l : List α, (l.map (fun a => if c a = true then g a else 0)).sum =
      ((l.filter c).map g).sum := by
  intro l
  induction l with
  | nil => rfl
  | cons a rest ih =>
    by_cases hc : c a = true
    · simp [hc, ih]
    · simp [hc, ih]

/-- The relevance reported by `FindTopDocuments` on a state that satisfies the invariant:
the sum over the inclusion terms `w` handed to `FindAllDocuments` (each term once) that
occur in the document of `tf(w, d) * ln(GetDocumentCount() / df(w))`, `df(w)` being the
number of live documents that contain `w`; the rating is the stored one. -/
theorem FindTopDocuments_relevance (ln : R → R) {s : Server R} (h : Inv s)
    (raw_query : List Char) (query : Query) (hq : ParseQuery s raw_query = .ok query)
    (p : DocumentPredicate) (docs : List (Document R))
    (hdocs : FindTopDocuments ln s raw_query p = .ok docs) :
    ∀ x ∈ docs,
      x.relevance =
        (((stdUnique query.plus_words).filter (fun w => contains_word s x.id w)).map
          (fun w => term_frequency s x.id w *
            ln ((GetDocumentCount s : R) * 1 / (document_frequency s w : R)))).sum ∧
      x.rating = rating_of s x.id := by
  obtain ⟨final, h1, h2, h3⟩ := FindAllDocuments_ok ln h
    { plus_words := stdUnique query.plus_words, minus_words := stdUnique query.minus_words } p
  have htop : FindTopDocuments ln s raw_query p =
      .ok ((stdSort FindTopDocuments.comp (final.map (fun e : Int × R =>
        ({ id := e.1, relevance := e.2, rating := rating_of s e.1 } : Document R)))).take
        MAX_RESULT_DOCUMENT_COUNT) := by
    unfold FindTopDocuments FindTopDocuments.query
    rw [hq]
    simp only
    rw [h1]
    simp only
    split
    · rfl
    · rename_i hlen
      rw [List.take_of_length_le (not_lt.1 hlen)]
  rw [htop] at hdocs
  cases hdocs
  intro x hx
  have hall := (mem_stdSort _ _ _).1 (List.mem_of_mem_take hx)
  obtain ⟨e, he, rfl⟩ := List.mem_map.1 hall
  refine ⟨?_, rfl⟩
  simp only
  have hfind : StdMap.find final e.1 = some e.2 := StdMap.find_of_mem h2 he
  have hqual : qualifies s
      { plus_words := stdUnique query.plus_words, minus_words := stdUnique query.minus_words }
      p e.1 = true :=
    (mem_final_iff_qualifies ln h _ p final h3 e.1).1 (StdMap.mem_keys_of_mem he)
  have hacc : accepts s p e.1 = true := ((qualifies_iff s _ p e.1).1 hqual).2.1
  rw [h3 e.1] at hfind
  split at hfind
  · cases hfind
  · rw [accumulated_eq] at hfind
    split at hfind
    · simp only [Option.getD_none, zero_add, Option.some.injEq] at hfind
      rw [← hfind]
      have : (fun w => (contribution ln s p w e.1).getD 0) =
          (fun w => if contains_word s e.1 w = true then
            term_frequency s e.1 w *
              ln ((GetDocumentCount s : R) * 1 / (document_frequency s w : R))
          else 0) := by
        funext w
        exact contribution_getD h ln p w e.1 hacc
      rw [this, sum_map_ite_eq_sum_filter]
    · cases hfind

/-- When an id has been accepted by `AddDocument` it is live. -/
theorem AddDocument_ok_live (s : Server R) (document_id : Int) (document : List Char)
    (status : DocumentStatus) (ratings : List Int)
    (h : (AddDocument s document_id document status ratings).1 = .ok ()) :
    document_id ∈ live_ids (AddDocument s document_id document status ratings).2 := by
  rw [AddDocument_ok_state s document_id document status ratings h]
  simp [live_ids, AddDocument.index_words, StdMap.mem_setInsert]

/-! ## The word lists of a parsed query are sorted -/

theorem stdSort_lt_eq {α : Type} [LinearOrder α] (l : List α) :
    stdSort (fun a b => decide (a < b)) l = l.insertionSort (fun a b => a ≤ b) := by
  unfold stdSort
  induction l with
  | nil => rfl
  | cons a rest ih =>
    rw [List.insertionSort, List.insertionSort, ih]
    generalize List.insertionSort (fun a b => a ≤ b) rest = sorted
    induction sorted with
    | nil => rfl
    | cons b tail ih2 =>
      rw [List.orderedInsert, List.orderedInsert, ih2]
      by_cases hab : a ≤ b
      · have : ¬ decide (b < a) = true := by simpa using hab
        rw [if_pos this, if_pos hab]
      · have : ¬ ¬ decide (b < a) = true := by simpa using hab
        rw [if_neg this, if_neg hab]

theorem sorted_stdSort_lt {α : Type} [LinearOrder α] (l : List α) :
    (stdSort (fun a b => decide (a < b)) l).Sorted (fun a b => a ≤ b) := by
  rw [stdSort_lt_eq]
  exact List.sorted_insertionSort _ l

theorem mem_stdUnique_head {α : Type} [DecidableEq α] (a : α) (l : List α) :
    ∀ x ∈ stdUnique (a :: l), x = a ∨ x ∈ l := by
  intro x hx
  rw [mem_stdUnique] at hx
  exact List.mem_cons.1 hx

theorem sorted_stdUnique {α : Type} [LinearOrder α] [DecidableEq α] :
    ∀ l : List α, l.Sorted (fun a b => a ≤ b) → (stdUnique l).Sorted (fun a b => a < b) := by
  intro l
  induction l using stdUnique.induct with
  | case1 => intro _; simp [stdUnique]
  | case2 a => intro _; simp [stdUnique]
  | case3 a rest ih =>
    intro h
    rw [stdUnique, if_pos rfl]
    exact ih (List.sorted_cons.1 h).2
  | case4 a b rest hab ih =>
    intro h
    rw [stdUnique, if_neg hab, List.sorted_cons]
    refine ⟨?_, ih (List.sorted_cons.1 h).2⟩
    intro x hx
    have hx' : x ∈ b :: rest := (mem_stdUnique x _).1 hx
    have hab' : a < b :=
      lt_of_le_of_ne ((List.sorted_cons.1 h).1 b (List.mem_cons_self _ _)) hab
    rcases List.mem_cons.1 hx' with e | e
    · exact e ▸ hab'
    · exact lt_of_lt_of_le hab'
        ((List.sorted_cons.1 (List.sorted_cons.1 h).2).1 x e)

/-- `ParseQuery` returns both word lists in ascending order. -/
theorem ParseQuery_sorted (s : Server R) (raw_query : List Char) (query : Query)
    (hq : ParseQuery s raw_query = .ok query) :
    query.plus_words.Sorted (fun a b => a ≤ b) ∧
      query.minus_words.Sorted (fun a b => a ≤ b) := by
  unfold ParseQuery at hq
  cases hl : ParseQuery.loop s (SplitIntoWords raw_query)
      { plus_words := [], minus_words := [] } with
  | error e => rw [hl] at hq; cases hq
  | ok result =>
    rw [hl] at hq
    cases hq
    exact ⟨sorted_stdSort_lt _, sorted_stdSort_lt _⟩

/-- The word lists that `FindTopDocuments` hands to `FindAllDocuments` hold every term of
the parsed query exactly once. -/
theorem FindTopDocuments_query_nodup (s : Server R) (raw_query : List Char) (query : Query)
    (hq : ParseQuery s raw_query = .ok query) :
    (stdUnique query.plus_words).Nodup ∧ (stdUnique query.minus_words).Nodup ∧
      (∀ w, w ∈ stdUnique query.plus_words ↔ w ∈ query.plus_words) ∧
      (∀ w, w ∈ stdUnique query.minus_words ↔ w ∈ query.minus_words) := by
  obtain ⟨h1, h2⟩ := ParseQuery_sorted s raw_query query hq
  exact ⟨(sorted_stdUnique _ h1).nodup, (sorted_stdUnique _ h2).nodup,
    fun w => mem_stdUnique w _, fun w => mem_stdUnique w _⟩

/-- The relevance formula of the specification, on the states in which `documents_`
holds no record besides those of the live documents. -/
theorem FindTopDocuments_relevance_live_count (ln : R → R) {s : Server R} (h : Inv s)
    (hcount : GetDocumentCount s = (live_ids s).length)
    (raw_query : List Char) (query : Query) (hq : ParseQuery s raw_query = .ok query)
    (p : DocumentPredicate) (docs : List (Document R))
    (hdocs : FindTopDocuments ln s raw_query p = .ok docs) :
    ∀ x ∈ docs,
      x.relevance =
        (((stdUnique query.plus_words).filter (fun w => contains_word s x.id w)).map
          (fun w => term_frequency s x.id w *
            ln (((live_ids s).length : R) * 1 / (document_frequency s w : R)))).sum := by
  intro x hx
  rw [← hcount]
  exact (FindTopDocuments_relevance ln h raw_query query hq p docs hdocs x hx).1

/-! ## The example of the specification -/

/-- The query `fluffy cat -fancy` on the example server returns document 1 only, with
relevance `tf(fluffy) * idf(fluffy) + tf(cat) * idf(cat) = 1/2 * ln(2/1) + 1/4 * ln(2/2)`
and rating 5, whatever the function `ln` is. -/
theorem spec_example_fluffy_cat (ln : ℚ → ℚ) :
    FindTopDocumentsActual ln (spec_example_server ℚ)
        ['f', 'l', 'u', 'f', 'f', 'y', ' ', 'c', 'a', 't', ' ', '-', 'f', 'a', 'n', 'c', 'y'] =
      .ok [{ id := 1, relevance := 1 / 4 * ln 1 + 1 / 2 * ln 2, rating := 5 }] := by
  simp [FindTopDocumentsActual, FindTopDocumentsStatus, FindTopDocuments,
    FindTopDocuments.query, ParseQuery, SplitIntoWords,
    SplitIntoWords.loop, ParseQuery.loop, ParseQueryWord, IsValidWord, IsStopWord,
    spec_example_server, AddDocument, AddDocument.store_record,
    AddDocument.index_words, Server.empty, StdMap.count, StdMap.find, StdMap.emplace,
    StdMap.update, SplitIntoWordsNoStop, SplitIntoWordsNoStop.loop, AddDocument.index_word,
    StdMap.setInsert, stdSort, stdUnique, FindAllDocuments, FindAllDocuments.plus_loop,
    FindAllDocuments.add_word, FindAllDocuments.minus_loop,
    FindAllDocuments.minus_words_loop, FindAllDocuments.collect,
    ComputeWordInverseDocumentFreq, GetDocumentCount, StdMap.size, ComputeAverageRating,
    wrap32, StdMap.erase, MAX_RESULT_DOCUMENT_COUNT]
  refine ⟨Or.inl (by norm_num), by decide⟩

/-! ## What `ParseQuery` returns -/

theorem ParseQueryWord_ok (s : Server R) (token : Word) (qw : QueryWord)
    (h : ParseQueryWord s token = .ok qw) :
    qw.is_minus = decide (token.head? = some '-') ∧
      qw.data = (if token.head? = some '-' then token.drop 1 else token) ∧
      qw.is_stop = IsStopWord s qw.data := by
  unfold ParseQueryWord at h
  by_cases h0 : token = []
  · rw [if_pos h0] at h
    cases h
  · rw [if_neg h0] at h
    simp only [decide_eq_true_eq] at h
    by_cases hbad : (if token.head? = some '-' then List.drop 1 token else token) = [] ∨
        (if token.head? = some '-' then List.drop 1 token else token).head? = some '-' ∨
        IsValidWord (if token.head? = some '-' then List.drop 1 token else token) = false
    · rw [if_pos hbad] at h
      cases h
    · rw [if_neg hbad] at h
      cases h
      exact ⟨rfl, rfl, rfl⟩

theorem ParseQuery.loop_step (s : Server R) (w : Word) (rest : List Word) (result : Query) :
    ParseQuery.loop s (w :: rest) result =
      match ParseQueryWord s w with
      | .error e => .error e
      | .ok _ =>
        ParseQuery.loop s rest
          { plus_words := result.plus_words ++
              [w].filter (fun t => !decide (t.head? = some '-') && !IsStopWord s t)
            minus_words := result.minus_words ++
              (([w].filter (fun t => decide (t.head? = some '-'))).map
                (fun t => t.drop 1)).filter (fun t => !IsStopWord s t) } := by
  rw [ParseQuery.loop]
  cases hq : ParseQueryWord s w with
  | error e => rfl
  | ok qw =>
    simp only
    obtain ⟨h1, h2, h3⟩ := ParseQueryWord_ok s w qw hq
    by_cases hm : w.head? = some '-'
    · rw [if_pos hm] at h2
      have hmin : qw.is_minus = true := by rw [h1]; exact decide_eq_true hm
      have hstop : qw.is_stop = IsStopWord s (w.drop 1) := by rw [h3, h2]
      have e1 : [w].filter (fun t => !decide (t.head? = some '-') && !IsStopWord s t) = [] := by
        rw [List.filter_cons_of_neg]
        · rfl
        · simp [hm]
      have e2 : [w].filter (fun t => decide (t.head? = some '-')) = [w] := by
        rw [List.filter_cons_of_pos]
        · rfl
        · exact decide_eq_true hm
      rw [e1, e2, hmin, hstop]
      by_cases hs : IsStopWord s (w.drop 1) = true
      · have e3 : ([w].map (fun t => t.drop 1)).filter (fun t => !IsStopWord s t) = [] := by
          rw [List.map_singleton, List.filter_cons_of_neg]
          · rfl
          · rw [hs]; simp
        rw [e3, hs]
        simp
      · simp only [Bool.not_eq_true] at hs
        have e3 : ([w].map (fun t => t.drop 1)).filter (fun t => !IsStopWord s t) =
            [w.drop 1] := by
          rw [List.map_singleton, List.filter_cons_of_pos]
          · rfl
          · rw [hs]; rfl
        rw [e3, hs, h2]
        simp
    · rw [if_neg hm] at h2
      have hmin : qw.is_minus = false := by rw [h1]; exact decide_eq_false hm
      have hstop : qw.is_stop = IsStopWord s w := by rw [h3, h2]
      have e2 : [w].filter (fun t => decide (t.head? = some '-')) = [] := by
        rw [List.filter_cons_of_neg]
        · rfl
        · simp [hm]
      rw [e2, hmin, hstop]
      by_cases hs : IsStopWord s w = true
      · have e1 : [w].filter (fun t => !decide (t.head? = some '-') && !IsStopWord s t) =
            [] := by
          rw [List.filter_cons_of_neg]
          · rfl
          · simp [hs]
        rw [e1, hs]
        simp
      · simp only [Bool.not_eq_true] at hs
        have e1 : [w].filter (fun t => !decide (t.head? = some '-') && !IsStopWord s t) =
            [w] := by
          rw [List.filter_cons_of_pos]
          · rfl
          · simp [hm, hs]
        rw [e1, hs, h2]
        simp

theorem ParseQuery.loop_ok (s : Server R) :
    ∀ (words : List Word) (result result' : Query),
      ParseQuery.loop s words result = .ok result' →
        result'.plus_words = result.plus_words ++
          words.filter (fun t => !decide (t.head? = some '-') && !IsStopWord s t) ∧
        result'.minus_words = result.minus_words ++
          ((words.filter (fun t => decide (t.head? = some '-'))).map (fun t => t.drop 1)).filter
            (fun t => !IsStopWord s t) := by
  intro words
  induction words with
  | nil =>
    intro result result' h
    simp only [ParseQuery.loop, Except.ok.injEq] at h
    subst h
    simp
  | cons w rest ih =>
    intro result result' h
    rw [ParseQuery.loop_step] at h
    cases hq : ParseQueryWord s w with
    | error e => rw [hq] at h; cases h
    | ok qw =>
      rw [hq] at h
      obtain ⟨g1, g2⟩ := ih _ _ h
      have c1 : (w :: rest).filter (fun t => !decide (t.head? = some '-') && !IsStopWord s t) =
          [w].filter (fun t => !decide (t.head? = some '-') && !IsStopWord s t) ++
            rest.filter (fun t => !decide (t.head? = some '-') && !IsStopWord s t) := by
        rw [← List.filter_append]
        rfl
      have c2 : (((w :: rest).filter (fun t => decide (t.head? = some '-'))).map
          (fun t => t.drop 1)).filter (fun t => !IsStopWord s t) =
          (([w].filter (fun t => decide (t.head? = some '-'))).map
            (fun t => t.drop 1)).filter (fun t => !IsStopWord s t) ++
          ((rest.filter (fun t => decide (t.head? = some '-'))).map
            (fun t => t.drop 1)).filter (fun t => !IsStopWord s t) := by
        rw [← List.filter_append, ← List.map_append, ← List.filter_append]
        rfl
      rw [c1, c2, g1, g2]
      simp only [List.append_assoc, and_self]

/-- The word lists of a parsed query: the sorted lists of the non-stop inclusion and
exclusion terms of the tokens. -/
theorem ParseQuery_ok (s : Server R) (raw_query : List Char) (query : Query)
    (hq : ParseQuery s raw_query = .ok query) :
    query.plus_words = stdSort (fun a b => decide (a < b))
        ((SplitIntoWords raw_query).filter
          (fun t => !decide (t.head? = some '-') && !IsStopWord s t)) ∧
      query.minus_words = stdSort (fun a b => decide (a < b))
        ((((SplitIntoWords raw_query).filter (fun t => decide (t.head? = some '-'))).map
          (fun t => t.drop 1)).filter (fun t => !IsStopWord s t)) := by
  unfold ParseQuery at hq
  cases hl : ParseQuery.loop s (SplitIntoWords raw_query)
      { plus_words := [], minus_words := [] } with
  | error e => rw [hl] at hq; cases hq
  | ok result =>
    rw [hl] at hq
    obtain ⟨g1, g2⟩ := ParseQuery.loop_ok s _ _ _ hl
    simp only [List.nil_append] at g1 g2
    cases hq
    simp only [g1, g2, and_self]

/-! ## `MatchDocument` -/

theorem MatchDocument.match_plus_loop_ok (s : Server R) (d : Int) (m : List (Word × R))
    (hm : StdMap.find s.word_frequencies_ d = some m) :
    ∀ (words matched : List Word),
      MatchDocument.plus_loop s d words matched =
        .ok (matched ++ words.filter (fun w => decide (w ∈ StdMap.keys m))) := by
  intro words
  induction words with
  | nil => intro matched; simp [MatchDocument.plus_loop]
  | cons w rest ih =>
    intro matched
    rw [MatchDocument.plus_loop, hm]
    simp only
    by_cases hc : StdMap.count m w = 0
    · have hw : w ∉ StdMap.keys m := (StdMap.count_eq_zero_iff _ _).1 hc
      rw [if_pos hc, ih, List.filter_cons_of_neg (by simpa using hw)]
    · have hw : w ∈ StdMap.keys m := by
        by_contra hno
        exact hc ((StdMap.count_eq_zero_iff _ _).2 hno)
      rw [if_neg hc, ih, List.filter_cons_of_pos (by simpa using hw)]
      simp

theorem MatchDocument.match_minus_loop_ok (s : Server R) (d : Int) (m : List (Word × R))
    (hm : StdMap.find s.word_frequencies_ d = some m) :
    ∀ (words matched : List Word),
      MatchDocument.minus_loop s d words matched =
        .ok (if words.any (fun w => decide (w ∈ StdMap.keys m)) = true then [] else matched) := by
  intro words
  induction words with
  | nil => intro matched; simp [MatchDocument.minus_loop]
  | cons w rest ih =>
    intro matched
    rw [MatchDocument.minus_loop, hm]
    simp only
    by_cases hc : StdMap.count m w = 0
    · have hw : w ∉ StdMap.keys m := (StdMap.count_eq_zero_iff _ _).1 hc
      rw [if_pos hc, ih]
      simp [hw]
    · have hw : w ∈ StdMap.keys m := by
        by_contra hno
        exact hc ((StdMap.count_eq_zero_iff _ _).2 hno)
      rw [if_neg hc, ih]
      simp [hw]

theorem contains_word_eq (s : Server R) (d : Int) (m : List (Word × R))
    (hm : StdMap.find s.word_frequencies_ d = some m) (w : Word) :
    contains_word s d w = decide (w ∈ StdMap.keys m) := by
  simp [contains_word, GetWordFrequencies_eq, hm]

/-- The result of the sequential `MatchDocument` for a document that has a forward entry
and a record: the inclusion terms of the parsed query that occur in the document, in the
order and with the multiplicity of the parsed query, or nothing when an exclusion term
occurs in the document. -/
theorem MatchDocument_eq (s : Server R) (raw_query : List Char) (query : Query)
    (hq : ParseQuery s raw_query = .ok query) (d : Int) (m : List (Word × R))
    (hm : StdMap.find s.word_frequencies_ d = some m) (data : DocumentData)
    (hd : StdMap.find s.documents_ d = some data) :
    MatchDocument s raw_query d =
      .ok (if query.minus_words.any (fun w => contains_word s d w) = true then []
        else query.plus_words.filter (fun w => contains_word s d w), data.status) := by
  unfold MatchDocument
  rw [hq]
  simp only
  rw [MatchDocument.match_plus_loop_ok s d m hm]
  simp only [List.nil_append]
  rw [MatchDocument.match_minus_loop_ok s d m hm]
  simp only [hd]
  have : (fun w => contains_word s d w) = (fun w => decide (w ∈ StdMap.keys m)) := by
    funext w
    exact contains_word_eq s d m hm w
  rw [this]

/-- The result of the parallel `MatchDocument` for a document that has a forward entry and
a record: the same terms, sorted and without repetition. -/
theorem MatchDocumentPar_eq (s : Server R) (raw_query : List Char) (query : Query)
    (hq : ParseQuery s raw_query = .ok query) (d : Int) (m : List (Word × R))
    (hm : StdMap.find s.word_frequencies_ d = some m) (data : DocumentData)
    (hd : StdMap.find s.documents_ d = some data) :
    MatchDocumentPar s raw_query d =
      .ok (if query.minus_words.any (fun w => contains_word s d w) = true then []
        else stdUnique (stdSort (fun a b => decide (a < b))
          (query.plus_words.filter (fun w => contains_word s d w))), data.status) := by
  have hcw : (fun w => contains_word s d w) = (fun w => decide (w ∈ StdMap.keys m)) := by
    funext w
    exact contains_word_eq s d m hm w
  have hcount : (fun view => decide (StdMap.count m view ≠ 0)) =
      (fun w => decide (w ∈ StdMap.keys m)) := by
    funext w
    by_cases hw : w ∈ StdMap.keys m
    · have : StdMap.count m w ≠ 0 := fun e => (StdMap.count_eq_zero_iff _ _).1 e hw
      simp [hw, this]
    · have : StdMap.count m w = 0 := (StdMap.count_eq_zero_iff _ _).2 hw
      simp [hw, this]
  unfold MatchDocumentPar
  rw [hq]
  simp only [hm, hd, hcount, hcw]
  by_cases hany : query.minus_words.any (fun w => decide (w ∈ StdMap.keys m)) = true
  · simp only [hany, if_true]
  · simp only [hany, Bool.false_eq_true, if_false]
    by_cases hp : query.plus_words = []
    · simp [hp, stdSort, stdUnique]
    · simp only [hp, if_false]

/-- For an id without forward entry the parallel `MatchDocument` throws `out_of_range`,
whatever the query that parses; the sequential one does so as soon as the parsed query has
a term or there is no record either. -/
theorem MatchDocument_not_live (s : Server R) (raw_query : List Char) (query : Query)
    (hq : ParseQuery s raw_query = .ok query) (d : Int)
    (hm : StdMap.find s.word_frequencies_ d = none) :
    MatchDocumentPar s raw_query d = .error Exn.out_of_range ∧
      ((query.plus_words ≠ [] ∨ query.minus_words ≠ [] ∨ StdMap.find s.documents_ d = none) →
        MatchDocument s raw_query d = .error Exn.out_of_range) := by
  constructor
  · unfold MatchDocumentPar
    rw [hq]
    simp only [hm]
  · intro h
    unfold MatchDocument
    rw [hq]
    simp only
    cases hp : query.plus_words with
    | cons w rest => simp [MatchDocument.plus_loop, hm]
    | nil =>
      simp only [MatchDocument.plus_loop]
      cases hmin : query.minus_words with
      | cons w rest => simp [MatchDocument.minus_loop, hm]
      | nil =>
        simp only [MatchDocument.minus_loop]
        rcases h with h | h | h
        · exact absurd hp h
        · exact absurd hmin h
        · rw [h]

theorem live_entries {s : Server R} (h : Inv s) {d : Int} (hd : d ∈ live_ids s) :
    (∃ m, StdMap.find s.word_frequencies_ d = some m) ∧
      ∃ data, StdMap.find s.documents_ d = some data := by
  constructor
  · cases hf : StdMap.find s.word_frequencies_ d with
    | none =>
      exact absurd ((h.forward_keys d).2 hd) ((StdMap.find_eq_none_iff _ _).1 hf)
    | some m => exact ⟨m, rfl⟩
  · cases hf : StdMap.find s.documents_ d with
    | none =>
      exact absurd (h.ids_documents d hd) ((StdMap.find_eq_none_iff _ _).1 hf)
    | some data => exact ⟨data, rfl⟩

/-! ## Ratings -/

theorem foldl_index_word_ids (id : Int) (x : R) :
    ∀ (words : List Word) (s : Server R),
      (words.foldl (AddDocument.index_word id x) s).document_ids_ = s.document_ids_ := by
  intro words
  induction words with
  | nil => intro s; rfl
  | cons w rest ih =>
    intro s
    rw [List.foldl_cons, ih]
    rfl

theorem foldl_index_word_documents (id : Int) (x : R) :
    ∀ (words : List Word) (s : Server R),
      (words.foldl (AddDocument.index_word id x) s).documents_ = s.documents_ := by
  intro words
  induction words with
  | nil => intro s; rfl
  | cons w rest ih =>
    intro s
    rw [List.foldl_cons, ih]
    rfl

theorem index_words_documents (s : Server R) (id : Int) (words : List Word) :
    (AddDocument.index_words s id words).documents_ = s.documents_ := by
  unfold AddDocument.index_words
  by_cases hw : words = []
  · simp [hw]
  · simp only [ne_eq, hw, not_false_eq_true, if_true]
    exact foldl_index_word_documents id _ words s

/-- The record stored by a successful `AddDocument`. -/
theorem AddDocument_ok_record (s : Server R) (document_id : Int) (document : List Char)
    (status : DocumentStatus) (ratings : List Int)
    (h : (AddDocument s document_id document status ratings).1 = .ok ()) :
    StdMap.find (AddDocument s document_id document status ratings).2.documents_ document_id =
      some { rating := ComputeAverageRating ratings, status := status, text := document } := by
  obtain ⟨_, h2, _⟩ := (AddDocument_ok_iff s document_id document status ratings).1 h
  rw [AddDocument_ok_state s document_id document status ratings h, index_words_documents]
  simp only [AddDocument.store_record, StdMap.emplace]
  rw [StdMap.find_update_of_not_mem _ _ _ _ h2]
  rfl

/-- No call of `AddDocument` changes the record of a document that has one. -/
theorem AddDocument_keeps_record (s : Server R) (other_id : Int) (document : List Char)
    (status : DocumentStatus) (ratings : List Int) (d : Int)
    (hd : d ∈ StdMap.keys s.documents_) :
    StdMap.find (AddDocument s other_id document status ratings).2.documents_ d =
      StdMap.find s.documents_ d := by
  rw [AddDocument_eq]
  by_cases h1 : other_id < 0 ∨ other_id ∈ StdMap.keys s.documents_
  · rw [if_pos h1]
  · rw [if_neg h1]
    have hne : d ≠ other_id := by
      intro e
      exact h1 (Or.inr (e ▸ hd))
    have key : StdMap.find
        (AddDocument.store_record s other_id document status ratings).documents_ d =
        StdMap.find s.documents_ d := by
      simp only [AddDocument.store_record, StdMap.emplace]
      exact StdMap.find_update_ne _ _ _ _ hne
    by_cases h2 : (SplitIntoWords document).all IsValidWord = true
    · rw [if_pos h2]
      simp only
      rw [index_words_documents, key]
    · rw [if_neg h2]
      exact key

theorem AddDocument_keeps_live (s : Server R) (other_id : Int) (document : List Char)
    (status : DocumentStatus) (ratings : List Int) (d : Int) (hd : d ∈ live_ids s) :
    d ∈ live_ids (AddDocument s other_id document status ratings).2 := by
  rw [AddDocument_eq]
  by_cases c1 : other_id < 0 ∨ other_id ∈ StdMap.keys s.documents_
  · rw [if_pos c1]
    exact hd
  · rw [if_neg c1]
    by_cases c2 : (SplitIntoWords document).all IsValidWord = true
    · rw [if_pos c2]
      simp only [live_ids, AddDocument.index_words, StdMap.mem_setInsert]
      right
      split
      · rw [foldl_index_word_ids]
        exact hd
      · exact hd
    · rw [if_neg c2]
      exact hd

theorem RemoveDocument_other {s : Server R} (h : Inv s) (other_id d : Int)
    (hne : other_id ≠ d) :
    (d ∈ live_ids s → d ∈ live_ids (RemoveDocument s other_id).2) ∧
      StdMap.find (RemoveDocument s other_id).2.documents_ d = StdMap.find s.documents_ d ∧
      StdMap.find (RemoveDocument s other_id).2.word_frequencies_ d =
        StdMap.find s.word_frequencies_ d := by
  have hne' : ¬ d = other_id := fun e => hne e.symm
  rw [RemoveDocument_eq h]
  by_cases hl : other_id ∈ s.document_ids_
  · rw [if_pos hl]
    refine ⟨?_, ?_, ?_⟩
    · intro hd
      simp only [live_ids, StdMap.mem_setErase]
      exact ⟨hd, hne'⟩
    · simp only [StdMap.find_erase, if_neg hne']
    · simp only [StdMap.find_erase, if_neg hne']
  · rw [if_neg hl]
    exact ⟨fun hd => hd, rfl, rfl⟩

theorem AddedWith.spec {s : Server R} {document_id : Int} {ratings : List Int}
    (h : AddedWith s document_id ratings) :
    Reachable s ∧ document_id ∈ live_ids s ∧
      rating_of s document_id = ComputeAverageRating ratings := by
  induction h with
  | added document_id document status ratings hs hok =>
    refine ⟨Reachable.add _ _ _ _ hs, AddDocument_ok_live _ _ _ _ _ hok, ?_⟩
    unfold rating_of
    rw [AddDocument_ok_record _ _ _ _ _ hok]
  | add_call other_id document status other_ratings _ ih =>
    obtain ⟨h1, h2, h3⟩ := ih
    have hdoc := h1.inv.ids_documents _ h2
    refine ⟨Reachable.add _ _ _ _ h1, AddDocument_keeps_live _ _ _ _ _ _ h2, ?_⟩
    unfold rating_of at h3 ⊢
    rw [AddDocument_keeps_record _ _ _ _ _ _ hdoc]
    exact h3
  | remove_call other_id _ hne ih =>
    obtain ⟨h1, h2, h3⟩ := ih
    obtain ⟨g1, g2, _⟩ := RemoveDocument_other h1.inv other_id _ hne
    refine ⟨Reachable.remove _ h1, g1 h2, ?_⟩
    unfold rating_of at h3 ⊢
    rw [g2]
    exact h3

theorem wrap32_of_range (x : Int) (h1 : -2147483648 ≤ x) (h2 : x < 2147483648) :
    wrap32 x = x := by
  unfold wrap32
  rw [Int.emod_eq_of_lt (by omega) (by omega)]
  omega

theorem tdiv_le_self_of_nonneg (a b : Int) (ha : 0 ≤ a) (hb : 0 ≤ b) : a.tdiv b ≤ a := by
  rw [Int.tdiv_eq_ediv ha hb]
  exact Int.ediv_le_self b ha

theorem foldl_wrap32_sum :
    ∀ (ratings : List Int) (acc : Int),
      (∀ k, k ≤ ratings.length →
        -2147483648 ≤ acc + (ratings.take k).sum ∧ acc + (ratings.take k).sum < 2147483648) →
      ratings.foldl (fun a r => wrap32 (a + r)) acc = acc + ratings.sum := by
  intro ratings
  induction ratings with
  | nil => intro acc _; simp
  | cons r rest ih =>
    intro acc h
    have h1 := h 1 (by simp)
    simp only [List.take_succ_cons, List.take_zero, List.sum_cons, List.sum_nil,
      add_zero] at h1
    rw [List.foldl_cons, wrap32_of_range _ h1.1 h1.2, ih]
    · simp only [List.sum_cons]
      ring
    · intro k hk
      have := h (k + 1) (by simpa using hk)
      simp only [List.take_succ_cons, List.sum_cons] at this
      rw [add_assoc]
      exact this

/-- `ComputeAverageRating` without overflow: the quotient, truncated toward zero, of the
sum of the ratings by their number. -/
theorem ComputeAverageRating_of_range (ratings : List Int) (hne : ratings ≠ [])
    (hlen : (ratings.length : Int) < 2147483648)
    (hsum : ∀ k, k ≤ ratings.length →
      -2147483648 ≤ (ratings.take k).sum ∧ (ratings.take k).sum < 2147483648) :
    ComputeAverageRating ratings = Int.tdiv ratings.sum (ratings.length : Int) := by
  unfold ComputeAverageRating
  rw [if_neg hne, foldl_wrap32_sum ratings 0 (by simpa using hsum), zero_add,
    wrap32_of_range (ratings.length : Int) (by omega) hlen]
  have hs := hsum ratings.length (le_refl _)
  rw [List.take_length] at hs
  have hpos : (0 : Int) < ratings.length := by
    have : ratings.length ≠ 0 := fun e => hne (List.length_eq_zero.1 e)
    omega
  apply wrap32_of_range
  · by_cases h0 : 0 ≤ ratings.sum
    · have := Int.tdiv_nonneg h0 (le_of_lt hpos)
      omega
    · have h0' : ratings.sum < 0 := by omega
      have hneg : Int.tdiv (-ratings.sum) (ratings.length : Int) ≤ -ratings.sum :=
        tdiv_le_self_of_nonneg _ _ (by omega) (le_of_lt hpos)
      rw [Int.neg_tdiv] at hneg
      omega
  · by_cases h0 : 0 ≤ ratings.sum
    · have := tdiv_le_self_of_nonneg ratings.sum (ratings.length : Int) h0 (le_of_lt hpos)
      omega
    · have h0' : ratings.sum < 0 := by omega
      have : 0 ≤ Int.tdiv (-ratings.sum) (ratings.length : Int) :=
        Int.tdiv_nonneg (by omega) (le_of_lt hpos)
      rw [Int.neg_tdiv] at this
      omega

theorem FindTopDocuments_rating (ln : R → R) {s : Server R} (h : Inv s)
    (raw_query : List Char) (p : DocumentPredicate) (docs : List (Document R))
    (hdocs : FindTopDocuments ln s raw_query p = .ok docs) :
    ∀ x ∈ docs, x.rating = rating_of s x.id := by
  cases hq : ParseQuery s raw_query with
  | error e =>
    have : FindTopDocuments ln s raw_query p = .error e := by
      simp [FindTopDocuments, FindTopDocuments.query, hq]
    rw [this] at hdocs
    cases hdocs
  | ok query =>
    intro x hx
    exact (FindTopDocuments_relevance ln h raw_query query hq p docs hdocs x hx).2

theorem spec_example_added : AddedWith (spec_example_server ℚ) 1 [7, 2, 7] :=
  @AddedWith.added ℚ _ ((AddDocument (Server.empty [['i'], ['v']]) 0
      ['w', 'h', 'i', 't', 'e', ' ', 'c', 'a', 't', ' ', 'i', ' ', 'f', 'a', 'n', 'c', 'y', ' ', 'c', 'o', 'l', 'l', 'a', 'r']
      DocumentStatus.ACTUAL [8, -3]).2) 1
    ['f', 'l', 'u', 'f', 'f', 'y', ' ', 'c', 'a', 't', ' ', 'f', 'l', 'u', 'f', 'f', 'y', ' ', 't', 'a', 'i', 'l']
    DocumentStatus.ACTUAL [7, 2, 7]
    (Reachable.add 0 _ DocumentStatus.ACTUAL [8, -3] (Reachable.init [['i'], ['v']]))
    (by decide)

theorem spec_example_fluffy_cat_top :
    FindTopDocuments (fun x => x) (spec_example_server ℚ)
        ['f', 'l', 'u', 'f', 'f', 'y', ' ', 'c', 'a', 't', ' ', '-', 'f', 'a', 'n', 'c', 'y']
        (fun _ document_status _ => decide (document_status = DocumentStatus.ACTUAL)) =
      .ok [{ id := 1, relevance := 1 / 4 * 1 + 1 / 2 * 2, rating := 5 }] :=
  spec_example_fluffy_cat (fun x => x)

/-! ## `SplitIntoWords` returns the maximal runs of non-space characters -/

theorem SplitIntoWords.loop_fuel_enough (fuel : Nat) (str : List Char) (result : List Word)
    (h : str.length ≤ fuel) :
    SplitIntoWords.loop fuel str result = SplitIntoWords.loop str.length str result := by
  induction fuel with
  | zero =>
    have : str.length = 0 := Nat.le_zero.1 h
    rw [this]
  | succ n ih =>
    by_cases hn : str.length ≤ n
    · rw [SplitIntoWords.loop_fuel_succ n str result hn]
      exact ih hn
    · have : str.length = n + 1 := by omega
      rw [this]

theorem takeWhile_append_dropWhile_ne_space (str : List Char) :
    (∀ c ∈ str.takeWhile (fun x => decide (x ≠ ' ')), c ≠ ' ') ∧
      (str.dropWhile (fun x => decide (x ≠ ' ')) = [] ∨
        (str.dropWhile (fun x => decide (x ≠ ' '))).head? = some ' ') := by
  constructor
  · intro c hc
    have := List.mem_takeWhile_imp hc
    simpa using this
  · induction str with
    | nil => left; rfl
    | cons c cs ih =>
      by_cases hc : c = ' '
      · right
        simp [List.dropWhile, hc]
      · have : (c :: cs).dropWhile (fun x => decide (x ≠ ' ')) =
            cs.dropWhile (fun x => decide (x ≠ ' ')) := by
          simp [List.dropWhile, hc]
        rw [this]
        exact ih

theorem SplitIntoWords.loop_runs (fuel : Nat) :
    ∀ (str : List Char) (result : List Word), str.length ≤ fuel →
      ∃ slices, SplitIntoWords.loop fuel str result = result ++ slices ∧ Runs str slices := by
  induction fuel with
  | zero =>
    intro str result h
    have : str = [] := List.length_eq_zero.1 (Nat.le_zero.1 h)
    subst this
    exact ⟨[], by simp [SplitIntoWords.loop], Runs.nil⟩
  | succ n ih =>
    intro str result h
    cases str with
    | nil => exact ⟨[], by simp [SplitIntoWords.loop], Runs.nil⟩
    | cons c cs =>
      have hcs : cs.length ≤ n := by simpa using h
      rw [SplitIntoWords.loop]
      by_cases hc : c = ' '
      · subst hc
        simp only [if_true]
        obtain ⟨slices, h1, h2⟩ := ih cs result hcs
        exact ⟨slices, h1, Runs.space h2⟩
      · simp only [hc, if_false]
        have hdrop : (c :: cs).dropWhile (fun x => decide (x ≠ ' ')) =
            cs.dropWhile (fun x => decide (x ≠ ' ')) := by
          simp [List.dropWhile, hc]
        have hlen : ((c :: cs).dropWhile (fun x => decide (x ≠ ' '))).length ≤ n := by
          rw [hdrop]
          exact le_trans (length_dropWhile_le _ cs) hcs
        obtain ⟨slices, h1, h2⟩ := ih _
          (result ++ [(c :: cs).takeWhile (fun x => decide (x ≠ ' '))]) hlen
        refine ⟨(c :: cs).takeWhile (fun x => decide (x ≠ ' ')) :: slices, ?_, ?_⟩
        · rw [h1]
          simp
        · have hsplit := List.takeWhile_append_dropWhile (fun x => decide (x ≠ ' ')) (c :: cs)
          obtain ⟨g1, g2⟩ := takeWhile_append_dropWhile_ne_space (c :: cs)
          have hne : (c :: cs).takeWhile (fun x => decide (x ≠ ' ')) ≠ [] := by
            simp [List.takeWhile, hc]
          have := Runs.run _ hne g1 g2 h2
          rw [hsplit] at this
          exact this

theorem Runs.leading_spaces :
    ∀ (text : List Char) (slices : List Word),
      Runs (text.dropWhile (fun x => decide (x = ' '))) slices → Runs text slices := by
  intro text
  induction text with
  | nil => intro slices h; exact h
  | cons c cs ih =>
    intro slices h
    by_cases hc : c = ' '
    · subst hc
      have : (' ' :: cs).dropWhile (fun x => decide (x = ' ')) =
          cs.dropWhile (fun x => decide (x = ' ')) := by
        simp [List.dropWhile]
      rw [this] at h
      exact Runs.space (ih slices h)
    · have : (c :: cs).dropWhile (fun x => decide (x = ' ')) = c :: cs := by
        simp [List.dropWhile, hc]
      rw [this] at h
      exact h

theorem SplitIntoWords_runs (text : List Char) : Runs text (SplitIntoWords text) := by
  unfold SplitIntoWords
  obtain ⟨slices, h1, h2⟩ := SplitIntoWords.loop_runs text.length
    (text.dropWhile (fun x => decide (x = ' '))) [] (length_dropWhile_le _ text)
  rw [h1, List.nil_append]
  exact Runs.leading_spaces text slices h2

theorem run_starts_run (w : Word) (hw : ∀ c ∈ w, c ≠ ' ') (rest : List Char)
    (hrest : rest = [] ∨ rest.head? = some ' ') :
    run_starts false (w ++ rest) = run_starts true rest := by
  induction w with
  | nil =>
    rcases hrest with h | h
    · subst h
      rfl
    · cases rest with
      | nil => rfl
      | cons d ds =>
        have hd : d = ' ' := by simpa using h
        subst hd
        simp [run_starts]
  | cons c cs ih =>
    have hc : c ≠ ' ' := hw c (List.mem_cons_self _ _)
    have hcs : ∀ d ∈ cs, d ≠ ' ' := fun d hd => hw d (List.mem_cons_of_mem _ hd)
    simp only [List.cons_append, run_starts, Bool.false_eq_true, and_false, if_false, zero_add,
      hc, decide_False]
    exact ih hcs

theorem Runs.length_eq {text : List Char} {slices : List Word} (h : Runs text slices) :
    slices.length = run_starts true text := by
  induction h with
  | nil => rfl
  | space _ ih => simp [run_starts, ih]
  | @run rest slices w hne hw hrest _ ih =>
    cases w with
    | nil => exact absurd rfl hne
    | cons c cs =>
      have hc : c ≠ ' ' := hw c (List.mem_cons_self _ _)
      have hcs : ∀ d ∈ cs, d ≠ ' ' := fun d hd => hw d (List.mem_cons_of_mem _ hd)
      have h1 : run_starts true (c :: (cs ++ rest)) = 1 + run_starts false (cs ++ rest) := by
        simp [run_starts, hc]
      show ((c :: cs) :: slices).length = run_starts true (c :: (cs ++ rest))
      rw [h1, run_starts_run cs hcs _ hrest, ← ih]
      simp only [List.length_cons]
      omega

theorem Runs.slices {text : List Char} {slices : List Word} (h : Runs text slices) :
    ∀ w ∈ slices, w ≠ [] ∧ ∀ c ∈ w, c ≠ ' ' := by
  induction h with
  | nil => intro w hw; simp at hw
  | space _ ih => exact ih
  | run w hne hw _ _ ih =>
    intro w' hw'
    rcases List.mem_cons.1 hw' with e | e
    · subst e
      exact ⟨hne, hw⟩
    · exact ih w' e

theorem Runs.of_spaces {text : List Char} {slices : List Word} (h : Runs text slices)
    (hsp : ∀ c ∈ text, c = ' ') : slices = [] := by
  induction h with
  | nil => rfl
  | space _ ih => exact ih (fun c hc => hsp c (List.mem_cons_of_mem _ hc))
  | run w hne hw _ _ _ =>
    cases w with
    | nil => exact absurd rfl hne
    | cons c cs =>
      exact absurd (hsp c (by simp)) (hw c (List.mem_cons_self _ _))

theorem takeWhile_run (w : Word) (hw : ∀ c ∈ w, c ≠ ' ') (rest : List Char)
    (hrest : rest = [] ∨ rest.head? = some ' ') :
    (w ++ rest).takeWhile (fun x => decide (x ≠ ' ')) = w ∧
      (w ++ rest).dropWhile (fun x => decide (x ≠ ' ')) = rest := by
  induction w with
  | nil =>
    rcases hrest with h | h
    · subst h
      exact ⟨rfl, rfl⟩
    · cases rest with
      | nil => exact ⟨rfl, rfl⟩
      | cons d ds =>
        have hd : d = ' ' := by simpa using h
        subst hd
        simp [List.takeWhile, List.dropWhile]
  | cons c cs ih =>
    have hc : c ≠ ' ' := hw c (List.mem_cons_self _ _)
    have hcs : ∀ d ∈ cs, d ≠ ' ' := fun d hd => hw d (List.mem_cons_of_mem _ hd)
    obtain ⟨h1, h2⟩ := ih hcs
    have hp : (fun x => decide (x ≠ ' ')) c = true := by simpa using hc
    constructor
    · show (c :: (cs ++ rest)).takeWhile (fun x => decide (x ≠ ' ')) = c :: cs
      rw [List.takeWhile_cons, if_pos hp, h1]
    · show (c :: (cs ++ rest)).dropWhile (fun x => decide (x ≠ ' ')) = rest
      rw [List.dropWhile_cons, if_pos hp, h2]

/-- A text has only one list of maximal runs. -/
theorem Runs.unique {text : List Char} {a : List Word} (ha : Runs text a) :
    ∀ b, Runs text b → a = b := by
  induction ha with
  | nil =>
    intro b hb
    generalize he : ([] : List Char) = t at hb
    cases hb with
    | nil => rfl
    | space _ => cases he
    | run w hne _ _ _ =>
      cases w with
      | nil => exact absurd rfl hne
      | cons c cs => cases he
  | @space text slices _ ih =>
    intro b hb
    generalize he : ' ' :: text = t at hb
    cases hb with
    | nil => cases he
    | space hb' =>
      cases he
      exact ih b hb'
    | run w hne hw _ _ =>
      cases w with
      | nil => exact absurd rfl hne
      | cons c cs =>
        simp only [List.cons_append, List.cons.injEq] at he
        exact absurd he.1.symm (hw c (List.mem_cons_self _ _))
  | @run rest slices w hne hw hrest _ ih =>
    intro b hb
    generalize he : w ++ rest = t at hb
    cases hb with
    | nil =>
      cases w with
      | nil => exact absurd rfl hne
      | cons c cs => cases he
    | space _ =>
      cases w with
      | nil => exact absurd rfl hne
      | cons c cs =>
        simp only [List.cons_append, List.cons.injEq] at he
        exact absurd he.1 (hw c (List.mem_cons_self _ _))
    | @run rest' slices' w' hne' hw' hrest' hb' =>
      obtain ⟨h1, h2⟩ := takeWhile_run w hw rest hrest
      obtain ⟨h1', h2'⟩ := takeWhile_run w' hw' rest' hrest'
      rw [he, h1'] at h1
      rw [he, h2'] at h2
      subst h1
      subst h2
      rw [ih _ hb']

/-! ## `RequestQueue` -/

theorem RequestQueue.run_append (ln : R → R) (queries : List (List Char)) :
    ∀ (q : RequestQueue R) (raw_query : List Char),
      RequestQueue.run ln q (queries ++ [raw_query]) =
        (RequestQueue.AddFindRequest ln (RequestQueue.run ln q queries) raw_query).2 := by
  induction queries with
  | nil => intro q r; rfl
  | cons a rest ih =>
    intro q r
    simp only [List.cons_append, RequestQueue.run]
    exact ih _ r

theorem RequestQueue.marked_empty_le (requests : List (QueryResult R)) :
    RequestQueue.marked_empty requests ≤ requests.length :=
  List.length_filter_le _ _

theorem RequestQueue.marked_empty_append (a b : List (QueryResult R)) :
    RequestQueue.marked_empty (a ++ b) =
      RequestQueue.marked_empty a + RequestQueue.marked_empty b := by
  unfold RequestQueue.marked_empty
  rw [List.filter_append, List.length_append]

theorem RequestQueue.tick_spec (q : RequestQueue R) (h0 : 0 ≤ q.seconds_)
    (h1 : q.seconds_ + 1 < 2147483648) (hlen : q.requests_.length ≤ 1440)
    (hcount : q.empty_requests_ = (RequestQueue.marked_empty q.requests_ : Int)) :
    q.tick.search_server_ = q.search_server_ ∧ q.tick.seconds_ = q.seconds_ + 1 ∧
      q.tick.requests_ = (if q.seconds_ + 1 > 1440 then q.requests_.tail else q.requests_) ∧
      q.tick.empty_requests_ = (RequestQueue.marked_empty q.tick.requests_ : Int) := by
  have hw : wrap32 (q.seconds_ + 1) = q.seconds_ + 1 := wrap32_of_range _ (by omega) h1
  unfold RequestQueue.tick
  simp only [hw, RequestQueue.min_in_day_]
  by_cases hgt : q.seconds_ + 1 > 1440
  · rw [if_pos hgt, if_pos hgt]
    refine ⟨rfl, rfl, rfl, ?_⟩
    show (if (q.requests_.head?.map (fun r => r.is_empty)) = some 1 then
        wrap32 (q.empty_requests_ - 1) else q.empty_requests_) =
      (RequestQueue.marked_empty q.requests_.tail : Int)
    have hle := RequestQueue.marked_empty_le q.requests_
    cases hreq : q.requests_ with
    | nil =>
      rw [hreq] at hcount
      simp [hcount, RequestQueue.marked_empty]
    | cons e rest =>
      rw [hreq] at hcount hle hlen
      simp only [List.length_cons] at hle hlen
      by_cases he : e.is_empty = 1
      · have hm : RequestQueue.marked_empty (e :: rest) = RequestQueue.marked_empty rest + 1 := by
          simp [RequestQueue.marked_empty, he]
        rw [hm] at hcount hle
        simp only [List.head?_cons, Option.map_some', he, if_true, List.tail_cons]
        rw [wrap32_of_range _ (by omega) (by omega), hcount]
        push_cast
        omega
      · have hm : RequestQueue.marked_empty (e :: rest) = RequestQueue.marked_empty rest := by
          simp [RequestQueue.marked_empty, he]
        rw [hm] at hcount
        have : ¬ (some e.is_empty = some 1) := by simpa using he
        simp only [List.head?_cons, Option.map_some', this, if_false, List.tail_cons]
        exact hcount
  · rw [if_neg hgt, if_neg hgt]
    exact ⟨rfl, rfl, rfl, hcount⟩

theorem RequestQueue.entry_ok (ln : R → R) (s : Server R) (raw_query : List Char)
    (vec : List (Document R)) (h : FindTopDocumentsActual ln s raw_query = .ok vec) :
    RequestQueue.entry ln s raw_query =
        { is_empty := if vec.isEmpty then 1 else 0, docs := vec } ∧
      RequestQueue.no_result ln s raw_query = vec.isEmpty := by
  unfold RequestQueue.entry RequestQueue.no_result
  rw [h]
  exact ⟨rfl, rfl⟩

theorem RequestQueue.AddFindRequest_step (ln : R → R) (q : RequestQueue R)
    (raw_query : List Char) (vec : List (Document R))
    (hvec : FindTopDocumentsActual ln q.search_server_ raw_query = .ok vec)
    (h0 : 0 ≤ q.seconds_) (h1 : q.seconds_ + 1 < 2147483648)
    (hlen : q.requests_.length ≤ 1440)
    (hcount : q.empty_requests_ = (RequestQueue.marked_empty q.requests_ : Int)) :
    (RequestQueue.AddFindRequest ln q raw_query).1 = .ok vec ∧
      (RequestQueue.AddFindRequest ln q raw_query).2.search_server_ = q.search_server_ ∧
      (RequestQueue.AddFindRequest ln q raw_query).2.seconds_ = q.seconds_ + 1 ∧
      (RequestQueue.AddFindRequest ln q raw_query).2.requests_ =
        (if q.seconds_ + 1 > 1440 then q.requests_.tail else q.requests_) ++
          [RequestQueue.entry ln q.search_server_ raw_query] ∧
      (RequestQueue.AddFindRequest ln q raw_query).2.empty_requests_ =
        (RequestQueue.marked_empty (RequestQueue.AddFindRequest ln q raw_query).2.requests_ : Int) := by
  obtain ⟨t1, t2, t3, t4⟩ := RequestQueue.tick_spec q h0 h1 hlen hcount
  have hentry := (RequestQueue.entry_ok ln q.search_server_ raw_query vec hvec).1
  have htl : q.tick.requests_.length ≤ 1440 := by
    rw [t3]
    split
    · rw [List.length_tail]; omega
    · exact hlen
  have hm := RequestQueue.marked_empty_le q.tick.requests_
  unfold RequestQueue.AddFindRequest
  simp only [t1, hvec]
  by_cases hemp : vec.isEmpty = true
  · rw [if_pos hemp]
    rw [hentry, if_pos hemp]
    refine ⟨rfl, rfl, t2, ?_, ?_⟩
    · show q.tick.requests_ ++ _ = _
      rw [t3]
    · show wrap32 (q.tick.empty_requests_ + 1) =
        (RequestQueue.marked_empty (q.tick.requests_ ++ [{ is_empty := 1, docs := vec }]) : Int)
      rw [RequestQueue.marked_empty_append, t4, wrap32_of_range _ (by omega) (by omega)]
      simp [RequestQueue.marked_empty]
  · rw [if_neg hemp]
    rw [hentry, if_neg hemp]
    refine ⟨rfl, rfl, t2, ?_, ?_⟩
    · show q.tick.requests_ ++ _ = _
      rw [t3]
    · show q.tick.empty_requests_ =
        (RequestQueue.marked_empty (q.tick.requests_ ++ [{ is_empty := 0, docs := vec }]) : Int)
      rw [RequestQueue.marked_empty_append, t4]
      simp [RequestQueue.marked_empty]

theorem RequestQueue.run_spec (ln : R → R) (s : Server R) (queries : List (List Char)) :
    (∀ r ∈ queries, ∃ docs, FindTopDocumentsActual ln s r = .ok docs) →
    queries.length < 2147483648 →
      (RequestQueue.run ln (RequestQueue.init s) queries).search_server_ = s ∧
      (RequestQueue.run ln (RequestQueue.init s) queries).seconds_ = (queries.length : Int) ∧
      (RequestQueue.run ln (RequestQueue.init s) queries).requests_ =
        (queries.drop (queries.length - 1440)).map (RequestQueue.entry ln s) ∧
      (RequestQueue.run ln (RequestQueue.init s) queries).empty_requests_ =
        (RequestQueue.marked_empty
          (RequestQueue.run ln (RequestQueue.init s) queries).requests_ : Int) := by
  induction queries using List.reverseRecOn with
  | nil => intro _ _; exact ⟨rfl, rfl, rfl, rfl⟩
  | append_singleton pre r ih =>
    intro hok hn
    rw [List.length_append, List.length_singleton] at hn
    obtain ⟨i1, i2, i3, i4⟩ := ih (fun x hx => hok x (List.mem_append_left _ hx)) (by omega)
    obtain ⟨vec, hvec⟩ := hok r (by simp)
    have hlen : (RequestQueue.run ln (RequestQueue.init s) pre).requests_.length ≤ 1440 := by
      rw [i3, List.length_map, List.length_drop]
      omega
    rw [RequestQueue.run_append]
    obtain ⟨_, s1, s2, s3, s4⟩ := RequestQueue.AddFindRequest_step ln
      (RequestQueue.run ln (RequestQueue.init s) pre) r vec (by rw [i1]; exact hvec)
      (by rw [i2]; omega) (by rw [i2]; omega) hlen i4
    refine ⟨s1.trans i1, ?_, ?_, s4⟩
    · rw [s2, i2, List.length_append, List.length_singleton]
      push_cast
      rfl
    · rw [s3, i1, i3, i2, List.length_append, List.length_singleton]
      by_cases hk : 1440 < pre.length + 1
      · have hk' : ((pre.length : Int) + 1 > 1440) := by omega
        rw [if_pos hk']
        have e1 : pre.length + 1 - 1440 = (pre.length - 1440) + 1 := by omega
        rw [e1, List.drop_append_of_le_length (by omega), List.map_append, List.map_singleton,
          ← List.map_tail, List.tail_drop]
      · have hk' : ¬ ((pre.length : Int) + 1 > 1440) := by omega
        rw [if_neg hk']
        have e1 : pre.length + 1 - 1440 = 0 := by omega
        have e2 : pre.length - 1440 = 0 := by omega
        rw [e1, e2, List.drop_zero, List.drop_zero, List.map_append, List.map_singleton]

theorem RequestQueue.marked_empty_replicate (k : Nat) (e : QueryResult R) (he : e.is_empty = 1) :
    RequestQueue.marked_empty (List.replicate k e) = k := by
  induction k with
  | zero => rfl
  | succ k ih =>
    rw [List.replicate_succ]
    unfold RequestQueue.marked_empty at ih ⊢
    rw [List.filter_cons_of_pos (by simpa using he), List.length_cons, ih]

theorem RequestQueue.run_overflow (ln : R → R) (s : Server R) (raw_query : List Char)
    (hvec : FindTopDocumentsActual ln s raw_query = .ok []) (n : Nat)
    (hn : n + 1 = 2147483648) :
    (RequestQueue.run ln (RequestQueue.init s) (List.replicate (n + 1) raw_query)).seconds_ =
        -2147483648 ∧
      (RequestQueue.run ln (RequestQueue.init s)
        (List.replicate (n + 1) raw_query)).requests_.length = 1441 ∧
      (RequestQueue.run ln (RequestQueue.init s)
        (List.replicate (n + 1) raw_query)).GetNoResultRequests = 1441 := by
  rw [List.replicate_succ', RequestQueue.run_append]
  obtain ⟨i1, i2, i3, i4⟩ := RequestQueue.run_spec ln s (List.replicate n raw_query)
    (fun r hr => ⟨[], by rw [List.eq_of_mem_replicate hr]; exact hvec⟩)
    (by rw [List.length_replicate]; omega)
  rw [List.length_replicate] at i2 i3
  have hentry : RequestQueue.entry ln s raw_query = { is_empty := 1, docs := [] } :=
    (RequestQueue.entry_ok ln s raw_query [] hvec).1
  rw [List.drop_replicate, List.map_replicate, hentry] at i3
  have e1 : n - (n - 1440) = 1440 := by omega
  rw [e1] at i3
  rw [i3, RequestQueue.marked_empty_replicate 1440 _ rfl] at i4
  have hsec : wrap32 ((n : Int) + 1) = -2147483648 := by
    have : (n : Int) + 1 = 2147483648 := by exact_mod_cast hn
    rw [this]
    decide
  have htick : (RequestQueue.run ln (RequestQueue.init s) (List.replicate n raw_query)).tick =
      { (RequestQueue.run ln (RequestQueue.init s) (List.replicate n raw_query)) with
        seconds_ := -2147483648 } := by
    unfold RequestQueue.tick
    simp only [i2, hsec, RequestQueue.min_in_day_]
    rw [if_neg (by decide)]
  unfold RequestQueue.AddFindRequest
  rw [htick]
  simp only [i1, hvec, List.isEmpty_nil, if_true, RequestQueue.GetNoResultRequests, i3, i4]
  refine ⟨trivial, ?_, ?_⟩
  · rw [List.length_append, List.length_replicate]
    rfl
  · decide

theorem empty_server_cat :
    FindTopDocumentsActual (fun x => x) (Server.empty [] : Server ℚ) ['c', 'a', 't'] = .ok [] ∧
      FindTopDocumentsStatus (fun x => x) (Server.empty [] : Server ℚ) ['c', 'a', 't']
        DocumentStatus.ACTUAL = .ok [] ∧
      FindTopDocuments (fun x => x) (Server.empty [] : Server ℚ) ['c', 'a', 't']
        (fun _ _ _ => true) = .ok [] := by
  refine ⟨by decide, by decide, by decide⟩

theorem RequestQueue.marked_empty_entries (ln : R → R) (s : Server R)
    (queries : List (List Char)) :
    RequestQueue.marked_empty (queries.map (RequestQueue.entry ln s)) =
      (queries.filter (RequestQueue.no_result ln s)).length := by
  have key : ∀ r, decide ((RequestQueue.entry ln s r).is_empty = 1) =
      RequestQueue.no_result ln s r := by
    intro r
    unfold RequestQueue.entry RequestQueue.no_result
    cases FindTopDocumentsActual ln s r with
    | error e => simp
    | ok vec => cases vec <;> simp
  unfold RequestQueue.marked_empty
  induction queries with
  | nil => rfl
  | cons r rest ih =>
    rw [List.map_cons, List.filter_cons, List.filter_cons, key r]
    cases RequestQueue.no_result ln s r
    · simpa using ih
    · simpa using ih

/-! ## `RemoveDuplicates` -/

theorem foldl_setInsert_spec {V : Type} (l : List (Word × V)) :
    ∀ acc : List Word, acc.Sorted (fun a b => a < b) →
      (l.foldl (fun test entry => StdMap.setInsert entry.1 test) acc).Sorted
          (fun a b => a < b) ∧
        ∀ w, w ∈ l.foldl (fun test entry => StdMap.setInsert entry.1 test) acc ↔
          w ∈ acc ∨ w ∈ StdMap.keys l := by
  induction l with
  | nil => intro acc h; exact ⟨h, by simp [StdMap.keys]⟩
  | cons e rest ih =>
    intro acc h
    obtain ⟨h1, h2⟩ := ih (StdMap.setInsert e.1 acc) (StdMap.sorted_setInsert h e.1)
    refine ⟨h1, ?_⟩
    intro w
    rw [List.foldl_cons, h2 w, StdMap.mem_setInsert]
    simp only [StdMap.keys, List.map_cons, List.mem_cons]
    tauto

theorem RemoveDuplicates.test_spec (s : Server R) (d : Int) :
    (RemoveDuplicates.test s d).Sorted (fun a b => a < b) ∧
      ∀ w, w ∈ RemoveDuplicates.test s d ↔ contains_word s d w = true := by
  obtain ⟨h1, h2⟩ := foldl_setInsert_spec (GetWordFrequencies s d) [] List.sorted_nil
  refine ⟨h1, ?_⟩
  intro w
  unfold RemoveDuplicates.test contains_word
  rw [h2 w, decide_eq_true_eq]
  simp

theorem RemoveDuplicates.test_eq_iff (s s' : Server R) (a b : Int) :
    RemoveDuplicates.test s a = RemoveDuplicates.test s' b ↔
      ∀ w : Word, contains_word s a w = contains_word s' b w := by
  obtain ⟨sa, ma⟩ := RemoveDuplicates.test_spec s a
  obtain ⟨sb, mb⟩ := RemoveDuplicates.test_spec s' b
  constructor
  · intro h w
    have := ma w
    rw [h, mb w] at this
    cases h1 : contains_word s a w <;> cases h2 : contains_word s' b w <;> simp_all
  · intro h
    apply List.eq_of_perm_of_sorted ?_ sa sb
    rw [List.perm_ext_iff_of_nodup sa.nodup sb.nodup]
    intro w
    rw [ma w, mb w, h w]

theorem RemoveDocument_ok_live {s : Server R} (h : Inv s) (document_id : Int) :
    (RemoveDocument s document_id).1 = .ok () ∧
      ∀ d, d ∈ live_ids (RemoveDocument s document_id).2 ↔ d ∈ live_ids s ∧ d ≠ document_id := by
  rw [RemoveDocument_eq h]
  by_cases hl : document_id ∈ s.document_ids_
  · rw [if_pos hl]
    refine ⟨rfl, ?_⟩
    intro d
    simp only [live_ids, StdMap.mem_setErase]
  · rw [if_neg hl]
    refine ⟨rfl, ?_⟩
    intro d
    constructor
    · intro hd
      exact ⟨hd, fun e => hl (e ▸ hd)⟩
    · intro hd
      exact hd.1

theorem RemoveDocument_test {s : Server R} (h : Inv s) (other_id d : Int)
    (hne : other_id ≠ d) :
    RemoveDuplicates.test (RemoveDocument s other_id).2 d = RemoveDuplicates.test s d := by
  unfold RemoveDuplicates.test
  rw [GetWordFrequencies_eq, GetWordFrequencies_eq, (RemoveDocument_other h other_id d hne).2.2]

theorem RemoveDuplicates.loop_spec :
    ∀ (rest : List Int) (m : List (List Word)) (s : Server R), Inv s →
      rest.Sorted (fun a b => a < b) →
      (RemoveDuplicates.loop rest m s).1 = .ok () ∧ Inv (RemoveDuplicates.loop rest m s).2 ∧
        (∀ d, d ∈ live_ids (RemoveDuplicates.loop rest m s).2 ↔
          d ∈ live_ids s ∧ (d ∈ rest → RemoveDuplicates.test s d ∉ m ∧
            ∀ e ∈ rest, e < d → RemoveDuplicates.test s e ≠ RemoveDuplicates.test s d)) ∧
        (∀ d, d ∈ live_ids (RemoveDuplicates.loop rest m s).2 →
          StdMap.find (RemoveDuplicates.loop rest m s).2.word_frequencies_ d =
              StdMap.find s.word_frequencies_ d ∧
            StdMap.find (RemoveDuplicates.loop rest m s).2.documents_ d =
              StdMap.find s.documents_ d) := by
  intro rest
  induction rest with
  | nil =>
    intro m s h _
    refine ⟨rfl, h, ?_, fun d _ => ⟨rfl, rfl⟩⟩
    intro d
    simp [RemoveDuplicates.loop]
  | cons d0 rest ih =>
    intro m s h hs
    have hrest := (List.sorted_cons.1 hs).2
    have hlt : ∀ e ∈ rest, d0 < e := (List.sorted_cons.1 hs).1
    have hd0 : d0 ∉ rest := fun hm => lt_irrefl _ (hlt d0 hm)
    rw [RemoveDuplicates.loop]
    by_cases hc : StdMap.setCount m (RemoveDuplicates.test s d0) = 0
    · rw [if_pos hc]
      have hnm : RemoveDuplicates.test s d0 ∉ m := (StdMap.setCount_eq_zero_iff _ _).1 hc
      obtain ⟨i1, i2, i3, i4⟩ := ih (StdMap.setInsert (RemoveDuplicates.test s d0) m) s h hrest
      refine ⟨i1, i2, ?_, i4⟩
      intro d
      rw [i3 d]
      apply and_congr_right
      intro _
      constructor
      · intro hd hmem
        rcases List.mem_cons.1 hmem with e | e
        · subst e
          refine ⟨hnm, ?_⟩
          intro e he hed
          rcases List.mem_cons.1 he with e' | e'
          · subst e'
            exact absurd hed (lt_irrefl _)
          · exact absurd (lt_trans hed (hlt e e')) (lt_irrefl _)
        · obtain ⟨g1, g2⟩ := hd e
          rw [StdMap.mem_setInsert] at g1
          refine ⟨fun hm => g1 (Or.inr hm), ?_⟩
          intro e0 he0 hed
          rcases List.mem_cons.1 he0 with e' | e'
          · subst e'
            exact fun heq => g1 (Or.inl heq.symm)
          · exact g2 e0 e' hed
      · intro hd hmem
        obtain ⟨g1, g2⟩ := hd (List.mem_cons_of_mem _ hmem)
        refine ⟨?_, fun e he hed => g2 e (List.mem_cons_of_mem _ he) hed⟩
        rw [StdMap.mem_setInsert]
        rintro (heq | hm)
        · exact g2 d0 (List.mem_cons_self _ _) (hlt d hmem) heq.symm
        · exact g1 hm
    · rw [if_neg hc]
      have hm0 : RemoveDuplicates.test s d0 ∈ m := by
        by_contra hn
        exact hc ((StdMap.setCount_eq_zero_iff _ _).2 hn)
      obtain ⟨r1, r2⟩ := RemoveDocument_ok_live h d0
      have hinv := h.remove d0
      obtain ⟨i1, i2, i3, i4⟩ := ih m (RemoveDocument s d0).2 hinv hrest
      have hsplit : RemoveDocument s d0 = (.ok (), (RemoveDocument s d0).2) := by
        rw [← r1]
      rw [hsplit]
      simp only
      refine ⟨i1, i2, ?_, ?_⟩
      · intro d
        rw [i3 d, r2 d]
        constructor
        · rintro ⟨⟨hl, hne⟩, hd⟩
          refine ⟨hl, ?_⟩
          intro hmem
          rcases List.mem_cons.1 hmem with e | e
          · exact absurd e hne
          · obtain ⟨g1, g2⟩ := hd e
            rw [RemoveDocument_test h d0 d (Ne.symm hne)] at g1 g2
            refine ⟨g1, ?_⟩
            intro e0 he0 hed
            rcases List.mem_cons.1 he0 with e' | e'
            · subst e'
              exact fun heq => g1 (heq ▸ hm0)
            · have := g2 e0 e' hed
              rw [RemoveDocument_test h d0 e0 (fun q => hd0 (q ▸ e'))] at this
              exact this
        · rintro ⟨hl, hd⟩
          have hne : d ≠ d0 := by
            intro e
            subst e
            exact (hd (List.mem_cons_self _ _)).1 hm0
          refine ⟨⟨hl, hne⟩, ?_⟩
          intro hmem
          obtain ⟨g1, g2⟩ := hd (List.mem_cons_of_mem _ hmem)
          rw [RemoveDocument_test h d0 d (Ne.symm hne)]
          refine ⟨g1, ?_⟩
          intro e0 he0 hed
          rw [RemoveDocument_test h d0 e0 (fun q => hd0 (q ▸ he0))]
          exact g2 e0 (List.mem_cons_of_mem _ he0) hed
      · intro d hd
        have hne : d ≠ d0 := ((r2 d).1 ((i3 d).1 hd).1).2
        obtain ⟨j1, j2⟩ := i4 d hd
        obtain ⟨_, k1, k2⟩ := RemoveDocument_other h d0 d (Ne.symm hne)
        exact ⟨j1.trans k2, j2.trans k1⟩

theorem RemoveDuplicates.loop_reachable :
    ∀ (rest : List Int) (m : List (List Word)) (s : Server R), Reachable s →
      Reachable (RemoveDuplicates.loop rest m s).2 := by
  intro rest
  induction rest with
  | nil => intro m s h; exact h
  | cons d0 rest ih =>
    intro m s h
    rw [RemoveDuplicates.loop]
    split
    · exact ih _ s h
    · have hr : Reachable (RemoveDocument s d0).2 := Reachable.remove d0 h
      split
      · rename_i e s' heq
        rw [heq] at hr
        exact hr
      · rename_i s' heq
        rw [heq] at hr
        exact ih m s' hr

theorem exists_least_of_sorted (p : Int → Prop) :
    ∀ l : List Int, l.Sorted (fun a b => a < b) → ∀ x ∈ l, p x →
      ∃ k ∈ l, p k ∧ ∀ e ∈ l, p e → k ≤ e := by
  intro l
  induction l with
  | nil => intro _ x hx; simp at hx
  | cons a rest ih =>
    intro hs x hx hp
    by_cases ha : p a
    · refine ⟨a, List.mem_cons_self _ _, ha, ?_⟩
      intro e he _
      rcases List.mem_cons.1 he with e' | e'
      · exact le_of_eq e'.symm
      · exact le_of_lt ((List.sorted_cons.1 hs).1 e e')
    · have hxr : x ∈ rest := by
        rcases List.mem_cons.1 hx with e' | e'
        · subst e'
          exact absurd hp ha
        · exact e'
      obtain ⟨k, hk, hpk, hmin⟩ := ih (List.sorted_cons.1 hs).2 x hxr hp
      refine ⟨k, List.mem_cons_of_mem _ hk, hpk, ?_⟩
      intro e he hpe
      rcases List.mem_cons.1 he with e' | e'
      · subst e'
        exact absurd hpe ha
      · exact hmin e e' hpe

theorem RemoveDuplicates_spec {s : Server R} (h : Inv s) :
    (RemoveDuplicates s).1 = .ok () ∧
      (∀ d, d ∈ live_ids (RemoveDuplicates s).2 ↔
        d ∈ live_ids s ∧ ∀ e ∈ live_ids s, same_terms s e d → d ≤ e) ∧
      (∀ d, d ∈ live_ids (RemoveDuplicates s).2 →
        GetWordFrequencies (RemoveDuplicates s).2 d = GetWordFrequencies s d ∧
          StdMap.find (RemoveDuplicates s).2.documents_ d = StdMap.find s.documents_ d) := by
  obtain ⟨i1, _, i3, i4⟩ := RemoveDuplicates.loop_spec (live_ids s) [] s h h.ids_sorted
  refine ⟨i1, ?_, ?_⟩
  · intro d
    unfold RemoveDuplicates
    rw [i3 d]
    apply and_congr_right
    intro hd
    constructor
    · intro hh e he hsame
      by_contra hlt
      exact (hh hd).2 e he (not_le.1 hlt) ((RemoveDuplicates.test_eq_iff s s e d).2 hsame)
    · intro hh _
      refine ⟨List.not_mem_nil _, ?_⟩
      intro e he hlt heq
      exact absurd (hh e he ((RemoveDuplicates.test_eq_iff s s e d).1 heq)) (not_le.2 hlt)
  · intro d hd
    obtain ⟨j1, j2⟩ := i4 d hd
    refine ⟨?_, j2⟩
    rw [GetWordFrequencies_eq, GetWordFrequencies_eq]
    unfold RemoveDuplicates
    rw [j1]

theorem duplicates_server_reachable : Reachable duplicates_server :=
  Reachable.add 8 _ _ _ (Reachable.add 7 _ _ _ (Reachable.add 6 _ _ _
    (Reachable.add 5 _ _ _ (Reachable.init []))))

theorem duplicates_server_live :
    live_ids duplicates_server = [5, 6, 7, 8] ∧
      live_ids (RemoveDuplicates duplicates_server).2 = [5, 8] := by
  refine ⟨by decide, by decide⟩

/-! ## The sharded accumulator -/

theorem ConcurrentMap.Good.init (n : Nat) (hn : 0 < n) :
    (ConcurrentMap.init n : ConcurrentMap R).Good ∧
      ∀ k, (ConcurrentMap.init n : ConcurrentMap R).lookup k = none := by
  have hget : ∀ i, (List.replicate n ([] : List (Int × R))).getD i [] = [] := by
    intro i
    rw [List.getD_eq_getElem?_getD]
    cases h : (List.replicate n ([] : List (Int × R)))[i]? with
    | none => rfl
    | some b =>
      have := List.getElem?_mem h
      rw [List.eq_of_mem_replicate this]
      rfl
  refine ⟨⟨?_, ?_, ?_⟩, ?_⟩
  · simpa [ConcurrentMap.init] using hn
  · intro i
    show StdMap.WF ((List.replicate n ([] : List (Int × R))).getD i [])
    rw [hget]
    exact StdMap.WF_nil
  · intro i k hk
    change k ∈ StdMap.keys ((List.replicate n ([] : List (Int × R))).getD i []) at hk
    rw [hget] at hk
    simp [StdMap.keys] at hk
  · intro k
    show StdMap.find ((List.replicate n ([] : List (Int × R))).getD _ []) k = none
    rw [hget]
    rfl

theorem emplace_entries (l : List (Int × R)) :
    ∀ acc : List (Int × R), StdMap.WF acc →
      StdMap.WF (l.foldl (fun result entry => StdMap.emplace entry.1 entry.2 result) acc) ∧
        (∀ k v, StdMap.find
            (l.foldl (fun result entry => StdMap.emplace entry.1 entry.2 result) acc) k = some v →
          (k, v) ∈ l ∨ StdMap.find acc k = some v) ∧
        ∀ k, k ∈ StdMap.keys
            (l.foldl (fun result entry => StdMap.emplace entry.1 entry.2 result) acc) ↔
          k ∈ StdMap.keys l ∨ k ∈ StdMap.keys acc := by
  induction l with
  | nil =>
    intro acc h
    exact ⟨h, fun k v hf => Or.inr hf, fun k => by simp [StdMap.keys]⟩
  | cons e rest ih =>
    intro acc h
    obtain ⟨k0, v0⟩ := e
    have hwf : StdMap.WF (StdMap.emplace k0 v0 acc) := h.update _ _ _
    obtain ⟨i1, i2, i3⟩ := ih (StdMap.emplace k0 v0 acc) hwf
    refine ⟨i1, ?_, ?_⟩
    · intro k v hf
      rcases i2 k v hf with e | e
      · exact Or.inl (List.mem_cons_of_mem _ e)
      · unfold StdMap.emplace at e
        rw [StdMap.find_update h] at e
        by_cases hk : k = k0
        · subst hk
          rw [if_pos rfl] at e
          cases hacc : StdMap.find acc k with
          | none =>
            rw [hacc] at e
            simp only [Option.getD_none, id, Option.some.injEq] at e
            subst e
            exact Or.inl (List.mem_cons_self _ _)
          | some x =>
            rw [hacc] at e
            simp only [Option.getD_some, id, Option.some.injEq] at e
            subst e
            exact Or.inr rfl
        · rw [if_neg hk] at e
          exact Or.inr e
    · intro k
      rw [List.foldl_cons, i3 k]
      unfold StdMap.emplace
      rw [StdMap.mem_keys_update]
      simp only [StdMap.keys, List.map_cons, List.mem_cons]
      tauto

theorem emplace_buckets (bs : List (List (Int × R))) :
    ∀ acc : List (Int × R), StdMap.WF acc →
      StdMap.WF (bs.foldl (fun result bucket =>
          bucket.foldl (fun result entry => StdMap.emplace entry.1 entry.2 result) result) acc) ∧
        (∀ k v, StdMap.find (bs.foldl (fun result bucket =>
            bucket.foldl (fun result entry => StdMap.emplace entry.1 entry.2 result) result)
            acc) k = some v →
          (∃ b ∈ bs, (k, v) ∈ b) ∨ StdMap.find acc k = some v) ∧
        ∀ k, k ∈ StdMap.keys (bs.foldl (fun result bucket =>
            bucket.foldl (fun result entry => StdMap.emplace entry.1 entry.2 result) result)
            acc) ↔
          (∃ b ∈ bs, k ∈ StdMap.keys b) ∨ k ∈ StdMap.keys acc := by
  induction bs with
  | nil =>
    intro acc h
    exact ⟨h, fun k v hf => Or.inr hf, fun k => by simp⟩
  | cons b rest ih =>
    intro acc h
    obtain ⟨e1, e2, e3⟩ := emplace_entries b acc h
    obtain ⟨i1, i2, i3⟩ := ih _ e1
    refine ⟨i1, ?_, ?_⟩
    · intro k v hf
      rcases i2 k v hf with ⟨b', hb', hm⟩ | e
      · exact Or.inl ⟨b', List.mem_cons_of_mem _ hb', hm⟩
      · rcases e2 k v e with e' | e'
        · exact Or.inl ⟨b, List.mem_cons_self _ _, e'⟩
        · exact Or.inr e'
    · intro k
      rw [List.foldl_cons, i3 k, e3 k]
      constructor
      · rintro (⟨b', hb', hk⟩ | hk | hk)
        · exact Or.inl ⟨b', List.mem_cons_of_mem _ hb', hk⟩
        · exact Or.inl ⟨b, List.mem_cons_self _ _, hk⟩
        · exact Or.inr hk
      · rintro (⟨b', hb', hk⟩ | hk)
        · rcases List.mem_cons.1 hb' with e | e
          · subst e
            exact Or.inr (Or.inl hk)
          · exact Or.inl ⟨b', e, hk⟩
        · exact Or.inr (Or.inr hk)

theorem ConcurrentMap.Good.BuildOrdinaryMap {m : ConcurrentMap R} (h : m.Good) :
    StdMap.WF m.BuildOrdinaryMap ∧ ∀ k, StdMap.find m.BuildOrdinaryMap k = m.lookup k := by
  obtain ⟨w, f, ks⟩ := emplace_buckets m.buckets [] StdMap.WF_nil
  have hmem : ∀ b ∈ m.buckets, ∃ i, m.buckets.getD i [] = b := by
    intro b hb
    obtain ⟨i, hi, e⟩ := List.getElem_of_mem hb
    exact ⟨i, by rw [List.getD_eq_getElem _ _ hi, e]⟩
  have hin : ∀ i, m.buckets.getD i [] ≠ [] → m.buckets.getD i [] ∈ m.buckets := by
    intro i hne
    by_cases hi : i < m.buckets.length
    · rw [List.getD_eq_getElem _ _ hi]
      exact List.getElem_mem _
    · rw [List.getD_eq_default _ _ (not_lt.1 hi)] at hne
      exact absurd rfl hne
  have h1 : ∀ k v, StdMap.find m.BuildOrdinaryMap k = some v → m.lookup k = some v := by
    intro k v hf
    rcases f k v hf with ⟨b, hb, hm⟩ | e
    · obtain ⟨i, hi⟩ := hmem b hb
      have hk : k ∈ StdMap.keys (m.buckets.getD i []) := by
        rw [hi]
        exact StdMap.mem_keys_of_mem hm
      have hidx := h.owner i k hk
      unfold ConcurrentMap.lookup
      rw [hidx, hi]
      have hwf := h.wf i
      rw [hi] at hwf
      exact StdMap.find_of_mem hwf hm
    · simp [StdMap.find] at e
  refine ⟨w, ?_⟩
  intro k
  cases hl : m.lookup k with
  | none =>
    cases hf : StdMap.find m.BuildOrdinaryMap k with
    | none => rfl
    | some v =>
      rw [h1 k v hf] at hl
      cases hl
  | some v =>
    have hk : k ∈ StdMap.keys (m.buckets.getD (m.index k) []) :=
      StdMap.mem_keys_of_mem (StdMap.mem_of_find hl)
    have hne : m.buckets.getD (m.index k) [] ≠ [] := by
      intro e
      rw [e] at hk
      simp [StdMap.keys] at hk
    have hkb : k ∈ StdMap.keys m.BuildOrdinaryMap :=
      (ks k).2 (Or.inl ⟨_, hin _ hne, hk⟩)
    cases hf : StdMap.find m.BuildOrdinaryMap k with
    | none => exact absurd hkb ((StdMap.find_eq_none_iff _ _).1 hf)
    | some v' =>
      rw [h1 k v' hf] at hl
      exact hl

/-! ## The two phases of the parallel `FindAllDocuments` -/

theorem mem_keys_unindex_word (id : Int) (inverted : List (Word × List (Int × R)))
    (entry : Word × R) (w : Word) :
    w ∈ StdMap.keys (RemoveDocument.unindex_word id inverted entry) ↔
      w ∈ StdMap.keys inverted := by
  unfold RemoveDocument.unindex_word
  by_cases hc : StdMap.count inverted entry.1 = 0
  · simp only [hc, ne_eq, not_true_eq_false, if_false]
  · rw [if_pos hc, StdMap.mem_keys_update]
    have hk : entry.1 ∈ StdMap.keys inverted := by
      by_contra hn
      exact hc ((StdMap.count_eq_zero_iff _ _).2 hn)
    constructor
    · rintro (e | e)
      · rw [e]
        exact hk
      · exact e
    · exact fun e => Or.inr e

theorem mem_keys_foldl_unindex_word (id : Int) (w : Word) :
    ∀ (words : List (Word × R)) (inverted : List (Word × List (Int × R))),
      w ∈ StdMap.keys (words.foldl (RemoveDocument.unindex_word id) inverted) ↔
        w ∈ StdMap.keys inverted := by
  intro words
  induction words with
  | nil => intro inverted; rfl
  | cons entry rest ih =>
    intro inverted
    rw [List.foldl_cons, ih, mem_keys_unindex_word]

/-- `RemoveDocument` never removes a term from the inverted index. -/
theorem RemoveDocument_keeps_terms (s : Server R) (document_id : Int) (w : Word) :
    w ∈ StdMap.keys (RemoveDocument s document_id).2.word_to_document_freqs_ ↔
      w ∈ StdMap.keys s.word_to_document_freqs_ := by
  unfold RemoveDocument
  split
  · rfl
  · simp only
    split
    · rfl
    · simp only
      exact mem_keys_foldl_unindex_word document_id w _ _

theorem server_after_remove_reachable : Reachable (server_after_remove R) :=
  Reachable.remove 0 (Reachable.add 0 _ _ _ (Reachable.init []))

/-- When the destroyed text still shows its characters (`Reachable`): in every store
reached by `AddDocument` and `RemoveDocument` calls, calls that throw included, the
inverted index is the transpose of the forward index: the bucket of the term `w` maps the
id `d` to `f` exactly when `GetWordFrequencies(d)` maps `w` to `f`; and the ids with an
entry in the forward index are exactly the live ids. -/
theorem inverted_index_is_transpose {s : Server R} (hs : Reachable s) :
    (∀ (w : Word) (d : Int) (f : R),
      (∃ bucket, StdMap.find s.word_to_document_freqs_ w = some bucket ∧
          StdMap.find bucket d = some f) ↔
        StdMap.find (GetWordFrequencies s d) w = some f) ∧
      (∀ d, d ∈ StdMap.keys s.word_frequencies_ ↔ d ∈ live_ids s) := by
  have h := hs.inv
  refine ⟨?_, h.forward_keys⟩
  intro w d f
  rw [find_GetWordFrequencies, ← h.index.transpose w d]
  unfold inverted_entry
  cases hb : StdMap.find s.word_to_document_freqs_ w with
  | none => simp
  | some bucket => simp

/-! ## Queries with the same terms, and the two modes of `MatchDocument` -/

theorem stdUnique_of_nodup {α : Type} [DecidableEq α] :
    ∀ l : List α, l.Nodup → stdUnique l = l := by
  intro l
  induction l using stdUnique.induct with
  | case1 => intro _; rfl
  | case2 a => intro _; rfl
  | case3 a rest ih =>
    intro h
    exact absurd (List.mem_cons_self a rest) (List.nodup_cons.1 h).1
  | case4 a b rest hab ih =>
    intro h
    rw [stdUnique, if_neg hab, ih (List.nodup_cons.1 h).2]

theorem stdSort_lt_of_sorted {α : Type} [LinearOrder α] (l : List α)
    (h : l.Sorted (fun a b => a ≤ b)) : stdSort (fun a b => decide (a < b)) l = l := by
  rw [stdSort_lt_eq]
  exact List.Sorted.insertionSort_eq h

theorem stdUnique_stdSort_congr {α : Type} [LinearOrder α] [DecidableEq α] (l₁ l₂ : List α)
    (h : ∀ w, w ∈ l₁ ↔ w ∈ l₂) :
    stdUnique (stdSort (fun a b => decide (a < b)) l₁) =
      stdUnique (stdSort (fun a b => decide (a < b)) l₂) := by
  have s1 := sorted_stdUnique _ (sorted_stdSort_lt l₁)
  have s2 := sorted_stdUnique _ (sorted_stdSort_lt l₂)
  apply List.eq_of_perm_of_sorted ?_ s1 s2
  rw [List.perm_ext_iff_of_nodup s1.nodup s2.nodup]
  intro w
  rw [mem_stdUnique, mem_stdUnique, mem_stdSort, mem_stdSort, h w]

theorem FindTopDocuments_query_eq (s : Server R) (raw_query : List Char) (query : Query)
    (hq : ParseQuery s raw_query = .ok query) :
    FindTopDocuments.query s raw_query =
      .ok { plus_words := stdUnique (stdSort (fun a b => decide (a < b))
              (inclusion_terms s raw_query))
            minus_words := stdUnique (stdSort (fun a b => decide (a < b))
              (exclusion_terms s raw_query)) } := by
  obtain ⟨h1, h2⟩ := ParseQuery_ok s raw_query query hq
  unfold FindTopDocuments.query
  rw [hq]
  simp only [h1, h2]
  rfl

theorem example_queries_parse :
    ParseQuery example_server ['a', ' ', 'b', ' ', 'a'] =
        .ok { plus_words := [['a'], ['a'], ['b']], minus_words := [] } ∧
      ParseQuery example_server ['b', ' ', 'a'] =
        .ok { plus_words := [['a'], ['b']], minus_words := [] } ∧
      inclusion_terms example_server ['a', ' ', 'b', ' ', 'a'] = [['a'], ['b'], ['a']] ∧
      inclusion_terms example_server ['b', ' ', 'a'] = [['b'], ['a']] ∧
      exclusion_terms example_server ['a', ' ', 'b', ' ', 'a'] = [] ∧
      exclusion_terms example_server ['b', ' ', 'a'] = [] := by
  refine ⟨by decide, by decide, by decide, by decide, by decide, by decide⟩

theorem example_queries_same_terms :
    (∀ w, w ∈ inclusion_terms example_server ['a', ' ', 'b', ' ', 'a'] ↔
        w ∈ inclusion_terms example_server ['b', ' ', 'a']) ∧
      (∀ w, w ∈ exclusion_terms example_server ['a', ' ', 'b', ' ', 'a'] ↔
        w ∈ exclusion_terms example_server ['b', ' ', 'a']) := by
  obtain ⟨_, _, h3, h4, h5, h6⟩ := example_queries_parse
  rw [h3, h4, h5, h6]
  constructor
  · intro w
    simp only [List.mem_cons, List.mem_singleton, List.not_mem_nil, or_false]
    tauto
  · intro w
    rfl

/-! ## `RemoveDocument` and the text it has destroyed -/

theorem Intact.reachable {s : Server R} (h : Intact s) : Reachable s := by
  induction h with
  | init stop_words => exact Reachable.init stop_words
  | add document_id document status ratings _ ih => exact Reachable.add _ _ _ _ ih
  | remove document_id _ _ ih => exact Reachable.remove _ ih

/-- When the destroyed text still shows its characters, `RemoveDocumentRead` is
`RemoveDocument`. -/
theorem RemoveDocumentRead_id (s : Server R) (document_id : Int) :
    RemoveDocumentRead (fun word => word) s document_id = RemoveDocument s document_id :=
  rfl

theorem StdMap.keys_update_of_mem {K V : Type} [LinearOrder K] (k : K) (d : V) (f : V → V) :
    ∀ {m : List (K × V)}, StdMap.WF m → k ∈ StdMap.keys m →
      StdMap.keys (StdMap.update k d f m) = StdMap.keys m := by
  intro m
  induction m with
  | nil => intro _ hk; simp [StdMap.keys] at hk
  | cons p rest ih =>
    intro hm hk
    obtain ⟨k', v⟩ := p
    unfold StdMap.update
    by_cases h1 : k < k'
    · exfalso
      simp only [StdMap.keys, List.map_cons, List.mem_cons] at hk
      rcases hk with e | e
      · exact absurd (e ▸ h1) (lt_irrefl _)
      · exact absurd (lt_trans h1 (hm.head_lt e)) (lt_irrefl _)
    · rw [if_neg h1]
      by_cases h2 : k' < k
      · rw [if_pos h2]
        have hk' : k ∈ StdMap.keys rest := by
          simp only [StdMap.keys, List.map_cons, List.mem_cons] at hk
          rcases hk with e | e
          · exact absurd (e ▸ h2) (lt_irrefl _)
          · exact e
        simp only [StdMap.keys, List.map_cons]
        have := ih hm.tail hk'
        simp only [StdMap.keys] at this
        rw [this]
      · rw [if_neg h2]
        rfl

theorem keys_unindex_word_read (read : Word → Word) (id : Int)
    {inverted : List (Word × List (Int × R))} (hwf : StdMap.WF inverted) (entry : Word × R) :
    StdMap.keys (RemoveDocument.unindex_word_read read id inverted entry) =
      StdMap.keys inverted := by
  unfold RemoveDocument.unindex_word_read
  by_cases hc : StdMap.count inverted (read entry.1) = 0
  · simp only [hc, ne_eq, not_true_eq_false, if_false]
  · rw [if_pos hc]
    apply StdMap.keys_update_of_mem _ _ _ hwf
    by_contra hn
    exact hc ((StdMap.count_eq_zero_iff _ _).2 hn)

theorem keys_foldl_unindex_word_read (read : Word → Word) (id : Int) :
    ∀ (words : List (Word × R)) {inverted : List (Word × List (Int × R))},
      StdMap.WF inverted →
      StdMap.keys (words.foldl (RemoveDocument.unindex_word_read read id) inverted) =
        StdMap.keys inverted := by
  intro words
  induction words with
  | nil => intro inverted _; rfl
  | cons entry rest ih =>
    intro inverted hwf
    have hk := keys_unindex_word_read read id hwf entry
    have hwf' : StdMap.WF (RemoveDocument.unindex_word_read read id inverted entry) := by
      unfold StdMap.WF
      rw [hk]
      exact hwf
    rw [List.foldl_cons, ih hwf', hk]

/-- `RemoveDocumentRead` never throws on a state that satisfies the invariant, and what
it does to a live document. -/
theorem RemoveDocumentRead_eq (read : Word → Word) {s : Server R} (h : Inv s)
    (document_id : Int) :
    RemoveDocumentRead read s document_id =
      if document_id ∈ s.document_ids_ then
        (.ok (),
          { s with
            documents_ := StdMap.erase s.documents_ document_id
            document_ids_ := StdMap.setErase s.document_ids_ document_id
            word_to_document_freqs_ :=
              ((StdMap.find s.word_frequencies_ document_id).getD []).foldl
                (RemoveDocument.unindex_word_read read document_id) s.word_to_document_freqs_
            word_frequencies_ := StdMap.erase s.word_frequencies_ document_id })
      else (.ok (), s) := by
  unfold RemoveDocumentRead
  by_cases hl : document_id ∈ s.document_ids_
  · have hc : ¬ StdMap.setCount s.document_ids_ document_id = 0 := by
      rw [StdMap.setCount_eq_zero_iff]
      exact not_not.2 hl
    rw [if_neg hc, if_pos hl]
    have hk := (h.forward_keys document_id).2 hl
    cases hf : StdMap.find s.word_frequencies_ document_id with
    | none => exact absurd ((StdMap.find_eq_none_iff _ _).1 hf) (not_not.2 hk)
    | some words => simp [hf]
  · have hc : StdMap.setCount s.document_ids_ document_id = 0 :=
      (StdMap.setCount_eq_zero_iff _ _).2 hl
    rw [if_pos hc, if_neg hl]

/-- The loop of `RemoveDocumentRead` changes nothing when the destroyed text shows the
words of the document: it is the loop of `RemoveDocument`. -/
theorem foldl_unindex_word_read_congr (read : Word → Word) (id : Int) :
    ∀ (words : List (Word × R)) (inverted : List (Word × List (Int × R))),
      (∀ entry ∈ words, read entry.1 = entry.1) →
      words.foldl (RemoveDocument.unindex_word_read read id) inverted =
        words.foldl (RemoveDocument.unindex_word id) inverted := by
  intro words
  induction words with
  | nil => intro _ _; rfl
  | cons entry rest ih =>
    intro inverted h
    rw [List.foldl_cons, List.foldl_cons, ih _ (fun e he => h e (List.mem_cons_of_mem _ he))]
    congr 1
    unfold RemoveDocument.unindex_word_read RemoveDocument.unindex_word
    rw [h entry (List.mem_cons_self _ _)]

theorem RemoveDocumentRead_eq_RemoveDocument (read : Word → Word) {s : Server R} (h : Inv s)
    (document_id : Int)
    (hread : ∀ entry ∈ GetWordFrequencies s document_id, read entry.1 = entry.1) :
    RemoveDocumentRead read s document_id = RemoveDocument s document_id := by
  rw [RemoveDocumentRead_eq read h, RemoveDocument_eq h]
  by_cases hl : document_id ∈ s.document_ids_
  · rw [if_pos hl, if_pos hl]
    rw [foldl_unindex_word_read_congr read document_id _ _ (by
      rw [GetWordFrequencies_eq] at hread
      exact hread)]
  · rw [if_neg hl, if_neg hl]

/-- The loop of `RemoveDocumentRead` changes nothing when the destroyed text shows no
term of the inverted index. -/
theorem foldl_unindex_word_read_lost (read : Word → Word) (id : Int)
    (inverted : List (Word × List (Int × R))) :
    ∀ (words : List (Word × R)),
      (∀ entry ∈ words, read entry.1 ∉ StdMap.keys inverted) →
      words.foldl (RemoveDocument.unindex_word_read read id) inverted = inverted := by
  intro words
  induction words with
  | nil => intro _; rfl
  | cons entry rest ih =>
    intro h
    have hc : StdMap.count inverted (read entry.1) = 0 :=
      (StdMap.count_eq_zero_iff _ _).2 (h entry (List.mem_cons_self _ _))
    rw [List.foldl_cons]
    have : RemoveDocument.unindex_word_read read id inverted entry = inverted := by
      unfold RemoveDocument.unindex_word_read
      simp only [hc, ne_eq, not_true_eq_false, if_false]
    rw [this]
    exact ih (fun e he => h e (List.mem_cons_of_mem _ he))

/-! ## The server with two documents of the same long word -/

theorem SplitIntoWords_long_word : SplitIntoWords long_word = [long_word] := by decide

theorem IsValidWord_long_word : IsValidWord long_word = true := by decide

theorem two_documents_server_eq :
    two_documents_server R =
      { stop_words_ := []
        word_frequencies_ := [(0, [(long_word, 1)]), (1, [(long_word, 1)])]
        word_to_document_freqs_ := [(long_word, [(0, 1), (1, 1)])]
        documents_ :=
          [(0, { rating := 1, status := DocumentStatus.ACTUAL, text := long_word }),
            (1, { rating := 2, status := DocumentStatus.ACTUAL, text := long_word })]
        document_ids_ := [0, 1] } := by
  have key : ∀ word : Word, SplitIntoWords word = [word] → IsValidWord word = true →
      (AddDocument (AddDocument (Server.empty [] : Server R) 0 word DocumentStatus.ACTUAL [1]).2
        1 word DocumentStatus.ACTUAL [2]).2 =
      { stop_words_ := []
        word_frequencies_ := [(0, [(word, 1)]), (1, [(word, 1)])]
        word_to_document_freqs_ := [(word, [(0, 1), (1, 1)])]
        documents_ :=
          [(0, { rating := 1, status := DocumentStatus.ACTUAL, text := word }),
            (1, { rating := 2, status := DocumentStatus.ACTUAL, text := word })]
        document_ids_ := [0, 1] } := by
    intro word h1 h2
    simp [AddDocument, AddDocument.store_record, AddDocument.index_words,
      Server.empty, StdMap.count, StdMap.find, StdMap.emplace, StdMap.update,
      SplitIntoWordsNoStop, SplitIntoWordsNoStop.loop, AddDocument.index_word,
      StdMap.setInsert, ComputeAverageRating, wrap32, h1, h2, IsStopWord]
  exact key long_word SplitIntoWords_long_word IsValidWord_long_word

theorem server_after_lost_purge_eq :
    server_after_lost_purge R =
      { stop_words_ := []
        word_frequencies_ := [(0, [(long_word, 1)])]
        word_to_document_freqs_ := [(long_word, [(0, 1), (1, 1)])]
        documents_ := [(0, { rating := 1, status := DocumentStatus.ACTUAL, text := long_word })]
        document_ids_ := [0] } := by
  unfold server_after_lost_purge
  rw [two_documents_server_eq]
  simp [StdMap.erase, StdMap.setErase]

theorem two_documents_server_intact : Intact (two_documents_server R) :=
  Intact.add 1 _ _ _ (Intact.add 0 _ _ _ (Intact.init []))

/-- `RemoveDocument(1)` on the server with the two documents, when the destroyed text of
document 1 does not show the word any more: the call returns and the inverted index is
left as it was. -/
theorem RemoveDocumentRead_two_documents (read : Word → Word)
    (hread : read long_word ≠ long_word) :
    RemoveDocumentRead read (two_documents_server R) 1 = (.ok (), server_after_lost_purge R) := by
  have hinv : Inv (two_documents_server R) := two_documents_server_intact.reachable.inv
  have hlive : (1 : Int) ∈ (two_documents_server R).document_ids_ := by
    rw [two_documents_server_eq]
    simp
  rw [RemoveDocumentRead_eq read hinv, if_pos hlive, foldl_unindex_word_read_lost]
  · rfl
  · intro entry hentry
    rw [two_documents_server_eq] at hentry ⊢
    simp only [StdMap.find, Option.getD, List.mem_singleton, if_neg (show ¬ (0 : Int) = 1 by decide), if_true] at hentry
    rw [hentry]
    simpa [StdMap.keys] using hread

theorem ParseQuery_long_word (s : Server R) (h : s.stop_words_ = []) :
    ParseQuery s long_word = .ok { plus_words := [long_word], minus_words := [] } := by
  have key : ∀ word : Word, SplitIntoWords word = [word] → IsValidWord word = true →
      word ≠ [] → word.head? ≠ some '-' →
      ParseQuery s word = .ok { plus_words := [word], minus_words := [] } := by
    intro word h1 h2 h3 h4
    simp [ParseQuery, ParseQuery.loop, ParseQueryWord, h1, h2, h3, h4, IsStopWord, h, stdSort]
  exact key long_word SplitIntoWords_long_word IsValidWord_long_word (by decide) (by decide)

/-- After the lost purge the query for the word throws `out_of_range`: the bucket of the
word still holds id 1, and `documents_.at(1)` finds no record. -/
theorem FindAllDocuments_after_lost_purge (ln : R → R) (p : DocumentPredicate) :
    FindAllDocuments ln (server_after_lost_purge R)
      { plus_words := [long_word], minus_words := [] } p = .error Exn.out_of_range := by
  rw [server_after_lost_purge_eq]
  by_cases hp : p 0 DocumentStatus.ACTUAL 1 = true <;>
  simp [FindAllDocuments, FindAllDocuments.plus_loop, StdMap.count, StdMap.find,
    ComputeWordInverseDocumentFreq, FindAllDocuments.add_word, hp]

theorem FindTopDocumentsSort_after_lost_purge (sort : List (Document R) → List (Document R))
    (ln : R → R) (p : DocumentPredicate) :
    FindTopDocumentsSort sort ln (server_after_lost_purge R) long_word p =
      .error Exn.out_of_range := by
  unfold FindTopDocumentsSort FindTopDocuments.query
  rw [ParseQuery_long_word _ (by rw [server_after_lost_purge_eq])]
  simp only [stdUnique]
  rw [FindAllDocuments_after_lost_purge]

theorem FindTopDocuments_after_lost_purge (ln : R → R) (p : DocumentPredicate) :
    FindTopDocuments ln (server_after_lost_purge R) long_word p = .error Exn.out_of_range :=
  FindTopDocumentsSort_after_lost_purge (stdSort FindTopDocuments.comp) ln p

/-! ## The arrangement made by `std::sort` -/

theorem eq_of_perm_of_pairwise {α : Type} (r : α → α → Prop) :
    ∀ {a b : List α}, a.Perm b → a.Pairwise r → b.Pairwise r →
      (∀ x ∈ a, ∀ y ∈ a, r x y → r y x → x = y) → a = b := by
  intro a
  induction a with
  | nil =>
    intro b hp _ _ _
    exact (List.nil_perm.1 hp).symm
  | cons x a' ih =>
    intro b hp ha hb hanti
    cases b with
    | nil => exact absurd (List.perm_nil.1 hp) (List.cons_ne_nil _ _)
    | cons y b' =>
      have hxy : x = y := by
        by_contra hne
        have hy : y ∈ a' := by
          have : y ∈ x :: a' := hp.mem_iff.2 (List.mem_cons_self _ _)
          rcases List.mem_cons.1 this with e | e
          · exact absurd e.symm hne
          · exact e
        have hx : x ∈ b' := by
          have : x ∈ y :: b' := hp.mem_iff.1 (List.mem_cons_self _ _)
          rcases List.mem_cons.1 this with e | e
          · exact absurd e hne
          · exact e
        exact hne (hanti x (List.mem_cons_self _ _) y (List.mem_cons_of_mem _ hy)
          ((List.pairwise_cons.1 ha).1 y hy) ((List.pairwise_cons.1 hb).1 x hx))
      subst hxy
      rw [ih (List.Perm.cons_inv hp) (List.pairwise_cons.1 ha).2 (List.pairwise_cons.1 hb).2
        (fun u hu v hv => hanti u (List.mem_cons_of_mem _ hu) v (List.mem_cons_of_mem _ hv))]

/-- Where the comparator orders every two different elements, the library has no choice:
two arrangements that `std::sort` may return are equal. -/
theorem IsSortedBy.arrangement_unique {α : Type} (comp : α → α → Bool) {l a b : List α}
    (htotal : ∀ x ∈ l, ∀ y ∈ l, x ≠ y → comp x y = true ∨ comp y x = true)
    (ha : IsSortedBy comp l a) (hb : IsSortedBy comp l b) : a = b := by
  apply eq_of_perm_of_pairwise (fun x y => comp y x = false) (ha.1.trans hb.1.symm) ha.2 hb.2
  intro x hx y hy h1 h2
  by_contra hne
  rcases htotal x (ha.1.mem_iff.1 hx) y (ha.1.mem_iff.1 hy) hne with e | e
  · rw [e] at h2
    exact Bool.noConfusion h2
  · rw [e] at h1
    exact Bool.noConfusion h1

theorem take_of_ite_length {α : Type} (l : List α) :
    (if l.length > MAX_RESULT_DOCUMENT_COUNT then
        (Except.ok (l.take MAX_RESULT_DOCUMENT_COUNT) : Except Exn (List α))
      else .ok l) = .ok (l.take MAX_RESULT_DOCUMENT_COUNT) := by
  split
  · rfl
  · rename_i hlen
    rw [List.take_of_length_le (not_lt.1 hlen)]

theorem FindTopDocuments_eq_Sort (ln : R → R) (s : Server R) (raw_query : List Char)
    (p : DocumentPredicate) :
    FindTopDocuments ln s raw_query p =
      FindTopDocumentsSort (stdSort FindTopDocuments.comp) ln s raw_query p :=
  rfl

/-- On a state that satisfies the invariant, `FindTopDocuments` returns for every query
that parses, whatever arrangement the library makes: the documents computed by
`FindAllDocuments`, arranged and cut to five. -/
theorem FindTopDocumentsSort_ok (sort : List (Document R) → List (Document R)) (ln : R → R)
    {s : Server R} (h : Inv s) (raw_query : List Char)
    (query : Query) (hq : ParseQuery s raw_query = .ok query) (p : DocumentPredicate) :
    ∃ all : List (Document R),
      FindAllDocuments ln s
        { plus_words := stdUnique query.plus_words, minus_words := stdUnique query.minus_words }
        p = .ok all ∧
      (all.map Document.id).Nodup ∧
      (∀ d, d ∈ all.map Document.id ↔ qualifies s query p d = true) ∧
      all.length = ((live_ids s).filter (fun d => qualifies s query p d)).length ∧
      FindTopDocumentsSort sort ln s raw_query p =
        .ok ((sort all).take MAX_RESULT_DOCUMENT_COUNT) := by
  obtain ⟨all, h1, h2, h3, _⟩ := FindTopDocuments_ok ln h raw_query query hq p
  have hlen : all.length = ((live_ids s).filter (fun d => qualifies s query p d)).length := by
    have hperm : (all.map Document.id).Perm
        ((live_ids s).filter (fun d => qualifies s query p d)) := by
      have hnd : ((live_ids s).filter (fun d => qualifies s query p d)).Nodup :=
        List.Nodup.filter _ h.ids_sorted.nodup
      rw [List.perm_ext_iff_of_nodup h2 hnd]
      intro d
      rw [h3 d, List.mem_filter]
      constructor
      · intro hd
        exact ⟨((qualifies_iff s query p d).1 hd).1, hd⟩
      · exact fun hd => hd.2
    rw [← hperm.length_eq, List.length_map]
  refine ⟨all, h1, h2, h3, hlen, ?_⟩
  unfold FindTopDocumentsSort FindTopDocuments.query
  rw [hq]
  simp only
  rw [h1]
  exact take_of_ite_length _

theorem six_documents_server_intact : Intact (six_documents_server R) :=
  Intact.add 5 _ _ _ (Intact.add 4 _ _ _ (Intact.add 3 _ _ _ (Intact.add 2 _ _ _
    (Intact.add 1 _ _ _ (Intact.add 0 _ _ _ (Intact.init []))))))

theorem six_documents_server_eq :
    six_documents_server R =
      ({ stop_words_ := []
         word_frequencies_ :=
           [(0, [(['a'], 1)]), (1, [(['a'], 1)]), (2, [(['a'], 1)]), (3, [(['a'], 1)]),
            (4, [(['a'], 1)]), (5, [(['a'], 1)])]
         word_to_document_freqs_ := [(['a'], [(0, 1), (1, 1), (2, 1), (3, 1), (4, 1), (5, 1)])]
         documents_ :=
           [(0, { rating := 1, status := DocumentStatus.ACTUAL, text := ['a'] }),
            (1, { rating := 2, status := DocumentStatus.ACTUAL, text := ['a'] }),
            (2, { rating := 3, status := DocumentStatus.ACTUAL, text := ['a'] }),
            (3, { rating := 4, status := DocumentStatus.ACTUAL, text := ['a'] }),
            (4, { rating := 5, status := DocumentStatus.ACTUAL, text := ['a'] }),
            (5, { rating := 6, status := DocumentStatus.ACTUAL, text := ['a'] })]
         document_ids_ := [0, 1, 2, 3, 4, 5] } : Server R) := by
  have h0 :
      (AddDocument
        (Server.empty [] : Server R)
        0 ['a'] DocumentStatus.ACTUAL [1]).2 =
        ({ stop_words_ := []
           word_frequencies_ :=
             [(0, [(['a'], 1)])]
           word_to_document_freqs_ := [(['a'], [(0, 1)])]
           documents_ :=
             [(0, { rating := 1, status := DocumentStatus.ACTUAL, text := ['a'] })]
           document_ids_ := [0] } : Server R) := by
    simp [AddDocument, AddDocument.store_record, AddDocument.index_words,
      Server.empty, StdMap.count, StdMap.find, StdMap.emplace, StdMap.update,
      SplitIntoWordsNoStop, SplitIntoWordsNoStop.loop, AddDocument.index_word,
      StdMap.setInsert, ComputeAverageRating, wrap32, SplitIntoWords, SplitIntoWords.loop,
      IsValidWord, IsStopWord]
  have h1 :
      (AddDocument
        ({ stop_words_ := []
           word_frequencies_ :=
             [(0, [(['a'], 1)])]
           word_to_document_freqs_ := [(['a'], [(0, 1)])]
           documents_ :=
             [(0, { rating := 1, status := DocumentStatus.ACTUAL, text := ['a'] })]
           document_ids_ := [0] } : Server R)
        1 ['a'] DocumentStatus.ACTUAL [2]).2 =
        ({ stop_words_ := []
           word_frequencies_ :=
             [(0, [(['a'], 1)]), (1, [(['a'], 1)])]
           word_to_document_freqs_ := [(['a'], [(0, 1), (1, 1)])]
           documents_ :=
             [(0, { rating := 1, status := DocumentStatus.ACTUAL, text := ['a'] }),
              (1, { rating := 2, status := DocumentStatus.ACTUAL, text := ['a'] })]
           document_ids_ := [0, 1] } : Server R) := by
    simp [AddDocument, AddDocument.store_record, AddDocument.index_words,
      Server.empty, StdMap.count, StdMap.find, StdMap.emplace, StdMap.update,
      SplitIntoWordsNoStop, SplitIntoWordsNoStop.loop, AddDocument.index_word,
      StdMap.setInsert, ComputeAverageRating, wrap32, SplitIntoWords, SplitIntoWords.loop,
      IsValidWord, IsStopWord]
  have h2 :
      (AddDocument
        ({ stop_words_ := []
           word_frequencies_ :=
             [(0, [(['a'], 1)]), (1, [(['a'], 1)])]
           word_to_document_freqs_ := [(['a'], [(0, 1), (1, 1)])]
           documents_ :=
             [(0, { rating := 1, status := DocumentStatus.ACTUAL, text := ['a'] }),
              (1, { rating := 2, status := DocumentStatus.ACTUAL, text := ['a'] })]
           document_ids_ := [0, 1] } : Server R)
        2 ['a'] DocumentStatus.ACTUAL [3]).2 =
        ({ stop_words_ := []
           word_frequencies_ :=
             [(0, [(['a'], 1)]), (1, [(['a'], 1)]), (2, [(['a'], 1)])]
           word_to_document_freqs_ := [(['a'], [(0, 1), (1, 1), (2, 1)])]
           documents_ :=
             [(0, { rating := 1, status := DocumentStatus.ACTUAL, text := ['a'] }),
              (1, { rating := 2, status := DocumentStatus.ACTUAL, text := ['a'] }),
              (2, { rating := 3, status := DocumentStatus.ACTUAL, text := ['a'] })]
           document_ids_ := [0, 1, 2] } : Server R) := by
    simp [AddDocument, AddDocument.store_record, AddDocument.index_words,
      Server.empty, StdMap.count, StdMap.find, StdMap.emplace, StdMap.update,
      SplitIntoWordsNoStop, SplitIntoWordsNoStop.loop, AddDocument.index_word,
      StdMap.setInsert, ComputeAverageRating, wrap32, SplitIntoWords, SplitIntoWords.loop,
      IsValidWord, IsStopWord]
  have h3 :
      (AddDocument
        ({ stop_words_ := []
           word_frequencies_ :=
             [(0, [(['a'], 1)]), (1, [(['a'], 1)]), (2, [(['a'], 1)])]
           word_to_document_freqs_ := [(['a'], [(0, 1), (1, 1), (2, 1)])]
           documents_ :=
             [(0, { rating := 1, status := DocumentStatus.ACTUAL, text := ['a'] }),
              (1, { rating := 2, status := DocumentStatus.ACTUAL, text := ['a'] }),
              (2, { rating := 3, status := DocumentStatus.ACTUAL, text := ['a'] })]
           document_ids_ := [0, 1, 2] } : Server R)
        3 ['a'] DocumentStatus.ACTUAL [4]).2 =
        ({ stop_words_ := []
           word_frequencies_ :=
             [(0, [(['a'], 1)]), (1, [(['a'], 1)]), (2, [(['a'], 1)]), (3, [(['a'], 1)])]
           word_to_document_freqs_ := [(['a'], [(0, 1), (1, 1), (2, 1), (3, 1)])]
           documents_ :=
             [(0, { rating := 1, status := DocumentStatus.ACTUAL, text := ['a'] }),
              (1, { rating := 2, status := DocumentStatus.ACTUAL, text := ['a'] }),
              (2, { rating := 3, status := DocumentStatus.ACTUAL, text := ['a'] }),
              (3, { rating := 4, status := DocumentStatus.ACTUAL, text := ['a'] })]
           document_ids_ := [0, 1, 2, 3] } : Server R) := by
    simp [AddDocument, AddDocument.store_record, AddDocument.index_words,
      Server.empty, StdMap.count, StdMap.find, StdMap.emplace, StdMap.update,
      SplitIntoWordsNoStop, SplitIntoWordsNoStop.loop, AddDocument.index_word,
      StdMap.setInsert, ComputeAverageRating, wrap32, SplitIntoWords, SplitIntoWords.loop,
      IsValidWord, IsStopWord]
  have h4 :
      (AddDocument
        ({ stop_words_ := []
           word_frequencies_ :=
             [(0, [(['a'], 1)]), (1, [(['a'], 1)]), (2, [(['a'], 1)]), (3, [(['a'], 1)])]
           word_to_document_freqs_ := [(['a'], [(0, 1), (1, 1), (2, 1), (3, 1)])]
           documents_ :=
             [(0, { rating := 1, status := DocumentStatus.ACTUAL, text := ['a'] }),
              (1, { rating := 2, status := DocumentStatus.ACTUAL, text := ['a'] }),
              (2, { rating := 3, status := DocumentStatus.ACTUAL, text := ['a'] }),
              (3, { rating := 4, status := DocumentStatus.ACTUAL, text := ['a'] })]
           document_ids_ := [0, 1, 2, 3] } : Server R)
        4 ['a'] DocumentStatus.ACTUAL [5]).2 =
        ({ stop_words_ := []
           word_frequencies_ :=
             [(0, [(['a'], 1)]), (1, [(['a'], 1)]), (2, [(['a'], 1)]), (3, [(['a'], 1)]),
              (4, [(['a'], 1)])]
           word_to_document_freqs_ := [(['a'], [(0, 1), (1, 1), (2, 1), (3, 1), (4, 1)])]
           documents_ :=
             [(0, { rating := 1, status := DocumentStatus.ACTUAL, text := ['a'] }),
              (1, { rating := 2, status := DocumentStatus.ACTUAL, text := ['a'] }),
              (2, { rating := 3, status := DocumentStatus.ACTUAL, text := ['a'] }),
              (3, { rating := 4, status := DocumentStatus.ACTUAL, text := ['a'] }),
              (4, { rating := 5, status := DocumentStatus.ACTUAL, text := ['a'] })]
           document_ids_ := [0, 1, 2, 3, 4] } : Server R) := by
    simp [AddDocument, AddDocument.store_record, AddDocument.index_words,
      Server.empty, StdMap.count, StdMap.find, StdMap.emplace, StdMap.update,
      SplitIntoWordsNoStop, SplitIntoWordsNoStop.loop, AddDocument.index_word,
      StdMap.setInsert, ComputeAverageRating, wrap32, SplitIntoWords, SplitIntoWords.loop,
      IsValidWord, IsStopWord]
  have h5 :
      (AddDocument
        ({ stop_words_ := []
           word_frequencies_ :=
             [(0, [(['a'], 1)]), (1, [(['a'], 1)]), (2, [(['a'], 1)]), (3, [(['a'], 1)]),
              (4, [(['a'], 1)])]
           word_to_document_freqs_ := [(['a'], [(0, 1), (1, 1), (2, 1), (3, 1), (4, 1)])]
           documents_ :=
             [(0, { rating := 1, status := DocumentStatus.ACTUAL, text := ['a'] }),
              (1, { rating := 2, status := DocumentStatus.ACTUAL, text := ['a'] }),
              (2, { rating := 3, status := DocumentStatus.ACTUAL, text := ['a'] }),
              (3, { rating := 4, status := DocumentStatus.ACTUAL, text := ['a'] }),
              (4, { rating := 5, status := DocumentStatus.ACTUAL, text := ['a'] })]
           document_ids_ := [0, 1, 2, 3, 4] } : Server R)
        5 ['a'] DocumentStatus.ACTUAL [6]).2 =
        ({ stop_words_ := []
           word_frequencies_ :=
             [(0, [(['a'], 1)]), (1, [(['a'], 1)]), (2, [(['a'], 1)]), (3, [(['a'], 1)]),
              (4, [(['a'], 1)]), (5, [(['a'], 1)])]
           word_to_document_freqs_ := [(['a'], [(0, 1), (1, 1), (2, 1), (3, 1), (4, 1), (5, 1)])]
           documents_ :=
             [(0, { rating := 1, status := DocumentStatus.ACTUAL, text := ['a'] }),
              (1, { rating := 2, status := DocumentStatus.ACTUAL, text := ['a'] }),
              (2, { rating := 3, status := DocumentStatus.ACTUAL, text := ['a'] }),
              (3, { rating := 4, status := DocumentStatus.ACTUAL, text := ['a'] }),
              (4, { rating := 5, status := DocumentStatus.ACTUAL, text := ['a'] }),
              (5, { rating := 6, status := DocumentStatus.ACTUAL, text := ['a'] })]
           document_ids_ := [0, 1, 2, 3, 4, 5] } : Server R) := by
    simp [AddDocument, AddDocument.store_record, AddDocument.index_words,
      Server.empty, StdMap.count, StdMap.find, StdMap.emplace, StdMap.update,
      SplitIntoWordsNoStop, SplitIntoWordsNoStop.loop, AddDocument.index_word,
      StdMap.setInsert, ComputeAverageRating, wrap32, SplitIntoWords, SplitIntoWords.loop,
      IsValidWord, IsStopWord]
  unfold six_documents_server
  rw [h0, h1, h2, h3, h4, h5]

theorem six_documents_query :
    ParseQuery (six_documents_server R) ['a'] =
      .ok { plus_words := [['a']], minus_words := [] } := by
  rw [six_documents_server_eq]
  simp [ParseQuery, ParseQuery.loop, ParseQueryWord, SplitIntoWords, SplitIntoWords.loop,
    IsValidWord, IsStopWord, stdSort]

theorem six_documents_all (ln : R → R) :
    FindAllDocuments ln (six_documents_server R)
      { plus_words := stdUnique [['a']], minus_words := stdUnique [] } (fun _ _ _ => true) =
      .ok (six_documents ln) := by
  rw [six_documents_server_eq]
  simp [FindAllDocuments, FindAllDocuments.plus_loop, StdMap.count, StdMap.find,
    ComputeWordInverseDocumentFreq, FindAllDocuments.add_word, FindAllDocuments.minus_loop,
    FindAllDocuments.minus_words_loop, FindAllDocuments.collect, GetDocumentCount,
    StdMap.size, StdMap.update, stdUnique, six_documents]

theorem FindTopDocuments.comp_same_relevance (a b : Document R)
    (h : a.relevance = b.relevance) :
    FindTopDocuments.comp a b = decide (a.rating > b.rating) := by
  unfold FindTopDocuments.comp
  rw [h, sub_self, abs_zero, if_pos]
  unfold MAX_DIFFERENCE
  positivity

/-- The six documents by descending rating, ids 5, 4, 3, 2, 1, 0, are an arrangement
that `std::sort` may return. -/
theorem six_documents_reverse_sorted (ln : R → R) :
    IsSortedBy FindTopDocuments.comp (six_documents ln) (six_documents ln).reverse := by
  refine ⟨List.reverse_perm _, ?_⟩
  simp [six_documents, FindTopDocuments.comp, MAX_DIFFERENCE]

/-- The comparator orders every two different documents of the six. -/
theorem six_documents_ordered (ln : R → R) :
    ∀ x ∈ six_documents ln, ∀ y ∈ six_documents ln, x ≠ y →
      FindTopDocuments.comp x y = true ∨ FindTopDocuments.comp y x = true := by
  intro x hx y hy hne
  have hrel : ∀ z ∈ six_documents ln, z.relevance = ln 1 := by
    intro z hz
    simp only [six_documents, List.mem_cons, List.mem_singleton, List.not_mem_nil,
      or_false] at hz
    rcases hz with e | e | e | e | e | e <;> rw [e]
  rw [FindTopDocuments.comp_same_relevance x y ((hrel x hx).trans (hrel y hy).symm),
    FindTopDocuments.comp_same_relevance y x ((hrel y hy).trans (hrel x hx).symm)]
  simp only [six_documents, List.mem_cons, List.mem_singleton, List.not_mem_nil,
    or_false] at hx hy
  rcases hx with e | e | e | e | e | e <;> rcases hy with e' | e' | e' | e' | e' | e' <;>
    first
      | exact absurd (e.trans e'.symm) hne
      | (rw [e, e']; simp)

/-- The comparator leaves the library no choice for the six documents: the only
arrangement that `std::sort` may return is by descending rating, ids 5, 4, 3, 2, 1, 0. -/
theorem six_documents_sorted (ln : R → R) (sorted : List (Document R))
    (h : IsSortedBy FindTopDocuments.comp (six_documents ln) sorted) :
    sorted = (six_documents ln).reverse :=
  IsSortedBy.arrangement_unique FindTopDocuments.comp (six_documents_ordered ln) h
    (six_documents_reverse_sorted ln)

/-- The insertion sort returns that arrangement. -/
theorem six_documents_stdSort (ln : R → R) :
    stdSort FindTopDocuments.comp (six_documents ln) = (six_documents ln).reverse := by
  simp [six_documents, stdSort, FindTopDocuments.comp, MAX_DIFFERENCE]

theorem six_documents_top (ln : R → R) (sort : List (Document R) → List (Document R))
    (hsort : IsSortedBy FindTopDocuments.comp (six_documents ln) (sort (six_documents ln))) :
    FindTopDocumentsSort sort ln (six_documents_server R) ['a'] (fun _ _ _ => true) =
      .ok [{ id := 5, relevance := ln 1, rating := 6 },
        { id := 4, relevance := ln 1, rating := 5 }, { id := 3, relevance := ln 1, rating := 4 },
        { id := 2, relevance := ln 1, rating := 3 },
        { id := 1, relevance := ln 1, rating := 2 }] := by
  obtain ⟨all, h1, _, _, _, h5⟩ := FindTopDocumentsSort_ok sort ln
    six_documents_server_intact.reachable.inv ['a'] _ six_documents_query (fun _ _ _ => true)
  rw [six_documents_all] at h1
  cases h1
  rw [h5, six_documents_sorted ln _ hsort]
  rfl

theorem server_after_lost_purge_facts :
    live_ids (server_after_lost_purge R) = [0] ∧
      GetDocumentCount (server_after_lost_purge R) = 1 ∧
      GetWordFrequencies (server_after_lost_purge R) 0 = [(long_word, 1)] ∧
      GetWordFrequencies (server_after_lost_purge R) 1 = [] ∧
      StdMap.find (server_after_lost_purge R).word_to_document_freqs_ long_word =
        some [(0, 1), (1, 1)] ∧
      accepts (server_after_lost_purge R) (fun _ _ _ => true) 0 = true := by
  rw [server_after_lost_purge_eq]
  simp [live_ids, GetDocumentCount, StdMap.size, GetWordFrequencies, StdMap.count, StdMap.find,
    accepts]

theorem server_after_lost_purge_qualifies :
    (live_ids (server_after_lost_purge R)).filter
        (fun d => qualifies (server_after_lost_purge R)
          { plus_words := [long_word], minus_words := [] } (fun _ _ _ => true) d) = [0] := by
  rw [server_after_lost_purge_eq]
  simp [live_ids, qualifies, accepts, contains_word, GetWordFrequencies, StdMap.count,
    StdMap.find, StdMap.keys]

theorem mem_keys_unindex_word_read (read : Word → Word) (id : Int)
    (inverted : List (Word × List (Int × R))) (entry : Word × R) (w : Word) :
    w ∈ StdMap.keys (RemoveDocument.unindex_word_read read id inverted entry) ↔
      w ∈ StdMap.keys inverted := by
  unfold RemoveDocument.unindex_word_read
  by_cases hc : StdMap.count inverted (read entry.1) = 0
  · simp only [hc, ne_eq, not_true_eq_false, if_false]
  · rw [if_pos hc, StdMap.mem_keys_update]
    have hk : read entry.1 ∈ StdMap.keys inverted := by
      by_contra hn
      exact hc ((StdMap.count_eq_zero_iff _ _).2 hn)
    constructor
    · rintro (e | e)
      · rw [e]
        exact hk
      · exact e
    · exact fun e => Or.inr e

theorem mem_keys_foldl_unindex_word_read (read : Word → Word) (id : Int) (w : Word) :
    ∀ (words : List (Word × R)) (inverted : List (Word × List (Int × R))),
      w ∈ StdMap.keys (words.foldl (RemoveDocument.unindex_word_read read id) inverted) ↔
        w ∈ StdMap.keys inverted := by
  intro words
  induction words with
  | nil => intro inverted; rfl
  | cons entry rest ih =>
    intro inverted
    rw [List.foldl_cons, ih, mem_keys_unindex_word_read]

/-- `RemoveDocument` never removes a term from the inverted index, whatever the destroyed
text shows. -/
theorem RemoveDocumentRead_keeps_terms (read : Word → Word) (s : Server R)
    (document_id : Int) (w : Word) :
    w ∈ StdMap.keys (RemoveDocumentRead read s document_id).2.word_to_document_freqs_ ↔
      w ∈ StdMap.keys s.word_to_document_freqs_ := by
  unfold RemoveDocumentRead
  split
  · rfl
  · simp only
    split
    · rfl
    · simp only
      exact mem_keys_foldl_unindex_word_read read document_id w _ _

/-- `RemoveDocument` leaves the number of entries of a well-formed inverted index as it
is, whatever the destroyed text shows. -/
theorem RemoveDocumentRead_keeps_size (read : Word → Word) (s : Server R)
    (hwf : StdMap.WF s.word_to_document_freqs_) (document_id : Int) :
    StdMap.size (RemoveDocumentRead read s document_id).2.word_to_document_freqs_ =
      StdMap.size s.word_to_document_freqs_ := by
  have hkeys : StdMap.keys (RemoveDocumentRead read s document_id).2.word_to_document_freqs_ =
      StdMap.keys s.word_to_document_freqs_ := by
    unfold RemoveDocumentRead
    split
    · rfl
    · simp only
      split
      · rfl
      · simp only
        exact keys_foldl_unindex_word_read read document_id _ hwf
  have := congrArg List.length hkeys
  simpa [StdMap.keys, StdMap.size] using this

/-- What `RemoveDocument` does to a live document of an intact store, whatever the
destroyed text shows. -/
theorem RemoveDocumentRead_live (read : Word → Word) {s : Server R} (hs : Intact s)
    (document_id : Int) (hlive : document_id ∈ live_ids s) :
    (RemoveDocumentRead read s document_id).1 = .ok () ∧
      GetWordFrequencies (RemoveDocumentRead read s document_id).2 document_id = [] ∧
      GetDocumentCount (RemoveDocumentRead read s document_id).2 + 1 = GetDocumentCount s ∧
      document_id ∉ live_ids (RemoveDocumentRead read s document_id).2 := by
  have hinv := hs.reachable.inv
  have hlive' : document_id ∈ s.document_ids_ := hlive
  rw [RemoveDocumentRead_eq read hinv, if_pos hlive']
  refine ⟨rfl, ?_, ?_, ?_⟩
  · rw [GetWordFrequencies_eq]
    have : StdMap.find (StdMap.erase s.word_frequencies_ document_id) document_id = none := by
      rw [StdMap.find_eq_none_iff, StdMap.mem_keys_erase]
      exact fun h => h.2 rfl
    simp only [this]
    rfl
  · exact StdMap.length_erase hinv.index.documents_wf (hinv.ids_documents _ hlive')
  · simp [live_ids, StdMap.mem_setErase]

/-! ## The claims -/

/-- C1 (the code at the failing input): as long as no `RemoveDocument` call has read
destroyed text (`Intact`), for every query that parses, every predicate and every
arrangement `sort` that the library makes of the matched documents, `FindAllDocuments`
produces exactly the live documents that the predicate accepts, that contain at least one
inclusion term and that contain no exclusion term, each id once, and `FindTopDocuments`
returns only documents of that list.  After `AddDocument(0, w)`, `AddDocument(1, w)` with
the 16-character word `w` and `RemoveDocument(1)`, when the destroyed text of document 1
does not show `w` any more, the call has returned and left id 1 in the bucket of `w`; in
that state document 0 is live, accepted and contains `w`, the only inclusion term of the
query `w`, but `FindAllDocuments` and `FindTopDocuments` throw `out_of_range` and produce
no document. -/
theorem C1_scoring_throws_after_lost_purge :
    (∀ (ln : R → R) (s : Server R) (raw_query : List Char) (query : Query)
        (p : DocumentPredicate) (sort : List (Document R) → List (Document R)),
        Intact s → ParseQuery s raw_query = .ok query → (∀ l, (sort l).Perm l) →
        ∃ all top : List (Document R),
          FindAllDocuments ln s
            { plus_words := stdUnique query.plus_words
              minus_words := stdUnique query.minus_words } p = .ok all ∧
          (∀ d : Int, d ∈ all.map Document.id ↔
            (d ∈ live_ids s ∧ accepts s p d = true ∧
              (∃ w ∈ query.plus_words, contains_word s d w = true) ∧
              ∀ w ∈ query.minus_words, contains_word s d w = false)) ∧
          (all.map Document.id).Nodup ∧
          FindTopDocumentsSort sort ln s raw_query p = .ok top ∧
          ∀ x ∈ top, x ∈ all) ∧
      Intact (two_documents_server R) ∧
      (∀ read : Word → Word, read long_word ≠ long_word →
        RemoveDocumentRead read (two_documents_server R) 1 =
          (.ok (), server_after_lost_purge R)) ∧
      ParseQuery (server_after_lost_purge R) long_word =
        .ok { plus_words := [long_word], minus_words := [] } ∧
      (0 : Int) ∈ live_ids (server_after_lost_purge R) ∧
      accepts (server_after_lost_purge R) (fun _ _ _ => true) 0 = true ∧
      contains_word (server_after_lost_purge R) 0 long_word = true ∧
      (∀ (ln : R → R) (p : DocumentPredicate),
        FindAllDocuments ln (server_after_lost_purge R)
          { plus_words := stdUnique [long_word], minus_words := stdUnique [] } p =
          .error Exn.out_of_range) ∧
      (∀ (ln : R → R) (p : DocumentPredicate),
        FindTopDocuments ln (server_after_lost_purge R) long_word p =
          .error Exn.out_of_range) := by
  refine ⟨?_, two_documents_server_intact, RemoveDocumentRead_two_documents,
    ParseQuery_long_word _ (by rw [server_after_lost_purge_eq]), ?_,
    server_after_lost_purge_facts.2.2.2.2.2, ?_,
    fun ln p => FindAllDocuments_after_lost_purge ln p,
    fun ln p => FindTopDocuments_after_lost_purge ln p⟩
  · intro ln s raw_query query p sort hs hq hsort
    obtain ⟨all, h1, h2, h3, _, h5⟩ :=
      FindTopDocumentsSort_ok sort ln hs.reachable.inv raw_query query hq p
    refine ⟨all, _, h1, ?_, h2, h5, ?_⟩
    · intro d
      rw [h3 d, qualifies_iff]
    · intro x hx
      exact (hsort all).mem_iff.1 (List.mem_of_mem_take hx)
  · rw [server_after_lost_purge_facts.1]
    exact List.mem_singleton_self _
  · unfold contains_word
    rw [server_after_lost_purge_facts.2.2.1]
    simp [StdMap.keys]

/-- C2 (the code at the failing input): after the failing call
`AddDocument(1, "a\tb", ...)` and the successful call `AddDocument(0, "cat", ...)` there
is one live document, it contains `cat` with frequency 1, so the relevance claimed for
the query `cat` is `1 * ln(1 / 1) = 0`; `FindTopDocuments` reports `ln 2`, because
`GetDocumentCount` also counts the record left by the failed call. -/
theorem C2_relevance_counts_record_of_failed_add :
    FindTopDocuments Real.log (server_with_failed_add ℝ) ['c', 'a', 't'] (fun _ _ _ => true) =
        .ok [{ id := 0, relevance := Real.log 2, rating := 0 }] ∧
      live_ids (server_with_failed_add ℝ) = [0] ∧
      GetWordFrequencies (server_with_failed_add ℝ) 0 = [(['c', 'a', 't'], 1)] ∧
      GetDocumentCount (server_with_failed_add ℝ) = 2 ∧
      Real.log 2 ≠ 1 * Real.log (1 / 1) := by
  refine ⟨?_, ?_, ?_, ?_, ?_⟩
  · simp [FindTopDocuments, FindTopDocuments.query, ParseQuery, SplitIntoWords,
      SplitIntoWords.loop, ParseQuery.loop, ParseQueryWord, IsValidWord, IsStopWord,
      server_with_failed_add, server_after_failed_add, AddDocument, AddDocument.store_record,
      AddDocument.index_words, Server.empty, StdMap.count, StdMap.find, StdMap.emplace,
      StdMap.update, SplitIntoWordsNoStop, SplitIntoWordsNoStop.loop, AddDocument.index_word,
      StdMap.setInsert, stdSort, stdUnique, FindAllDocuments, FindAllDocuments.plus_loop,
      FindAllDocuments.add_word, FindAllDocuments.minus_loop,
      FindAllDocuments.minus_words_loop, FindAllDocuments.collect,
      ComputeWordInverseDocumentFreq, GetDocumentCount, StdMap.size, ComputeAverageRating,
      MAX_RESULT_DOCUMENT_COUNT]
  · simp [live_ids, server_with_failed_add, server_after_failed_add, AddDocument,
      AddDocument.store_record, AddDocument.index_words, Server.empty, StdMap.count,
      StdMap.find, StdMap.emplace, StdMap.update, SplitIntoWordsNoStop,
      SplitIntoWordsNoStop.loop, SplitIntoWords, SplitIntoWords.loop, IsValidWord, IsStopWord,
      AddDocument.index_word, StdMap.setInsert]
  · simp [GetWordFrequencies, server_with_failed_add, server_after_failed_add, AddDocument,
      AddDocument.store_record, AddDocument.index_words, Server.empty, StdMap.count,
      StdMap.find, StdMap.emplace, StdMap.update, SplitIntoWordsNoStop,
      SplitIntoWordsNoStop.loop, SplitIntoWords, SplitIntoWords.loop, IsValidWord, IsStopWord,
      AddDocument.index_word, StdMap.setInsert]
  · simp [GetDocumentCount, StdMap.size, server_with_failed_add, server_after_failed_add,
      AddDocument, AddDocument.store_record, AddDocument.index_words, Server.empty,
      StdMap.count, StdMap.find, StdMap.emplace, StdMap.update, SplitIntoWordsNoStop,
      SplitIntoWordsNoStop.loop, SplitIntoWords, SplitIntoWords.loop, IsValidWord, IsStopWord,
      AddDocument.index_word, StdMap.setInsert]
  · have h : (0 : ℝ) < Real.log 2 := Real.log_pos (by norm_num)
    simp only [div_one, Real.log_one, mul_zero]
    exact ne_of_gt h

/-- C3: in the list returned by `FindTopDocuments`, every result `a` and the result `b`
right behind it satisfy: if `|a.relevance - b.relevance| < 1e-6` then
`a.rating >= b.rating`, otherwise `a.relevance > b.relevance`. -/
theorem C3_neighbours_ordered (ln : R → R) (s : Server R) (raw_query : List Char)
    (p : DocumentPredicate) (docs : List (Document R))
    (h : FindTopDocuments ln s raw_query p = .ok docs) :
    docs.Chain' (fun a b =>
      if |a.relevance - b.relevance| < 1 / 1000000 then a.rating ≥ b.rating
      else a.relevance > b.relevance) := by
  have key : ∀ l : List (Document R), (stdSort FindTopDocuments.comp l).Chain' (fun a b =>
      if |a.relevance - b.relevance| < 1 / 1000000 then a.rating ≥ b.rating
      else a.relevance > b.relevance) := by
    intro l
    refine List.Chain'.imp ?_ (chain_stdSort FindTopDocuments.comp FindTopDocuments.comp_asymm l)
    intro a b hab
    unfold FindTopDocuments.comp MAX_DIFFERENCE at hab
    rw [abs_sub_comm b.relevance a.relevance] at hab
    by_cases hd : |a.relevance - b.relevance| < 1 / 1000000
    · rw [if_pos hd] at hab ⊢
      simpa using hab
    · rw [if_neg hd] at hab ⊢
      have hle : b.relevance ≤ a.relevance := by simpa using hab
      rcases lt_or_eq_of_le hle with hlt | heq
      · exact hlt
      · exfalso
        apply hd
        rw [heq, sub_self, abs_zero]
        norm_num
  unfold FindTopDocuments at h
  cases hq : FindTopDocuments.query s raw_query with
  | error e => rw [hq] at h; cases h
  | ok q =>
    rw [hq] at h
    simp only at h
    cases hf : FindAllDocuments ln s q p with
    | error e => rw [hf] at h; cases h
    | ok all =>
      rw [hf] at h
      simp only at h
      split at h
      · cases h
        exact (key all).take _
      · cases h
        exact key all

theorem C3_neighbours_ordered_witness :
    FindTopDocuments (fun x => x) example_server ['a'] (fun _ _ _ => true) =
        .ok [{ id := 0, relevance := 1, rating := 1 },
          { id := 1, relevance := 1 / 2, rating := 2 }] ∧
      ([{ id := 0, relevance := 1, rating := 1 },
        { id := 1, relevance := 1 / 2, rating := 2 }] : List (Document ℚ)).Chain'
        (fun a b =>
          if |a.relevance - b.relevance| < 1 / 1000000 then a.rating ≥ b.rating
          else a.relevance > b.relevance) :=
  ⟨example_server_top,
    C3_neighbours_ordered (fun x => x) example_server ['a'] (fun _ _ _ => true) _
      example_server_top⟩

/-- C4 (the code at the failing input): as long as no `RemoveDocument` call has read
destroyed text (`Intact`), for every query that parses, every predicate and every
arrangement `sort` that the library makes of the matched documents, `FindTopDocuments`
returns exactly `min(5, k)` results, `k` being the number of live documents that qualify,
never more than 5, and they are the first `min(5, k)` entries of the arranged list of all
qualifying documents; when the arrangement is sorted by the comparator, no document that
was cut off is better than a returned one.  On the server with the six documents `a` of
ratings 1 to 6 (an intact store, six qualifying documents of equal relevance) the query
`a` returns the five documents 5, 4, 3, 2, 1, whatever sorted arrangement the library
makes, the insertion sort being one.  After `AddDocument(0, w)`, `AddDocument(1, w)` with the
16-character word `w` and `RemoveDocument(1)`, when the destroyed text of document 1 does
not show `w` any more, one live document qualifies for the query `w` (`k = 1`), but
`FindTopDocuments` throws `out_of_range` and returns no result. -/
theorem C4_no_result_after_lost_purge :
    (∀ (ln : R → R) (s : Server R) (raw_query : List Char) (query : Query)
        (p : DocumentPredicate) (sort : List (Document R) → List (Document R)),
        Intact s → ParseQuery s raw_query = .ok query → (∀ l, (sort l).Perm l) →
        ∃ all top : List (Document R),
          FindAllDocuments ln s
            { plus_words := stdUnique query.plus_words
              minus_words := stdUnique query.minus_words } p = .ok all ∧
          FindTopDocumentsSort sort ln s raw_query p = .ok top ∧
          (∀ d, d ∈ all.map Document.id ↔ qualifies s query p d = true) ∧
          all.length = ((live_ids s).filter (fun d => qualifies s query p d)).length ∧
          top.length = min 5 ((live_ids s).filter (fun d => qualifies s query p d)).length ∧
          top.length ≤ 5 ∧
          top = (sort all).take
            (min 5 ((live_ids s).filter (fun d => qualifies s query p d)).length) ∧
          (IsSortedBy FindTopDocuments.comp all (sort all) →
            ∀ a ∈ top, ∀ b ∈ (sort all).drop 5, FindTopDocuments.comp b a = false)) ∧
      Intact (six_documents_server R) ∧
      (∀ ln : R → R,
        FindAllDocuments ln (six_documents_server R)
          { plus_words := stdUnique [['a']], minus_words := stdUnique [] }
          (fun _ _ _ => true) = .ok (six_documents ln) ∧
        IsSortedBy FindTopDocuments.comp (six_documents ln)
          (stdSort FindTopDocuments.comp (six_documents ln))) ∧
      (∀ (ln : R → R) (sort : List (Document R) → List (Document R)),
        IsSortedBy FindTopDocuments.comp (six_documents ln) (sort (six_documents ln)) →
        FindTopDocumentsSort sort ln (six_documents_server R) ['a'] (fun _ _ _ => true) =
          .ok [{ id := 5, relevance := ln 1, rating := 6 },
            { id := 4, relevance := ln 1, rating := 5 },
            { id := 3, relevance := ln 1, rating := 4 },
            { id := 2, relevance := ln 1, rating := 3 },
            { id := 1, relevance := ln 1, rating := 2 }]) ∧
      Intact (two_documents_server R) ∧
      (∀ read : Word → Word, read long_word ≠ long_word →
        RemoveDocumentRead read (two_documents_server R) 1 =
          (.ok (), server_after_lost_purge R)) ∧
      ParseQuery (server_after_lost_purge R) long_word =
        .ok { plus_words := [long_word], minus_words := [] } ∧
      ((live_ids (server_after_lost_purge R)).filter
        (fun d => qualifies (server_after_lost_purge R)
          { plus_words := [long_word], minus_words := [] } (fun _ _ _ => true) d)).length = 1 ∧
      (∀ (ln : R → R) (sort : List (Document R) → List (Document R)),
        FindTopDocumentsSort sort ln (server_after_lost_purge R) long_word
          (fun _ _ _ => true) = .error Exn.out_of_range) := by
  refine ⟨?_, six_documents_server_intact,
    fun ln => ⟨six_documents_all ln, by
      rw [six_documents_stdSort]
      exact six_documents_reverse_sorted ln⟩,
    fun ln sort hsort => six_documents_top ln sort hsort,
    two_documents_server_intact, RemoveDocumentRead_two_documents,
    ParseQuery_long_word _ (by rw [server_after_lost_purge_eq]), ?_,
    fun ln sort => FindTopDocumentsSort_after_lost_purge sort ln _⟩
  · intro ln s raw_query query p sort hs hq hsort
    obtain ⟨all, h1, _, h3, hlen, h5⟩ :=
      FindTopDocumentsSort_ok sort ln hs.reachable.inv raw_query query hq p
    refine ⟨all, _, h1, h5, h3, hlen, ?_, ?_, ?_, ?_⟩
    · rw [List.length_take, (hsort all).length_eq, hlen]
      rfl
    · rw [List.length_take]
      exact Nat.min_le_left _ _
    · rw [← hlen, ← (hsort all).length_eq]
      apply List.ext_getElem?
      intro n
      simp only [MAX_RESULT_DOCUMENT_COUNT, List.getElem?_take]
      by_cases hn : n < 5
      · by_cases hn2 : n < (sort all).length
        · simp [hn, hn2]
        · have : (sort all)[n]? = none := by
            rw [List.getElem?_eq_none_iff]
            omega
          simp [hn, hn2, this]
      · simp [hn]
    · intro hsorted a ha b hb
      have hp := hsorted.2
      rw [← List.take_append_drop MAX_RESULT_DOCUMENT_COUNT (sort all),
        List.pairwise_append] at hp
      exact hp.2.2 a ha b hb
  · rw [server_after_lost_purge_qualifies]
    rfl

/-- C5 (the code at the failing input): on a fresh server `AddDocument(1, "a\tb", ...)`
throws `invalid_argument`; afterwards id 1 is not negative and not live and the text
`ab` has no control character, yet `AddDocument(1, "ab", ...)` throws
`invalid_argument`, because the record of the failed call is still in `documents_`. -/
theorem C5_add_refuses_id_of_failed_add :
    (AddDocument (Server.empty [] : Server ℚ) 1 ['a', Char.ofNat 9, 'b']
        DocumentStatus.ACTUAL []).1 = .error Exn.invalid_argument ∧
      ¬ ((1 : Int) < 0) ∧
      (1 : Int) ∉ live_ids (server_after_failed_add ℚ) ∧
      (∀ t ∈ SplitIntoWords ['a', 'b'], ∀ c ∈ t, ¬ c.toNat < 32) ∧
      (AddDocument (server_after_failed_add ℚ) 1 ['a', 'b'] DocumentStatus.ACTUAL []).1 =
        .error Exn.invalid_argument ∧
      (1 : Int) ∈ StdMap.keys (server_after_failed_add ℚ).documents_ := by
  refine ⟨by decide, by decide, by decide, by decide, by decide, by decide⟩

/-- C6 (the code at the failing input): on a fresh server `AddDocument(1, "a\tb", ...)`
throws `invalid_argument`, but the server is not left unchanged: `GetDocumentCount` has
gone from 0 to 1, and a later `AddDocument(1, "ab", ...)`, which succeeds on the fresh
server, now throws. -/
theorem C6_failed_add_changes_the_store :
    (AddDocument (Server.empty [] : Server ℚ) 1 ['a', Char.ofNat 9, 'b']
        DocumentStatus.ACTUAL []).1 = .error Exn.invalid_argument ∧
      GetDocumentCount (Server.empty [] : Server ℚ) = 0 ∧
      GetDocumentCount (server_after_failed_add ℚ) = 1 ∧
      live_ids (server_after_failed_add ℚ) = live_ids (Server.empty [] : Server ℚ) ∧
      (AddDocument (Server.empty [] : Server ℚ) 1 ['a', 'b'] DocumentStatus.ACTUAL []).1 =
        .ok () ∧
      (AddDocument (server_after_failed_add ℚ) 1 ['a', 'b'] DocumentStatus.ACTUAL []).1 =
        .error Exn.invalid_argument := by
  refine ⟨by decide, by decide, by decide, by decide, by decide, by decide⟩

/-- C7 (as stated, refuted): with the stop word `a`, the document `a` is added
successfully and its text is not empty, but `GetWordFrequencies` is the empty mapping,
whose values sum to 0, not 1. -/
theorem C7_counterexample_stop_words_only :
    (AddDocument (Server.empty [['a']] : Server ℚ) 0 ['a'] DocumentStatus.ACTUAL []).1 =
        .ok () ∧
      (['a'] : List Char) ≠ [] ∧
      ((GetWordFrequencies
        (AddDocument (Server.empty [['a']] : Server ℚ) 0 ['a'] DocumentStatus.ACTUAL []).2
        0).map Prod.snd).sum ≠ 1 := by
  refine ⟨by decide, by decide, ?_⟩
  have : GetWordFrequencies
      (AddDocument (Server.empty [['a']] : Server ℚ) 0 ['a'] DocumentStatus.ACTUAL []).2 0 =
      [] := by decide
  rw [this]
  simp

/-- C7 (amended): for every document added successfully whose text has at least one
token that is not a stop word, the values of `GetWordFrequencies(id)` sum to exactly
1. -/
theorem C7_frequencies_sum_to_one {s : Server R} (hs : Reachable s) (document_id : Int)
    (document : List Char) (status : DocumentStatus) (ratings : List Int)
    (hok : (AddDocument s document_id document status ratings).1 = .ok ())
    (hwords : (SplitIntoWords document).filter (fun w => !IsStopWord s w) ≠ []) :
    ((GetWordFrequencies (AddDocument s document_id document status ratings).2
      document_id).map Prod.snd).sum = 1 := by
  obtain ⟨_, h2, _⟩ := (AddDocument_ok_iff s document_id document status ratings).1 hok
  rw [AddDocument_ok_state s document_id document status ratings hok]
  have hinv := hs.inv.store_record document_id document status ratings
  have hid : document_id ∉
      (AddDocument.store_record s document_id document status ratings).document_ids_ :=
    fun hm => h2 (hs.inv.ids_documents _ hm)
  rw [(GetWordFrequencies_index_words hinv document_id _ hid).2.2, if_neg hwords]

theorem C7_frequencies_sum_to_one_witness :
    Reachable (Server.empty [['a']] : Server ℚ) ∧
      (AddDocument (Server.empty [['a']] : Server ℚ) 0 ['a', ' ', 'b', ' ', 'b']
        DocumentStatus.ACTUAL []).1 = .ok () ∧
      (SplitIntoWords ['a', ' ', 'b', ' ', 'b']).filter
        (fun w => !IsStopWord (Server.empty [['a']] : Server ℚ) w) ≠ [] ∧
      ((GetWordFrequencies
        (AddDocument (Server.empty [['a']] : Server ℚ) 0 ['a', ' ', 'b', ' ', 'b']
          DocumentStatus.ACTUAL []).2 0).map Prod.snd).sum = 1 :=
  ⟨Reachable.init _, by decide, by decide,
    C7_frequencies_sum_to_one (Reachable.init _) 0 ['a', ' ', 'b', ' ', 'b']
      DocumentStatus.ACTUAL [] (by decide) (by decide)⟩

/-- C8: after a successful `AddDocument(id, text, ...)` on a reachable store,
`GetWordFrequencies(id)` is a mapping (no key twice) whose keys are exactly the tokens of
`text` that are not stop words, every key `t` is mapped to the number of occurrences of
`t` among the indexed tokens divided by the number of indexed tokens, and a text without
indexed token yields the empty mapping. -/
theorem C8_word_frequencies_after_add {s : Server R} (hs : Reachable s) (document_id : Int)
    (document : List Char) (status : DocumentStatus) (ratings : List Int)
    (hok : (AddDocument s document_id document status ratings).1 = .ok ()) :
    (StdMap.keys (GetWordFrequencies (AddDocument s document_id document status ratings).2
      document_id)).Nodup ∧
    (∀ t : Word,
      t ∈ StdMap.keys (GetWordFrequencies (AddDocument s document_id document status ratings).2
          document_id) ↔
        t ∈ SplitIntoWords document ∧ IsStopWord s t = false) ∧
    (∀ t : Word, t ∈ (SplitIntoWords document).filter (fun w => !IsStopWord s w) →
      StdMap.find (GetWordFrequencies (AddDocument s document_id document status ratings).2
          document_id) t =
        some ((((SplitIntoWords document).filter (fun w => !IsStopWord s w)).count t : R) /
          (((SplitIntoWords document).filter (fun w => !IsStopWord s w)).length : R))) ∧
    ((SplitIntoWords document).filter (fun w => !IsStopWord s w) = [] →
      GetWordFrequencies (AddDocument s document_id document status ratings).2
        document_id = []) := by
  obtain ⟨_, h2, _⟩ := (AddDocument_ok_iff s document_id document status ratings).1 hok
  rw [AddDocument_ok_state s document_id document status ratings hok]
  have hinv := hs.inv.store_record document_id document status ratings
  have hid : document_id ∉
      (AddDocument.store_record s document_id document status ratings).document_ids_ :=
    fun hm => h2 (hs.inv.ids_documents _ hm)
  obtain ⟨g1, g2, _⟩ := GetWordFrequencies_index_words hinv document_id
    ((SplitIntoWords document).filter (fun w => !IsStopWord s w)) hid
  have hkeys : ∀ t : Word,
      t ∈ StdMap.keys (GetWordFrequencies (AddDocument.index_words
        (AddDocument.store_record s document_id document status ratings) document_id
        ((SplitIntoWords document).filter (fun w => !IsStopWord s w))) document_id) ↔
      t ∈ (SplitIntoWords document).filter (fun w => !IsStopWord s w) := by
    intro t
    rw [← StdMap.find_isSome_iff, g2 t]
    split <;> simp [*]
  refine ⟨g1.nodup, ?_, ?_, ?_⟩
  · intro t
    rw [hkeys t, List.mem_filter]
    simp
  · intro t ht
    rw [g2 t, if_pos ht]
  · intro hnil
    have : ∀ t, t ∉ StdMap.keys (GetWordFrequencies (AddDocument.index_words
        (AddDocument.store_record s document_id document status ratings) document_id
        ((SplitIntoWords document).filter (fun w => !IsStopWord s w))) document_id) := by
      intro t
      rw [hkeys t, hnil]
      simp
    unfold StdMap.keys at this
    cases hgw : GetWordFrequencies (AddDocument.index_words
        (AddDocument.store_record s document_id document status ratings) document_id
        ((SplitIntoWords document).filter (fun w => !IsStopWord s w))) document_id with
    | nil => rfl
    | cons x rest =>
      rw [hgw] at this
      exact absurd (List.mem_cons_self _ _) (this x.1)

theorem C8_word_frequencies_after_add_witness :
    Reachable (Server.empty [['a']] : Server ℚ) ∧
      (AddDocument (Server.empty [['a']] : Server ℚ) 0 ['a', ' ', 'b', ' ', 'b']
        DocumentStatus.ACTUAL []).1 = .ok () ∧
      ((StdMap.keys (GetWordFrequencies
        (AddDocument (Server.empty [['a']] : Server ℚ) 0 ['a', ' ', 'b', ' ', 'b']
          DocumentStatus.ACTUAL []).2 0)).Nodup ∧
      (∀ t : Word,
        t ∈ StdMap.keys (GetWordFrequencies
          (AddDocument (Server.empty [['a']] : Server ℚ) 0 ['a', ' ', 'b', ' ', 'b']
            DocumentStatus.ACTUAL []).2 0) ↔
          t ∈ SplitIntoWords ['a', ' ', 'b', ' ', 'b'] ∧
            IsStopWord (Server.empty [['a']] : Server ℚ) t = false) ∧
      (∀ t : Word, t ∈ (SplitIntoWords ['a', ' ', 'b', ' ', 'b']).filter
          (fun w => !IsStopWord (Server.empty [['a']] : Server ℚ) w) →
        StdMap.find (GetWordFrequencies
          (AddDocument (Server.empty [['a']] : Server ℚ) 0 ['a', ' ', 'b', ' ', 'b']
            DocumentStatus.ACTUAL []).2 0) t =
          some ((((SplitIntoWords ['a', ' ', 'b', ' ', 'b']).filter
              (fun w => !IsStopWord (Server.empty [['a']] : Server ℚ) w)).count t : ℚ) /
            (((SplitIntoWords ['a', ' ', 'b', ' ', 'b']).filter
              (fun w => !IsStopWord (Server.empty [['a']] : Server ℚ) w)).length : ℚ))) ∧
      ((SplitIntoWords ['a', ' ', 'b', ' ', 'b']).filter
          (fun w => !IsStopWord (Server.empty [['a']] : Server ℚ) w) = [] →
        GetWordFrequencies
          (AddDocument (Server.empty [['a']] : Server ℚ) 0 ['a', ' ', 'b', ' ', 'b']
            DocumentStatus.ACTUAL []).2 0 = [])) :=
  ⟨Reachable.init _, by decide,
    C8_word_frequencies_after_add (Reachable.init _) 0 ['a', ' ', 'b', ' ', 'b']
      DocumentStatus.ACTUAL [] (by decide)⟩

/-- C9 (the code at the failing input): on a store in which no `RemoveDocument` call has
read destroyed text (`Intact`) and for every live id, `RemoveDocument(id)` returns, and
afterwards `GetWordFrequencies(id)` is the empty mapping, `GetDocumentCount()` is exactly
one less than before and `id` is no longer a live id, whatever the views into the destroyed
text of the document show (`read`); if they still show the words of the document, no
bucket of the inverted index contains `id` and `FindTopDocuments` does not return `id`.
On the server with the documents 0 and 1 that both consist of the 16-character word `w`,
`RemoveDocument(1)` returns and, when the destroyed text does not show `w` any more,
leaves the inverted index as it was: the bucket of `w` still contains id 1 (with
frequency 1), and the next query for `w` throws `out_of_range`. -/
theorem C9_remove_document_misses_the_purge :
    (∀ (read : Word → Word) (s : Server R) (document_id : Int),
        Intact s → document_id ∈ live_ids s →
        (RemoveDocumentRead read s document_id).1 = .ok () ∧
        GetWordFrequencies (RemoveDocumentRead read s document_id).2 document_id = [] ∧
        GetDocumentCount (RemoveDocumentRead read s document_id).2 + 1 = GetDocumentCount s ∧
        document_id ∉ live_ids (RemoveDocumentRead read s document_id).2 ∧
        ((∀ entry ∈ GetWordFrequencies s document_id, read entry.1 = entry.1) →
          (∀ entry ∈ (RemoveDocumentRead read s document_id).2.word_to_document_freqs_,
            document_id ∉ StdMap.keys entry.2) ∧
          ∀ (ln : R → R) (raw_query : List Char) (p : DocumentPredicate)
            (docs : List (Document R)),
            FindTopDocuments ln (RemoveDocumentRead read s document_id).2 raw_query p =
              .ok docs → ∀ x ∈ docs, x.id ≠ document_id)) ∧
      Intact (two_documents_server R) ∧
      (1 : Int) ∈ live_ids (two_documents_server R) ∧
      GetWordFrequencies (two_documents_server R) 1 = [(long_word, 1)] ∧
      (∀ read : Word → Word, read long_word ≠ long_word →
        RemoveDocumentRead read (two_documents_server R) 1 =
          (.ok (), server_after_lost_purge R)) ∧
      (1 : Int) ∉ live_ids (server_after_lost_purge R) ∧
      StdMap.find (server_after_lost_purge R).word_to_document_freqs_ long_word =
        some [(0, 1), (1, 1)] ∧
      inverted_entry (server_after_lost_purge R) long_word 1 = some 1 ∧
      (∀ (ln : R → R) (p : DocumentPredicate),
        FindTopDocuments ln (server_after_lost_purge R) long_word p =
          .error Exn.out_of_range) := by
  refine ⟨?_, two_documents_server_intact, ?_, ?_, RemoveDocumentRead_two_documents, ?_,
    server_after_lost_purge_facts.2.2.2.2.1, ?_,
    fun ln p => FindTopDocuments_after_lost_purge ln p⟩
  · intro read s document_id hs hlive
    obtain ⟨h1, h2, h3, h4⟩ := RemoveDocumentRead_live read hs document_id hlive
    refine ⟨h1, h2, h3, h4, ?_⟩
    intro hread
    rw [RemoveDocumentRead_eq_RemoveDocument read hs.reachable.inv document_id hread]
    have h := remove_document_erases_everything hs.reachable document_id hlive
    exact ⟨h.2.2.2.2.1, h.2.2.2.2.2⟩
  · rw [two_documents_server_eq]
    simp [live_ids]
  · rw [two_documents_server_eq]
    simp [GetWordFrequencies, StdMap.count, StdMap.find]
  · rw [server_after_lost_purge_facts.1]
    simp
  · unfold inverted_entry
    rw [server_after_lost_purge_facts.2.2.2.2.1]
    simp [StdMap.find]

/-- C10: `ParseQuery` throws `invalid_argument` exactly when some space-delimited token of
the query is `-`, begins with `--`, or contains a control character after one leading
`-` is stripped, whatever the stop words are; every other query parses; and
`FindTopDocuments` and `MatchDocument` (sequential and parallel) throw
`invalid_argument` for exactly the same queries. -/
theorem C10_parse_fails_iff_malformed_token (ln : R → R) (s : Server R)
    (raw_query : List Char) :
    (ParseQuery s raw_query = .error Exn.invalid_argument ↔
        ∃ token ∈ SplitIntoWords raw_query, MalformedQueryToken token) ∧
      ((¬ ∃ token ∈ SplitIntoWords raw_query, MalformedQueryToken token) →
        ∃ query, ParseQuery s raw_query = .ok query) ∧
      (∀ p : DocumentPredicate,
        FindTopDocuments ln s raw_query p = .error Exn.invalid_argument ↔
          ∃ token ∈ SplitIntoWords raw_query, MalformedQueryToken token) ∧
      (∀ document_id : Int,
        (MatchDocument s raw_query document_id = .error Exn.invalid_argument ↔
          ∃ token ∈ SplitIntoWords raw_query, MalformedQueryToken token) ∧
        (MatchDocumentPar s raw_query document_id = .error Exn.invalid_argument ↔
          ∃ token ∈ SplitIntoWords raw_query, MalformedQueryToken token)) := by
  have key : ParseQuery s raw_query = .error Exn.invalid_argument ↔
      ∃ token ∈ SplitIntoWords raw_query, MalformedQueryToken token := by
    rw [ParseQuery_error_iff]
    simp
  refine ⟨key, ?_, ?_, ?_⟩
  · intro hno
    cases hq : ParseQuery s raw_query with
    | ok q => exact ⟨q, rfl⟩
    | error e =>
      exact absurd ((ParseQuery_error_iff s raw_query e).1 hq).2 hno
  · intro p
    rw [FindTopDocuments_invalid_argument_iff, key]
  · intro document_id
    rw [MatchDocument_invalid_argument_iff, MatchDocumentPar_invalid_argument_iff, key]
    exact ⟨Iff.rfl, Iff.rfl⟩

/-- C11: for every query that parses, the inclusion list is a permutation of the tokens
without leading `-` that are not stop words, the exclusion list is a permutation of the
tokens with a leading `-`, the marker stripped, that are not stop words; both lists are in
ascending order and hold no stop word. -/
theorem C11_parsed_query_lists (s : Server R) (raw_query : List Char) (query : Query)
    (hq : ParseQuery s raw_query = .ok query) :
    query.plus_words.Perm
        ((SplitIntoWords raw_query).filter
          (fun t => !decide (t.head? = some '-') && !IsStopWord s t)) ∧
      query.minus_words.Perm
        ((((SplitIntoWords raw_query).filter (fun t => decide (t.head? = some '-'))).map
          (fun t => t.drop 1)).filter (fun t => !IsStopWord s t)) ∧
      query.plus_words.Sorted (fun a b => a ≤ b) ∧
      query.minus_words.Sorted (fun a b => a ≤ b) ∧
      (∀ w ∈ query.plus_words, IsStopWord s w = false) ∧
      (∀ w ∈ query.minus_words, IsStopWord s w = false) := by
  obtain ⟨h1, h2⟩ := ParseQuery_ok s raw_query query hq
  obtain ⟨h3, h4⟩ := ParseQuery_sorted s raw_query query hq
  refine ⟨?_, ?_, h3, h4, ?_, ?_⟩
  · rw [h1]; exact perm_stdSort _ _
  · rw [h2]; exact perm_stdSort _ _
  · intro w hw
    rw [h1, mem_stdSort, List.mem_filter] at hw
    have := hw.2
    simp only [Bool.and_eq_true, Bool.not_eq_true'] at this
    exact this.2
  · intro w hw
    rw [h2, mem_stdSort, List.mem_filter] at hw
    simpa using hw.2

theorem C11_parsed_query_lists_witness :
    ParseQuery (Server.empty [['i']] : Server ℚ)
        ['c', ' ', '-', 'b', ' ', 'i', ' ', 'a', ' ', '-', 'i', ' ', 'a'] =
        .ok { plus_words := [['a'], ['a'], ['c']], minus_words := [['b']] } ∧
      (([['a'], ['a'], ['c']] : List Word).Perm
        ((SplitIntoWords ['c', ' ', '-', 'b', ' ', 'i', ' ', 'a', ' ', '-', 'i', ' ', 'a']).filter
          (fun t => !decide (t.head? = some '-') &&
            !IsStopWord (Server.empty [['i']] : Server ℚ) t)) ∧
      ([['b']] : List Word).Perm
        ((((SplitIntoWords
            ['c', ' ', '-', 'b', ' ', 'i', ' ', 'a', ' ', '-', 'i', ' ', 'a']).filter
          (fun t => decide (t.head? = some '-'))).map
          (fun t => t.drop 1)).filter
            (fun t => !IsStopWord (Server.empty [['i']] : Server ℚ) t)) ∧
      ([['a'], ['a'], ['c']] : List Word).Sorted (fun a b => a ≤ b) ∧
      ([['b']] : List Word).Sorted (fun a b => a ≤ b) ∧
      (∀ w ∈ ([['a'], ['a'], ['c']] : List Word),
        IsStopWord (Server.empty [['i']] : Server ℚ) w = false) ∧
      (∀ w ∈ ([['b']] : List Word),
        IsStopWord (Server.empty [['i']] : Server ℚ) w = false)) :=
  ⟨by decide,
    C11_parsed_query_lists (Server.empty [['i']] : Server ℚ)
      ['c', ' ', '-', 'b', ' ', 'i', ' ', 'a', ' ', '-', 'i', ' ', 'a']
      { plus_words := [['a'], ['a'], ['c']], minus_words := [['b']] } (by decide)⟩

/-- C12: on a reachable store, for every query that parses and every live id whose
document contains at least one exclusion term of the query, `MatchDocument` returns, in
sequential and in parallel mode, the empty term list together with the status of the
document. -/
theorem C12_exclusion_term_empties_match {s : Server R} (hs : Reachable s)
    (raw_query : List Char) (query : Query) (hq : ParseQuery s raw_query = .ok query)
    (document_id : Int) (hlive : document_id ∈ live_ids s)
    (hminus : ∃ w ∈ query.minus_words, contains_word s document_id w = true) :
    ∃ data, StdMap.find s.documents_ document_id = some data ∧
      MatchDocument s raw_query document_id = .ok ([], data.status) ∧
      MatchDocumentPar s raw_query document_id = .ok ([], data.status) := by
  obtain ⟨⟨m, hm⟩, ⟨data, hd⟩⟩ := live_entries hs.inv hlive
  have hany : query.minus_words.any (fun w => contains_word s document_id w) = true := by
    obtain ⟨w, hw, hc⟩ := hminus
    exact List.any_eq_true.2 ⟨w, hw, hc⟩
  refine ⟨data, hd, ?_, ?_⟩
  · rw [MatchDocument_eq s raw_query query hq document_id m hm data hd, if_pos hany]
  · rw [MatchDocumentPar_eq s raw_query query hq document_id m hm data hd, if_pos hany]

theorem C12_exclusion_term_empties_match_witness :
    Reachable example_server ∧
      ParseQuery example_server ['a', ' ', '-', 'b'] =
        .ok { plus_words := [['a']], minus_words := [['b']] } ∧
      (1 : Int) ∈ live_ids example_server ∧
      (∃ w ∈ ([['b']] : List Word), contains_word example_server 1 w = true) ∧
      ∃ data, StdMap.find example_server.documents_ 1 = some data ∧
        MatchDocument example_server ['a', ' ', '-', 'b'] 1 = .ok ([], data.status) ∧
        MatchDocumentPar example_server ['a', ' ', '-', 'b'] 1 = .ok ([], data.status) :=
  ⟨example_server_reachable, by decide, by decide, by decide,
    C12_exclusion_term_empties_match example_server_reachable ['a', ' ', '-', 'b']
      { plus_words := [['a']], minus_words := [['b']] } (by decide) 1 (by decide)
      (by decide)⟩

/-- C13 (the code at the failing input): document 0 of the example server is `a`; for the
query `a a` the sequential `MatchDocument` returns the matching term `a` twice, the
parallel one returns it once. -/
theorem C13_sequential_match_repeats_terms :
    Reachable example_server ∧
      ParseQuery example_server ['a', ' ', 'a'] =
        .ok { plus_words := [['a'], ['a']], minus_words := [] } ∧
      (0 : Int) ∈ live_ids example_server ∧
      contains_word example_server 0 ['a'] = true ∧
      MatchDocument example_server ['a', ' ', 'a'] 0 =
        .ok ([['a'], ['a']], DocumentStatus.ACTUAL) ∧
      MatchDocumentPar example_server ['a', ' ', 'a'] 0 =
        .ok ([['a']], DocumentStatus.ACTUAL) := by
  refine ⟨example_server_reachable, by decide, by decide, by decide, by decide, by decide⟩

/-- C14 (the code at the failing input): after the call `AddDocument(1, "a\tb", ...)` on
a fresh server, which throws `invalid_argument`, id 1 is not live, the empty query parses
without terms, and the sequential `MatchDocument("", 1)` returns a result (the status of
the record that the failed call left behind) instead of throwing; the parallel one throws
`out_of_range`. -/
theorem C14_sequential_match_finds_record_of_failed_add :
    Reachable (server_after_failed_add ℚ) ∧
      (AddDocument (Server.empty [] : Server ℚ) 1 ['a', Char.ofNat 9, 'b']
        DocumentStatus.ACTUAL []).1 = .error Exn.invalid_argument ∧
      (1 : Int) ∉ live_ids (server_after_failed_add ℚ) ∧
      ParseQuery (server_after_failed_add ℚ) [] = .ok { plus_words := [], minus_words := [] } ∧
      MatchDocument (server_after_failed_add ℚ) [] 1 = .ok ([], DocumentStatus.ACTUAL) ∧
      MatchDocumentPar (server_after_failed_add ℚ) [] 1 = .error Exn.out_of_range := by
  refine ⟨Reachable.add 1 _ _ _ (Reachable.init []), by decide, by decide, by decide,
    by decide, by decide⟩

/-- C15: on a reachable store `RemoveDuplicates` returns and leaves a reachable store in
which the remaining documents are documents that were live before, with their terms
unchanged.  For every document `d` that was live before the call, exactly one remaining
document has the set of distinct terms of `d` (the empty set included), and it has the
lowest id among the documents that had this set; a live document is removed exactly when
a live document with a lower id had the same set of distinct terms; no two remaining
documents have the same set of distinct terms. -/
theorem C15_remove_duplicates_keeps_lowest_id {s : Server R} (hs : Reachable s) :
    (RemoveDuplicates s).1 = .ok () ∧ Reachable (RemoveDuplicates s).2 ∧
      (∀ d ∈ live_ids (RemoveDuplicates s).2, d ∈ live_ids s ∧
        ∀ w, contains_word (RemoveDuplicates s).2 d w = contains_word s d w) ∧
      (∀ d ∈ live_ids s, ∃ k ∈ live_ids (RemoveDuplicates s).2,
        (∀ w, contains_word (RemoveDuplicates s).2 k w = contains_word s d w) ∧
          (∀ e ∈ live_ids s, same_terms s e d → k ≤ e) ∧
          ∀ k' ∈ live_ids (RemoveDuplicates s).2,
            (∀ w, contains_word (RemoveDuplicates s).2 k' w = contains_word s d w) → k' = k) ∧
      (∀ d ∈ live_ids s, d ∉ live_ids (RemoveDuplicates s).2 ↔
        ∃ e ∈ live_ids s, e < d ∧ same_terms s e d) ∧
      (∀ a ∈ live_ids (RemoveDuplicates s).2, ∀ b ∈ live_ids (RemoveDuplicates s).2,
        same_terms (RemoveDuplicates s).2 a b → a = b) := by
  have h := hs.inv
  obtain ⟨hok, hlive, hpres⟩ := RemoveDuplicates_spec h
  have hcw : ∀ d ∈ live_ids (RemoveDuplicates s).2,
      ∀ w, contains_word (RemoveDuplicates s).2 d w = contains_word s d w := by
    intro d hd w
    unfold contains_word
    rw [(hpres d hd).1]
  refine ⟨hok, RemoveDuplicates.loop_reachable _ _ s hs, ?_, ?_, ?_, ?_⟩
  · intro d hd
    exact ⟨((hlive d).1 hd).1, hcw d hd⟩
  · intro d hd
    obtain ⟨k, hk, hsame, hmin⟩ := exists_least_of_sorted (fun e => same_terms s e d)
      (live_ids s) h.ids_sorted d hd (fun _ => rfl)
    have hkl : k ∈ live_ids (RemoveDuplicates s).2 := by
      rw [hlive k]
      refine ⟨hk, ?_⟩
      intro e he hek
      exact hmin e he (fun w => (hek w).trans (hsame w))
    refine ⟨k, hkl, fun w => (hcw k hkl w).trans (hsame w), hmin, ?_⟩
    intro k' hk' hsame'
    have hk's : same_terms s k' d := fun w => (hcw k' hk' w).symm.trans (hsame' w)
    have h1 : k ≤ k' := hmin k' ((hlive k').1 hk').1 hk's
    have h2 : k' ≤ k := ((hlive k').1 hk').2 k hk (fun w => (hsame w).trans (hk's w).symm)
    exact le_antisymm h2 h1
  · intro d hd
    rw [hlive d]
    constructor
    · intro hn
      by_contra hex
      apply hn
      refine ⟨hd, ?_⟩
      intro e he hsame
      by_contra hlt
      exact hex ⟨e, he, not_le.1 hlt, hsame⟩
    · rintro ⟨e, he, hlt, hsame⟩ ⟨_, hmin⟩
      exact absurd (hmin e he hsame) (not_le.2 hlt)
  · intro a ha b hb hsame
    have hs' : same_terms s a b := fun w =>
      (hcw a ha w).symm.trans ((hsame w).trans (hcw b hb w))
    have h1 : a ≤ b := ((hlive a).1 ha).2 b ((hlive b).1 hb).1 (fun w => (hs' w).symm)
    have h2 : b ≤ a := ((hlive b).1 hb).2 a ((hlive a).1 ha).1 hs'
    exact le_antisymm h1 h2

theorem C15_remove_duplicates_keeps_lowest_id_witness :
    Reachable duplicates_server ∧
      live_ids duplicates_server = [5, 6, 7, 8] ∧
      live_ids (RemoveDuplicates duplicates_server).2 = [5, 8] ∧
      (RemoveDuplicates duplicates_server).1 = .ok () ∧
      ∀ a ∈ live_ids (RemoveDuplicates duplicates_server).2,
        ∀ b ∈ live_ids (RemoveDuplicates duplicates_server).2,
          same_terms (RemoveDuplicates duplicates_server).2 a b → a = b :=
  ⟨duplicates_server_reachable, duplicates_server_live.1, duplicates_server_live.2,
    (C15_remove_duplicates_keeps_lowest_id duplicates_server_reachable).1,
    (C15_remove_duplicates_keeps_lowest_id duplicates_server_reachable).2.2.2.2.2⟩

/-- C17: when a live document was added with the ratings list `ratings`, the rating that
every `FindTopDocuments` result reports for it is `ComputeAverageRating(ratings)`: 0 for
the empty list, otherwise (in 32-bit `int` arithmetic without overflow) the quotient,
truncated toward zero, of the sum by the count; `[8, -3]` gives 2 and `[7, 2, 7]`
gives 5. -/
theorem C17_reported_rating_is_average (ln : R → R) {s : Server R} {document_id : Int}
    {ratings : List Int} (hadd : AddedWith s document_id ratings) (raw_query : List Char)
    (p : DocumentPredicate) (docs : List (Document R))
    (hdocs : FindTopDocuments ln s raw_query p = .ok docs) :
    (∀ x ∈ docs, x.id = document_id → x.rating = ComputeAverageRating ratings) ∧
      (ratings = [] → ComputeAverageRating ratings = 0) ∧
      (ratings ≠ [] → (ratings.length : Int) < 2147483648 →
        (∀ k, k ≤ ratings.length →
          -2147483648 ≤ (ratings.take k).sum ∧ (ratings.take k).sum < 2147483648) →
        ComputeAverageRating ratings = Int.tdiv ratings.sum (ratings.length : Int)) ∧
      ComputeAverageRating [8, -3] = 2 ∧ ComputeAverageRating [7, 2, 7] = 5 := by
  obtain ⟨h1, _, h3⟩ := hadd.spec
  refine ⟨?_, ?_, ?_, by decide, by decide⟩
  · intro x hx hid
    rw [FindTopDocuments_rating ln h1.inv raw_query p docs hdocs x hx, hid, h3]
  · intro he
    simp [ComputeAverageRating, he]
  · intro hne hlen hsum
    exact ComputeAverageRating_of_range ratings hne hlen hsum

theorem C17_reported_rating_is_average_witness :
    AddedWith (spec_example_server ℚ) 1 [7, 2, 7] ∧
      FindTopDocuments (fun x => x) (spec_example_server ℚ)
          ['f', 'l', 'u', 'f', 'f', 'y', ' ', 'c', 'a', 't', ' ', '-', 'f', 'a', 'n', 'c', 'y']
          (fun _ document_status _ => decide (document_status = DocumentStatus.ACTUAL)) =
        .ok [{ id := 1, relevance := 1 / 4 * 1 + 1 / 2 * 2, rating := 5 }] ∧
      ∀ x ∈ [({ id := 1, relevance := 1 / 4 * 1 + 1 / 2 * 2, rating := 5 } : Document ℚ)],
        x.id = 1 → x.rating = ComputeAverageRating [7, 2, 7] :=
  ⟨spec_example_added, spec_example_fluffy_cat_top,
    (C17_reported_rating_is_average (fun x => x) spec_example_added
      ['f', 'l', 'u', 'f', 'f', 'y', ' ', 'c', 'a', 't', ' ', '-', 'f', 'a', 'n', 'c', 'y']
      (fun _ document_status _ => decide (document_status = DocumentStatus.ACTUAL))
      [{ id := 1, relevance := 1 / 4 * 1 + 1 / 2 * 2, rating := 5 }]
      spec_example_fluffy_cat_top).1⟩

/-- C18: `SplitIntoWords` terminates for every text (its loop has finished when the fuel
`text.length` is used up, more fuel changes nothing) and returns, in order of occurrence,
exactly the maximal runs of non-space characters: no slice is empty or contains a space,
there are as many slices as places where such a run starts, and a text that is empty or
consists of spaces yields the empty list. -/
theorem C18_split_into_words_maximal_runs (text : List Char) :
    (∀ fuel, text.length ≤ fuel →
      SplitIntoWords.loop fuel (text.dropWhile (fun x => decide (x = ' '))) [] =
        SplitIntoWords text) ∧
      Runs text (SplitIntoWords text) ∧
      (∀ slices, Runs text slices → slices = SplitIntoWords text) ∧
      (∀ w ∈ SplitIntoWords text, w ≠ [] ∧ ∀ c ∈ w, c ≠ ' ') ∧
      (SplitIntoWords text).length = run_starts true text ∧
      ((∀ c ∈ text, c = ' ') → SplitIntoWords text = []) := by
  have hruns := SplitIntoWords_runs text
  refine ⟨?_, hruns, ?_, hruns.slices, hruns.length_eq, hruns.of_spaces⟩
  · intro fuel hfuel
    have hlen := length_dropWhile_le (fun x => decide (x = ' ')) text
    unfold SplitIntoWords
    rw [SplitIntoWords.loop_fuel_enough fuel _ _ (le_trans hlen hfuel),
      SplitIntoWords.loop_fuel_enough text.length _ _ hlen]
  · intro slices hs
    exact (hruns.unique slices hs).symm

/-- C19 (the code below and at the failing input): as long as fewer than 2^31 calls
`AddFindRequest(raw_query)` were made on a queue over the store `s`, all of them
returning, every call returns what `FindTopDocuments` returns, `GetNoResultRequests()` is
the number of calls among the most recent `min(n, 1440)` that returned zero results, the
window holds `min(n, 1440)` entries (each the entry of its call), and the counter is the
number of entries marked empty.  The call number 2^31 overflows the `int` counter
`seconds_`: on the empty server, after 2147483648 calls for `cat` (which finds nothing)
`seconds_` is negative, nothing was evicted, the window holds 1441 entries and
`GetNoResultRequests()` is 1441. -/
theorem C19_window_grows_after_counter_overflow (ln : R → R) (s : Server R) :
    (∀ queries : List (List Char),
      (∀ r ∈ queries, ∃ docs, FindTopDocumentsActual ln s r = .ok docs) →
      queries.length < 2147483648 →
        (∀ pre r rest, queries = pre ++ r :: rest →
          (RequestQueue.AddFindRequest ln (RequestQueue.run ln (RequestQueue.init s) pre) r).1 =
            FindTopDocumentsActual ln s r) ∧
        (RequestQueue.run ln (RequestQueue.init s) queries).GetNoResultRequests =
          (((queries.drop (queries.length - 1440)).filter
            (RequestQueue.no_result ln s)).length : Int) ∧
        (queries.drop (queries.length - 1440)).length = min queries.length 1440 ∧
        (RequestQueue.run ln (RequestQueue.init s) queries).requests_ =
          (queries.drop (queries.length - 1440)).map (RequestQueue.entry ln s) ∧
        (RequestQueue.run ln (RequestQueue.init s) queries).requests_.length =
          min queries.length 1440 ∧
        (RequestQueue.run ln (RequestQueue.init s) queries).requests_.length ≤ 1440 ∧
        (RequestQueue.run ln (RequestQueue.init s) queries).GetNoResultRequests =
          (RequestQueue.marked_empty
            (RequestQueue.run ln (RequestQueue.init s) queries).requests_ : Int)) ∧
      FindTopDocumentsActual (fun x => x) (Server.empty [] : Server ℚ) ['c', 'a', 't'] =
        .ok [] ∧
      (RequestQueue.run (fun x => x) (RequestQueue.init (Server.empty [] : Server ℚ))
        (List.replicate 2147483648 ['c', 'a', 't'])).seconds_ = -2147483648 ∧
      (RequestQueue.run (fun x => x) (RequestQueue.init (Server.empty [] : Server ℚ))
        (List.replicate 2147483648 ['c', 'a', 't'])).requests_.length = 1441 ∧
      (RequestQueue.run (fun x => x) (RequestQueue.init (Server.empty [] : Server ℚ))
        (List.replicate 2147483648 ['c', 'a', 't'])).GetNoResultRequests = 1441 := by
  refine ⟨?_, empty_server_cat.1,
    RequestQueue.run_overflow (fun x => x) (Server.empty [] : Server ℚ) ['c', 'a', 't']
      empty_server_cat.1 2147483647 rfl⟩
  intro queries hok hn
  obtain ⟨i1, i2, i3, i4⟩ := RequestQueue.run_spec ln s queries hok hn
  have hlen : (RequestQueue.run ln (RequestQueue.init s) queries).requests_.length =
      min queries.length 1440 := by
    rw [i3, List.length_map, List.length_drop]
    omega
  refine ⟨?_, ?_, ?_, i3, hlen, ?_, i4⟩
  · intro pre r rest hq
    have hpre : pre.length < queries.length := by
      rw [hq, List.length_append, List.length_cons]
      omega
    obtain ⟨j1, j2, j3, j4⟩ := RequestQueue.run_spec ln s pre
      (fun x hx => hok x (by rw [hq]; exact List.mem_append_left _ hx)) (by omega)
    obtain ⟨vec, hvec⟩ := hok r (by rw [hq]; simp)
    have hl : (RequestQueue.run ln (RequestQueue.init s) pre).requests_.length ≤ 1440 := by
      rw [j3, List.length_map, List.length_drop]
      omega
    rw [hvec]
    exact (RequestQueue.AddFindRequest_step ln _ r vec (by rw [j1]; exact hvec)
      (by rw [j2]; omega) (by rw [j2]; omega) hl j4).1
  · show (RequestQueue.run ln (RequestQueue.init s) queries).empty_requests_ = _
    rw [i4, i3, RequestQueue.marked_empty_entries]
  · rw [List.length_drop]
    omega
  · rw [hlen]
    omega

/-- C20 (the code at the failing input): the overloads `AddFindRequest(raw_query, status)`
and `AddFindRequest(raw_query, predicate)` leave every queue as it was.  On a new queue
over the empty server each of them returns zero results for `cat`, after which the window
is still empty and `GetNoResultRequests()` is still 0; the same request through
`AddFindRequest(raw_query)` is stored in the window and makes `GetNoResultRequests()`
1. -/
theorem C20_status_and_predicate_requests_are_not_tracked (ln : R → R) (q : RequestQueue R)
    (raw_query : List Char) (status : DocumentStatus) (document_predicate : DocumentPredicate) :
    (RequestQueue.AddFindRequestStatus ln q raw_query status).2 = q ∧
      (RequestQueue.AddFindRequestPredicate ln q raw_query document_predicate).2 = q ∧
      (RequestQueue.AddFindRequestStatus (fun x => x)
        (RequestQueue.init (Server.empty [] : Server ℚ)) ['c', 'a', 't']
        DocumentStatus.ACTUAL).1 = .ok [] ∧
      (RequestQueue.AddFindRequestStatus (fun x => x)
        (RequestQueue.init (Server.empty [] : Server ℚ)) ['c', 'a', 't']
        DocumentStatus.ACTUAL).2.GetNoResultRequests = 0 ∧
      (RequestQueue.AddFindRequestStatus (fun x => x)
        (RequestQueue.init (Server.empty [] : Server ℚ)) ['c', 'a', 't']
        DocumentStatus.ACTUAL).2.requests_.length = 0 ∧
      (RequestQueue.AddFindRequestPredicate (fun x => x)
        (RequestQueue.init (Server.empty [] : Server ℚ)) ['c', 'a', 't']
        (fun _ _ _ => true)).1 = .ok [] ∧
      (RequestQueue.AddFindRequestPredicate (fun x => x)
        (RequestQueue.init (Server.empty [] : Server ℚ)) ['c', 'a', 't']
        (fun _ _ _ => true)).2.GetNoResultRequests = 0 ∧
      (RequestQueue.AddFindRequestPredicate (fun x => x)
        (RequestQueue.init (Server.empty [] : Server ℚ)) ['c', 'a', 't']
        (fun _ _ _ => true)).2.requests_.length = 0 ∧
      (RequestQueue.AddFindRequest (fun x => x)
        (RequestQueue.init (Server.empty [] : Server ℚ)) ['c', 'a', 't']).1 = .ok [] ∧
      (RequestQueue.AddFindRequest (fun x => x)
        (RequestQueue.init (Server.empty [] : Server ℚ)) ['c', 'a', 't']).2.GetNoResultRequests =
        1 ∧
      (RequestQueue.AddFindRequest (fun x => x)
        (RequestQueue.init (Server.empty [] : Server ℚ))
        ['c', 'a', 't']).2.requests_.length = 1 := by
  refine ⟨rfl, rfl, by decide, by decide, by decide, by decide, by decide, by decide,
    by decide, by decide, by decide⟩

/-- C21 (the code at the failing input): in every store reached from a fresh server by
`AddDocument` and `RemoveDocument` calls, calls that throw included, in which no
`RemoveDocument` call has read destroyed text (`Intact`), the inverted index is the
transpose of the forward index: the bucket of the term `w` maps the id `d` to `f` exactly
when `GetWordFrequencies(d)` maps `w` to `f`; and the ids with an entry in the forward
index are exactly the live ids.  After `AddDocument(0, w)`, `AddDocument(1, w)` with the
16-character word `w` and `RemoveDocument(1)`, when the destroyed text of document 1 does
not show `w` any more, the bucket of `w` maps id 1 to 1 although `GetWordFrequencies(1)`
is empty and id 1 is not live. -/
theorem C21_transpose_broken_after_lost_purge :
    (∀ s : Server R, Intact s →
        (∀ (w : Word) (d : Int) (f : R),
          (∃ bucket, StdMap.find s.word_to_document_freqs_ w = some bucket ∧
              StdMap.find bucket d = some f) ↔
            StdMap.find (GetWordFrequencies s d) w = some f) ∧
        (∀ d, d ∈ StdMap.keys s.word_frequencies_ ↔ d ∈ live_ids s)) ∧
      Intact (two_documents_server R) ∧
      (∀ read : Word → Word, read long_word ≠ long_word →
        RemoveDocumentRead read (two_documents_server R) 1 =
          (.ok (), server_after_lost_purge R)) ∧
      (∃ bucket, StdMap.find (server_after_lost_purge R).word_to_document_freqs_ long_word =
          some bucket ∧ StdMap.find bucket 1 = some (1 : R)) ∧
      GetWordFrequencies (server_after_lost_purge R) 1 = [] ∧
      StdMap.find (GetWordFrequencies (server_after_lost_purge R) 1) long_word = none ∧
      (1 : Int) ∉ live_ids (server_after_lost_purge R) := by
  refine ⟨fun s hs => inverted_index_is_transpose hs.reachable, two_documents_server_intact,
    RemoveDocumentRead_two_documents,
    ⟨_, server_after_lost_purge_facts.2.2.2.2.1, by simp [StdMap.find]⟩,
    server_after_lost_purge_facts.2.2.2.1, ?_, ?_⟩
  · rw [server_after_lost_purge_facts.2.2.2.1]
    rfl
  · rw [server_after_lost_purge_facts.1]
    simp

/-- C22 (counterexample): after `AddDocument(0, "a", ACTUAL, {})` and `RemoveDocument(0)`
on a fresh server, which both return, no document is live, yet the inverted index still
has the term `a`, whatever the destroyed text shows; when it still shows its character
the bucket of `a` is empty. -/
theorem C22_counterexample_term_without_document :
    (AddDocument (Server.empty [] : Server ℚ) 0 ['a'] DocumentStatus.ACTUAL []).1 = .ok () ∧
      (∀ read : Word → Word,
        (RemoveDocumentRead read (AddDocument (Server.empty [] : Server ℚ) 0 ['a']
          DocumentStatus.ACTUAL []).2 0).1 = .ok () ∧
        live_ids (RemoveDocumentRead read (AddDocument (Server.empty [] : Server ℚ) 0 ['a']
          DocumentStatus.ACTUAL []).2 0).2 = [] ∧
        ['a'] ∈ StdMap.keys (RemoveDocumentRead read (AddDocument (Server.empty [] : Server ℚ)
          0 ['a'] DocumentStatus.ACTUAL []).2 0).2.word_to_document_freqs_) ∧
      Reachable (server_after_remove ℚ) ∧
      live_ids (server_after_remove ℚ) = [] ∧
      StdMap.find (server_after_remove ℚ).word_to_document_freqs_ ['a'] = some [] ∧
      (∀ d, contains_word (server_after_remove ℚ) d ['a'] = false) := by
  refine ⟨by decide, ?_, server_after_remove_reachable, by decide, by decide, ?_⟩
  · intro read
    have hinv : Inv (AddDocument (Server.empty [] : Server ℚ) 0 ['a']
        DocumentStatus.ACTUAL []).2 := (Inv.empty []).add _ _ _ _
    have hlive : (0 : Int) ∈ (AddDocument (Server.empty [] : Server ℚ) 0 ['a']
        DocumentStatus.ACTUAL []).2.document_ids_ := by decide
    refine ⟨?_, ?_, ?_⟩
    · rw [RemoveDocumentRead_eq read hinv, if_pos hlive]
    · rw [RemoveDocumentRead_eq read hinv, if_pos hlive]
      show StdMap.setErase (AddDocument (Server.empty [] : Server ℚ) 0 ['a']
        DocumentStatus.ACTUAL []).2.document_ids_ 0 = []
      decide
    · rw [RemoveDocumentRead_keeps_terms]
      decide
  · intro d
    have hwf : (server_after_remove ℚ).word_frequencies_ = [] := by decide
    simp [contains_word, GetWordFrequencies_eq, hwf, StdMap.find, StdMap.keys]

/-- C22 (amended): `RemoveDocument(id)` removes no entry from the inverted index,
whatever the views into the destroyed text show: a term has an entry in the inverted
index after the call if and only if it had one before the call, and the number of
entries of a well-formed inverted index is unchanged; so the entry of a term whose
bucket the call has emptied stays. -/
theorem C22_remove_document_keeps_every_term (read : Word → Word) (s : Server R)
    (document_id : Int) :
    (∀ w : Word,
      w ∈ StdMap.keys (RemoveDocumentRead read s document_id).2.word_to_document_freqs_ ↔
        w ∈ StdMap.keys s.word_to_document_freqs_) ∧
      (∀ w : Word,
        w ∈ StdMap.keys (RemoveDocument s document_id).2.word_to_document_freqs_ ↔
          w ∈ StdMap.keys s.word_to_document_freqs_) ∧
      (StdMap.WF s.word_to_document_freqs_ →
        StdMap.size (RemoveDocumentRead read s document_id).2.word_to_document_freqs_ =
          StdMap.size s.word_to_document_freqs_) :=
  ⟨fun w => RemoveDocumentRead_keeps_terms read s document_id w,
    fun w => RemoveDocument_keeps_terms s document_id w,
    fun hwf => RemoveDocumentRead_keeps_size read s hwf document_id⟩

/-- C23: for every store and predicate, two raw queries that parse and have the same set
of inclusion terms and the same set of exclusion terms (stop words left out, repetitions
and order ignored) are handed to `FindAllDocuments` as the same query, in which no term
is repeated, and `FindTopDocuments` returns the same for both, in each of its
overloads. -/
theorem C23_same_term_sets_same_result (ln : R → R) (s : Server R)
    (first second : List Char)
    (hfirst : ∃ query, ParseQuery s first = .ok query)
    (hsecond : ∃ query, ParseQuery s second = .ok query)
    (hplus : ∀ w, w ∈ inclusion_terms s first ↔ w ∈ inclusion_terms s second)
    (hminus : ∀ w, w ∈ exclusion_terms s first ↔ w ∈ exclusion_terms s second) :
    FindTopDocuments.query s first = FindTopDocuments.query s second ∧
      (∃ query, FindTopDocuments.query s first = .ok query ∧
        query.plus_words.Nodup ∧ query.minus_words.Nodup ∧
        (∀ w, w ∈ query.plus_words ↔ w ∈ inclusion_terms s first) ∧
        (∀ w, w ∈ query.minus_words ↔ w ∈ exclusion_terms s first)) ∧
      (∀ p : DocumentPredicate,
        FindTopDocuments ln s first p = FindTopDocuments ln s second p) ∧
      (∀ status : DocumentStatus,
        FindTopDocumentsStatus ln s first status = FindTopDocumentsStatus ln s second status) ∧
      FindTopDocumentsActual ln s first = FindTopDocumentsActual ln s second := by
  obtain ⟨q1, h1⟩ := hfirst
  obtain ⟨q2, h2⟩ := hsecond
  have e1 := FindTopDocuments_query_eq s first q1 h1
  have e2 := FindTopDocuments_query_eq s second q2 h2
  have heq : FindTopDocuments.query s first = FindTopDocuments.query s second := by
    rw [e1, e2, stdUnique_stdSort_congr _ _ hplus, stdUnique_stdSort_congr _ _ hminus]
  have htop : ∀ p : DocumentPredicate,
      FindTopDocuments ln s first p = FindTopDocuments ln s second p := by
    intro p
    unfold FindTopDocuments
    rw [heq]
  refine ⟨heq, ⟨_, e1, ?_, ?_, ?_, ?_⟩, htop, ?_, ?_⟩
  · exact (sorted_stdUnique _ (sorted_stdSort_lt _)).nodup
  · exact (sorted_stdUnique _ (sorted_stdSort_lt _)).nodup
  · intro w
    show w ∈ stdUnique _ ↔ _
    rw [mem_stdUnique, mem_stdSort]
  · intro w
    show w ∈ stdUnique _ ↔ _
    rw [mem_stdUnique, mem_stdSort]
  · intro status
    exact htop _
  · exact htop _

theorem C23_same_term_sets_same_result_witness :
    (∃ query, ParseQuery example_server ['a', ' ', 'b', ' ', 'a'] = .ok query) ∧
      (∃ query, ParseQuery example_server ['b', ' ', 'a'] = .ok query) ∧
      (∀ w, w ∈ inclusion_terms example_server ['a', ' ', 'b', ' ', 'a'] ↔
        w ∈ inclusion_terms example_server ['b', ' ', 'a']) ∧
      (∀ w, w ∈ exclusion_terms example_server ['a', ' ', 'b', ' ', 'a'] ↔
        w ∈ exclusion_terms example_server ['b', ' ', 'a']) ∧
      ∀ p : DocumentPredicate,
        FindTopDocuments (fun x => x) example_server ['a', ' ', 'b', ' ', 'a'] p =
          FindTopDocuments (fun x => x) example_server ['b', ' ', 'a'] p :=
  ⟨⟨_, example_queries_parse.1⟩, ⟨_, example_queries_parse.2.1⟩,
    example_queries_same_terms.1, example_queries_same_terms.2,
    (C23_same_term_sets_same_result (fun x => x) example_server
      ['a', ' ', 'b', ' ', 'a'] ['b', ' ', 'a'] ⟨_, example_queries_parse.1⟩
      ⟨_, example_queries_parse.2.1⟩ example_queries_same_terms.1
      example_queries_same_terms.2).2.2.1⟩

/-- C24: on a reachable store, for every query that parses and every live id, the
sequential and the parallel `MatchDocument` both return, with the same status; the term
list of the parallel mode is the term list of the sequential mode with adjacent
duplicates removed; the two lists have the same members, the sequential one ascending,
the parallel one strictly ascending; and the two lists are equal when no inclusion term
is repeated in the query. -/
theorem C24_parallel_match_is_deduplicated_sequential {s : Server R} (hs : Reachable s)
    (raw_query : List Char) (query : Query) (hq : ParseQuery s raw_query = .ok query)
    (document_id : Int) (hlive : document_id ∈ live_ids s) :
    ∃ (seq_words par_words : List Word) (status : DocumentStatus),
      MatchDocument s raw_query document_id = .ok (seq_words, status) ∧
      MatchDocumentPar s raw_query document_id = .ok (par_words, status) ∧
      par_words = stdUnique seq_words ∧
      (∀ w, w ∈ par_words ↔ w ∈ seq_words) ∧
      seq_words.Sorted (fun a b => a ≤ b) ∧
      par_words.Sorted (fun a b => a < b) ∧
      ((inclusion_terms s raw_query).Nodup → par_words = seq_words) := by
  obtain ⟨⟨m, hm⟩, ⟨data, hd⟩⟩ := live_entries hs.inv hlive
  have hseq := MatchDocument_eq s raw_query query hq document_id m hm data hd
  have hpar := MatchDocumentPar_eq s raw_query query hq document_id m hm data hd
  have hsorted := (ParseQuery_sorted s raw_query query hq).1
  have hplus := (ParseQuery_ok s raw_query query hq).1
  by_cases hany : query.minus_words.any (fun w => contains_word s document_id w) = true
  · rw [if_pos hany] at hseq hpar
    exact ⟨[], [], data.status, hseq, hpar, rfl, fun w => Iff.rfl, List.sorted_nil,
      List.sorted_nil, fun _ => rfl⟩
  · rw [if_neg hany] at hseq hpar
    have hfs : (query.plus_words.filter (fun w => contains_word s document_id w)).Sorted
        (fun a b => a ≤ b) := List.Sorted.filter _ hsorted
    rw [stdSort_lt_of_sorted _ hfs] at hpar
    refine ⟨_, _, data.status, hseq, hpar, rfl, fun w => mem_stdUnique w _, hfs,
      sorted_stdUnique _ hfs, ?_⟩
    intro hnodup
    apply stdUnique_of_nodup
    apply List.Nodup.filter
    rw [hplus]
    exact (perm_stdSort _ _).nodup_iff.2 hnodup

theorem C24_parallel_match_is_deduplicated_sequential_witness :
    Reachable example_server ∧
      ParseQuery example_server ['a', ' ', 'a'] =
        .ok { plus_words := [['a'], ['a']], minus_words := [] } ∧
      (0 : Int) ∈ live_ids example_server ∧
      ∃ (seq_words par_words : List Word) (status : DocumentStatus),
        MatchDocument example_server ['a', ' ', 'a'] 0 = .ok (seq_words, status) ∧
        MatchDocumentPar example_server ['a', ' ', 'a'] 0 = .ok (par_words, status) ∧
        par_words = stdUnique seq_words ∧
        (∀ w, w ∈ par_words ↔ w ∈ seq_words) ∧
        seq_words.Sorted (fun a b => a ≤ b) ∧
        par_words.Sorted (fun a b => a < b) ∧
        ((inclusion_terms example_server ['a', ' ', 'a']).Nodup → par_words = seq_words) :=
  ⟨example_server_reachable, by decide, by decide,
    C24_parallel_match_is_deduplicated_sequential example_server_reachable ['a', ' ', 'a']
      { plus_words := [['a'], ['a']], minus_words := [] } (by decide) 0 (by decide)⟩

end SearchServer
